import Mathlib

/-!
# A verification model of tinyexpr (src/tinyexpr.c)

This file gives a shallow embedding in Lean 4 of the tinyexpr expression
compiler: the token codes and node-kind tags, the builtin table with its
binary-search lookup (find_builtin), the caller-binding lookup (find_lookup),
the lexer (next_token), the recursive-descent parser (list, expr, term,
factor, power, base), the constant-folding optimizer (optimize), the
evaluator (te_eval) and the entry points (te_compile, te_interp), together
with theorems about them.

Modelling conventions:
* Machine doubles are modelled by the type TEDouble: an exact fraction
  (integer numerator, positive natural denominator, not necessarily in
  lowest terms) plus the IEEE-754 specials +inf, -inf and NaN.  Every
  numeric value exercised by a theorem in this file is an integer that is
  exactly representable in binary64, where exact fraction arithmetic and
  IEEE double arithmetic coincide.  Transcendental libm functions (sin,
  cos, exp, ...) are external collaborators of the C source; no theorem
  here depends on their values, and they are modelled as opaque maps to
  NaN.
* C function pointers are modelled by the inductive type Fptr; pointer
  equality tests in the C parser (s->function == add, etc.) become
  constructor equality.  The code behind caller-registered function and
  closure pointers is external; it is supplied through an Env record that
  te_eval receives as a parameter.
* Pointers to caller-owned doubles (the `bound` field) are modelled as
  natural-number references read through Env.heap.  Closure context
  pointers (void*) are modelled as natural numbers.
* malloc failure has no counterpart in Lean; the parser is written with a
  fuel parameter and returns none when fuel runs out, which plays the role
  of the source's NULL-returning allocation-failure paths in te_compile.
  te_compile supplies fuel that is ample for the recursion depth the
  grammar can reach on the given input.
* strtod is libc code (an external collaborator); it is modelled for
  decimal literals (digits, fraction part, exponent part), which is the
  grammar the lexer's entry guard (a leading digit or '.') is written for.
-/

namespace TinyExpr

/-! ## Node-kind tags and token codes

tinyexpr.h is not part of src/; the numeric values below are forced by the
macros in tinyexpr.c (TYPE_MASK is an AND with 0x1F, ARITY reads the low
three bits, IS_FUNCTION tests the TE_FUNCTION0 bit, IS_CLOSURE tests the
TE_CLOSURE0 bit, IS_PURE tests TE_FLAG_PURE, and the token enum starts at
TE_CLOSURE7+1), matching the upstream tinyexpr header. -/

def TE_VARIABLE : Nat := 0
def TE_CONSTANT : Nat := 1
def TE_FUNCTION0 : Nat := 8
def TE_FUNCTION1 : Nat := 9
def TE_FUNCTION2 : Nat := 10
def TE_FUNCTION3 : Nat := 11
def TE_FUNCTION4 : Nat := 12
def TE_FUNCTION5 : Nat := 13
def TE_FUNCTION6 : Nat := 14
def TE_FUNCTION7 : Nat := 15
def TE_CLOSURE0 : Nat := 16
def TE_CLOSURE1 : Nat := 17
def TE_CLOSURE2 : Nat := 18
def TE_CLOSURE3 : Nat := 19
def TE_CLOSURE4 : Nat := 20
def TE_CLOSURE5 : Nat := 21
def TE_CLOSURE6 : Nat := 22
def TE_CLOSURE7 : Nat := 23

def TOK_NULL : Nat := 24
def TOK_ERROR : Nat := 25
def TOK_END : Nat := 26
def TOK_SEP : Nat := 27
def TOK_OPEN : Nat := 28
def TOK_CLOSE : Nat := 29
def TOK_NUMBER : Nat := 30
def TOK_VARIABLE : Nat := 31
/-- The C source's operator token code (TE_CLOSURE7 + 9 = 32; renamed from
the C source's operator token name).  It coincides numerically with
TE_FLAG_PURE, exactly as in C, where the two are used in disjoint roles
(a token code held in s->type between parse steps versus a flag bit inside
a node's type). -/
def TOK_BINOP : Nat := 32

/-- TYPE_MASK macro: ((TYPE)&0x0000001F). -/
def TYPE_MASK (t : Nat) : Nat := t &&& 0x1F

/-- TE_FLAG_PURE (value 32 from the header); IS_PURE tests this bit. -/
def TE_FLAG_PURE : Nat := 32

/-- IS_PURE macro: (((TYPE) & TE_FLAG_PURE) != 0). -/
def IS_PURE (t : Nat) : Bool := t &&& TE_FLAG_PURE != 0

/-- IS_FUNCTION macro: (((TYPE) & TE_FUNCTION0) != 0). -/
def IS_FUNCTION (t : Nat) : Bool := t &&& TE_FUNCTION0 != 0

/-- IS_CLOSURE macro: (((TYPE) & TE_CLOSURE0) != 0). -/
def IS_CLOSURE (t : Nat) : Bool := t &&& TE_CLOSURE0 != 0

/-- ARITY macro: (((TYPE) & (TE_FUNCTION0 | TE_CLOSURE0)) ? ((TYPE) & 7) : 0). -/
def ARITY (t : Nat) : Nat := if t &&& (TE_FUNCTION0 ||| TE_CLOSURE0) != 0 then t &&& 7 else 0

/-! ## The double model -/

/-- An exact binary fraction standing in for a finite IEEE-754 double.
`den` is intended to be positive; representations are not necessarily in
lowest terms.  All finite values appearing in theorems below are integers
(den = 1), on which this model agrees exactly with binary64 arithmetic. -/
structure Frac where
  num : Int
  den : Nat
deriving DecidableEq, Repr

/-- A machine double: finite value, +infinity, -infinity, or NaN. -/
inductive TEDouble where
  | fin (q : Frac)
  | pinf
  | ninf
  | nan
deriving DecidableEq, Repr

namespace TEDouble

/-- The integer-valued double n. -/
def ofInt (n : Int) : TEDouble := .fin ⟨n, 1⟩

/-- Strict order on finite fractions (cross multiplication; dens positive). -/
def fracLt (a b : Frac) : Bool := a.num * (b.den : Int) < b.num * (a.den : Int)

/-- Is this finite fraction an integer value? -/
def fracIsInt (a : Frac) : Bool := Int.tmod a.num (a.den : Int) == 0

/-- Truncation toward zero of a finite fraction (the C (unsigned int) /
(long) casts applied to a nonnegative in-range double). -/
def fracTruncNat (a : Frac) : Nat := (Int.tdiv a.num (a.den : Int)).toNat

/-- IEEE a + b restricted to the cases this model distinguishes. -/
def add : TEDouble → TEDouble → TEDouble
  | nan, _ => nan
  | _, nan => nan
  | pinf, ninf => nan
  | ninf, pinf => nan
  | pinf, _ => pinf
  | _, pinf => pinf
  | ninf, _ => ninf
  | _, ninf => ninf
  | fin a, fin b => fin ⟨a.num * b.den + b.num * a.den, a.den * b.den⟩

/-- IEEE negation (sign flip). -/
def neg : TEDouble → TEDouble
  | nan => nan
  | pinf => ninf
  | ninf => pinf
  | fin a => fin ⟨-a.num, a.den⟩

/-- IEEE a - b. -/
def sub (a b : TEDouble) : TEDouble := add a (neg b)

/-- The sign of a double for inf-multiplication case splits:
1 for positive, -1 for negative, 0 for zero. -/
def sgn : TEDouble → Int
  | nan => 0
  | pinf => 1
  | ninf => -1
  | fin a => if a.num > 0 then 1 else if a.num < 0 then -1 else 0

/-- IEEE a * b. -/
def mul : TEDouble → TEDouble → TEDouble
  | nan, _ => nan
  | _, nan => nan
  | pinf, b => if sgn b > 0 then pinf else if sgn b < 0 then ninf else nan
  | a, pinf => if sgn a > 0 then pinf else if sgn a < 0 then ninf else nan
  | ninf, b => if sgn b > 0 then ninf else if sgn b < 0 then pinf else nan
  | a, ninf => if sgn a > 0 then ninf else if sgn a < 0 then pinf else nan
  | fin a, fin b => fin ⟨a.num * b.num, a.den * b.den⟩

/-- IEEE a / b.  Division by (positive) zero follows the +0 convention;
the model has no signed zero, which no theorem below depends on. -/
def div : TEDouble → TEDouble → TEDouble
  | nan, _ => nan
  | _, nan => nan
  | pinf, pinf => nan
  | pinf, ninf => nan
  | ninf, pinf => nan
  | ninf, ninf => nan
  | pinf, b => if sgn b < 0 then ninf else pinf
  | ninf, b => if sgn b < 0 then pinf else ninf
  | _, pinf => fin ⟨0, 1⟩
  | _, ninf => fin ⟨0, 1⟩
  | fin a, fin b =>
    if b.num = 0 then
      (if a.num = 0 then nan else if a.num > 0 then pinf else ninf)
    else if b.num > 0 then fin ⟨a.num * b.den, a.den * b.num.toNat⟩
    else fin ⟨-(a.num * b.den), a.den * (-b.num).toNat⟩

/-- C fmod(a, b): a - trunc(a/b)*b, NaN when b = 0 or on non-finite input. -/
def fmod : TEDouble → TEDouble → TEDouble
  | fin a, fin b =>
    if b.num = 0 then nan
    else
      let t : Int := Int.tdiv (a.num * (b.den : Int)) (b.num * (a.den : Int))
      sub (fin a) (mul (fin ⟨t, 1⟩) (fin b))
  | fin a, pinf => fin a
  | fin a, ninf => fin a
  | _, _ => nan

/-- libm pow restricted to the cases exercised in this development:
any base with an integer exponent is computed exactly (this covers every
use of '^' and of the pow builtin in the theorems below); pow(x, 0) is 1
for every x per IEEE; a non-integer exponent, which would in general be
irrational, is modelled opaquely as NaN. -/
def pow : TEDouble → TEDouble → TEDouble
  | _, fin ⟨0, _⟩ => fin ⟨1, 1⟩
  | nan, _ => nan
  | _, nan => nan
  | fin a, fin b =>
    if fracIsInt b then
      let e : Int := Int.tdiv b.num (b.den : Int)
      if e ≥ 0 then fin ⟨a.num ^ e.toNat, a.den ^ e.toNat⟩
      else if a.num = 0 then pinf
      else fin ⟨(if (a.num < 0 ∧ (-e).toNat % 2 = 1) then -1 else 1) * a.den ^ (-e).toNat, a.num.natAbs ^ (-e).toNat⟩
    else nan
  | pinf, b => if sgn b > 0 then pinf else fin ⟨0, 1⟩
  | ninf, fin b =>
    if fracIsInt b then
      (if fracLt b ⟨0, 1⟩ then fin ⟨0, 1⟩
       else if (Int.tdiv b.num (b.den : Int)).toNat % 2 = 1 then ninf else pinf)
    else nan
  | ninf, pinf => pinf
  | ninf, ninf => fin ⟨0, 1⟩
  | fin a, pinf =>
    if fracLt ⟨1, 1⟩ ⟨a.num.natAbs, a.den⟩ then pinf
    else if fracLt ⟨a.num.natAbs, a.den⟩ ⟨1, 1⟩ then fin ⟨0, 1⟩
    else fin ⟨1, 1⟩
  | fin a, ninf =>
    if fracLt ⟨1, 1⟩ ⟨a.num.natAbs, a.den⟩ then fin ⟨0, 1⟩
    else if fracLt ⟨a.num.natAbs, a.den⟩ ⟨1, 1⟩ then pinf
    else fin ⟨1, 1⟩

/-- fabs. -/
def fabs : TEDouble → TEDouble
  | nan => nan
  | pinf => pinf
  | ninf => pinf
  | fin a => fin ⟨a.num.natAbs, a.den⟩

/-- floor. -/
def floorD : TEDouble → TEDouble
  | nan => nan
  | pinf => pinf
  | ninf => ninf
  | fin a => fin ⟨Int.fdiv a.num (a.den : Int), 1⟩

/-- ceil. -/
def ceilD : TEDouble → TEDouble
  | nan => nan
  | pinf => pinf
  | ninf => ninf
  | fin a => neg (floorD (neg (fin a)))

end TEDouble

/-! ## The combinatoric builtins fac, ncr, npr (tinyexpr.c lines 178-206)

The source compares against UINT_MAX and ULONG_MAX from limits.h; the
values below are the LP64 ones (32-bit unsigned int, 64-bit unsigned
long). -/

def UINT_MAX : Nat := 4294967295
def ULONG_MAX : Nat := 18446744073709551615

/-- Number of halvings needed to bring n below 2^53 (the fuel of 128 is
ample for any value an unsigned long can hold). -/
def dblScaleAux : Nat → Nat → Nat
  | 0, _ => 0
  | f+1, n => if n < 2 ^ 53 then 0 else dblScaleAux f (n / 2) + 1

/-- The C conversion (double)result applied to an unsigned long: exact
below 2^53, round-to-nearest-even above. -/
def doubleOfNat (n : Nat) : Frac :=
  let k := dblScaleAux 128 n
  if k = 0 then ⟨n, 1⟩
  else
    let q := n / 2 ^ k
    let r := n % 2 ^ k
    let half := 2 ^ (k - 1)
    let q' := if r > half ∨ (r = half ∧ q % 2 = 1) then q + 1 else q
    ⟨(q' * 2 ^ k : Nat), 1⟩

/-- The loop of fac: for (i = 1; i <= ua; i++) with the overflow guard
i > ULONG_MAX / result; none models the early INFINITY return.  The
first argument is structural fuel (so that the kernel can evaluate the
definition); a fuel of ua + 1 - i + 1 is exact for the loop's trip count
and the zero-fuel row is unreachable from fac. -/
def fac_loop : Nat → Nat → Nat → Nat → Option Nat
  | 0, _, _, result => some result
  | f + 1, ua, i, result =>
    if i > ua then some result
    else if i > ULONG_MAX / result then none
    else fac_loop f ua (i + 1) (result * i)

/-- IEEE ordered less-than on doubles (false whenever either side is NaN). -/
def TEDouble.lt : TEDouble → TEDouble → Bool
  | .nan, _ => false
  | _, .nan => false
  | .ninf, .ninf => false
  | .ninf, _ => true
  | _, .ninf => false
  | .pinf, _ => false
  | .fin _, .pinf => true
  | .fin a, .fin b => TEDouble.fracLt a b

/-- The C (unsigned int)/(unsigned long) cast of a double the source has
already checked to be nonnegative and in range (truncation toward zero).
The non-finite cases are unreachable behind those checks. -/
def TEDouble.truncNat : TEDouble → Nat
  | .fin a => TEDouble.fracTruncNat a
  | _ => 0

/-- fac (tinyexpr.c lines 178-191).  A NaN argument makes both C guards
false and then hits an undefined (unsigned int) cast; that C-undefined
case is modelled as NaN. -/
def fac (x : TEDouble) : TEDouble :=
  if x = .nan then .nan
  else if TEDouble.lt x (.fin ⟨0, 1⟩) then .nan
  else if TEDouble.lt (.fin ⟨UINT_MAX, 1⟩) x then .pinf
  else
    let ua := TEDouble.truncNat x
    match fac_loop (ua + 1) ua 1 1 with
    | none => .pinf
    | some result => .fin (doubleOfNat result)

/-- The loop of ncr, with un - ur + i as the factor and the exact
division by i the C code performs; none models the INFINITY return.
Structural fuel as in fac_loop. -/
def ncr_loop : Nat → Nat → Nat → Nat → Nat → Option Nat
  | 0, _, _, _, result => some result
  | f + 1, un, ur, i, result =>
    if i > ur then some result
    else if result > ULONG_MAX / (un - ur + i) then none
    else ncr_loop f un ur (i + 1) (result * (un - ur + i) / i)

/-- The truncated first argument of ncr (the C local un). -/
def ncr_un (p : Frac) : Nat := TEDouble.fracTruncNat p

/-- The truncated and symmetry-reduced second argument of ncr (the C
local ur after the ur > un/2 rewrite). -/
def ncr_ur (p q : Frac) : Nat :=
  if TEDouble.fracTruncNat q > TEDouble.fracTruncNat p / 2
  then TEDouble.fracTruncNat p - TEDouble.fracTruncNat q
  else TEDouble.fracTruncNat q

/-- ncr (tinyexpr.c lines 192-205).  As with fac, the C-undefined NaN
argument case is modelled as NaN. -/
def ncr (n r : TEDouble) : TEDouble :=
  if n = .nan ∨ r = .nan then .nan
  else if TEDouble.lt n (.fin ⟨0, 1⟩) ∨ TEDouble.lt r (.fin ⟨0, 1⟩) ∨ TEDouble.lt n r then .nan
  else if TEDouble.lt (.fin ⟨UINT_MAX, 1⟩) n ∨ TEDouble.lt (.fin ⟨UINT_MAX, 1⟩) r then .pinf
  else
    let un := TEDouble.truncNat n
    let ur0 := TEDouble.truncNat r
    let ur := if ur0 > un / 2 then un - ur0 else ur0
    match ncr_loop (ur + 1) un ur 1 1 with
    | none => .pinf
    | some result => .fin (doubleOfNat result)

/-- npr (tinyexpr.c line 206): ncr(n, r) * fac(r). -/
def npr (n r : TEDouble) : TEDouble := TEDouble.mul (ncr n r) (fac r)

/-! ## Function pointers and caller bindings -/

/-- A C function pointer value.  The parser compares pointers (for
example s->function == add); here that is constructor equality.  Pointers
to caller-supplied code are `user id`; the code they denote lives in Env. -/
inductive Fptr where
  | add | sub | mul | divide | negate | comma
  | fmodP | powP
  | fabsP | acosP | asinP | atanP | atan2P | ceilP | cosP | coshP | eP | expP
  | facP | floorP | logP | log10P | ncrP | nprP | piP | sinP | sinhP | sqrtP
  | tanP | tanhP
  | user (id : Nat)
deriving DecidableEq, Repr

instance : Inhabited Fptr := ⟨.user 0⟩

/-- The address field of a te_variable: either a pointer to a caller-owned
double (read through Env.heap) or a function pointer. -/
inductive Addr where
  | var (r : Nat)
  | fn (f : Fptr)
deriving DecidableEq, Repr

/-- te_variable (from the tinyexpr header): name, address, type, context.
The context void* is modelled as a natural number (0 for null). -/
structure TeVariable where
  name : String
  address : Addr
  type : Nat
  context : Nat
deriving DecidableEq, Repr

/-- The external code reachable through pointers: the caller's bound
doubles, caller-registered functions (by arity-many arguments), and
caller-registered closures (context pointer first, as the evaluator
passes it). -/
structure Env where
  heap : Nat → TEDouble
  ufun : Nat → List TEDouble → TEDouble
  uclo : Nat → Nat → List TEDouble → TEDouble

/-- A concrete environment for closed computations (every external call
yields NaN, every bound double reads NaN). -/
def env0 : Env := ⟨fun _ => .nan, fun _ _ => .nan, fun _ _ _ => .nan⟩

/-- Transcendental libm collaborators (sin, cos, exp, ...), modelled
opaquely: no theorem in this file depends on their values. -/
def libm1 : TEDouble → TEDouble := fun _ => .nan

/-- Two-argument libm collaborator (atan2), modelled opaquely. -/
def libm2 : TEDouble → TEDouble → TEDouble := fun _ _ => .nan

/-- The double value of the C literal in pi() (line 176); its binary64
rounding is immaterial to every theorem here. -/
def piVal : Frac := ⟨314159265358979323846, 100000000000000000000⟩

/-- The double value of the C literal in e() (line 177). -/
def eVal : Frac := ⟨271828182845904523536, 100000000000000000000⟩

/-- Calling a pointer through a zero-argument signature, as
te_eval's arity-0 dispatch does.  Calling a pointer whose C type does not
match the cast is undefined behavior in C; it is modelled as NaN. -/
def apply0 (env : Env) : Fptr → TEDouble
  | .piP => .fin piVal
  | .eP => .fin eVal
  | .user id => env.ufun id []
  | _ => .nan

/-- Calling a pointer through the one-double signature. -/
def apply1 (env : Env) (f : Fptr) (x : TEDouble) : TEDouble :=
  match f with
  | .negate => TEDouble.neg x
  | .fabsP => TEDouble.fabs x
  | .ceilP => TEDouble.ceilD x
  | .floorP => TEDouble.floorD x
  | .facP => fac x
  | .acosP | .asinP | .atanP | .cosP | .coshP | .expP | .logP | .log10P
  | .sinP | .sinhP | .sqrtP | .tanP | .tanhP => libm1 x
  | .user id => env.ufun id [x]
  | _ => .nan

/-- Calling a pointer through the two-double signature. -/
def apply2 (env : Env) (f : Fptr) (a b : TEDouble) : TEDouble :=
  match f with
  | .add => TEDouble.add a b
  | .sub => TEDouble.sub a b
  | .mul => TEDouble.mul a b
  | .divide => TEDouble.div a b
  | .fmodP => TEDouble.fmod a b
  | .powP => TEDouble.pow a b
  | .comma => b
  | .atan2P => libm2 a b
  | .ncrP => ncr a b
  | .nprP => npr a b
  | .user id => env.ufun id [a, b]
  | _ => .nan

/-- Calling a pointer through a 3..7-double signature (only
caller-registered code has these arities). -/
def applyN (env : Env) (f : Fptr) (args : List TEDouble) : TEDouble :=
  match f with
  | .user id => env.ufun id args
  | _ => .nan

/-- Calling a pointer through a closure signature: the context pointer is
the first argument.  Only caller-registered code is a closure. -/
def applyClosure (env : Env) (f : Fptr) (ctx : Nat) (args : List TEDouble) : TEDouble :=
  match f with
  | .user id => env.uclo id ctx args
  | _ => .nan

/-! ## The builtin table and name lookup (tinyexpr.c lines 213-296) -/

/-- The statically sorted builtin table (lines 213-244), without its null
sentinel row; the sentinel only shows up in the imax initialisation of
find_builtin.  This is the default build: TE_NAT_LOG is not defined, so
the entry named log carries the log10 pointer (like the log10 entry),
while ln carries the natural-log pointer. -/
def functions : List TeVariable := [
  ⟨"abs", .fn .fabsP, TE_FUNCTION1 ||| TE_FLAG_PURE, 0⟩,
  ⟨"acos", .fn .acosP, TE_FUNCTION1 ||| TE_FLAG_PURE, 0⟩,
  ⟨"asin", .fn .asinP, TE_FUNCTION1 ||| TE_FLAG_PURE, 0⟩,
  ⟨"atan", .fn .atanP, TE_FUNCTION1 ||| TE_FLAG_PURE, 0⟩,
  ⟨"atan2", .fn .atan2P, TE_FUNCTION2 ||| TE_FLAG_PURE, 0⟩,
  ⟨"ceil", .fn .ceilP, TE_FUNCTION1 ||| TE_FLAG_PURE, 0⟩,
  ⟨"cos", .fn .cosP, TE_FUNCTION1 ||| TE_FLAG_PURE, 0⟩,
  ⟨"cosh", .fn .coshP, TE_FUNCTION1 ||| TE_FLAG_PURE, 0⟩,
  ⟨"e", .fn .eP, TE_FUNCTION0 ||| TE_FLAG_PURE, 0⟩,
  ⟨"exp", .fn .expP, TE_FUNCTION1 ||| TE_FLAG_PURE, 0⟩,
  ⟨"fac", .fn .facP, TE_FUNCTION1 ||| TE_FLAG_PURE, 0⟩,
  ⟨"floor", .fn .floorP, TE_FUNCTION1 ||| TE_FLAG_PURE, 0⟩,
  ⟨"ln", .fn .logP, TE_FUNCTION1 ||| TE_FLAG_PURE, 0⟩,
  ⟨"log", .fn .log10P, TE_FUNCTION1 ||| TE_FLAG_PURE, 0⟩,
  ⟨"log10", .fn .log10P, TE_FUNCTION1 ||| TE_FLAG_PURE, 0⟩,
  ⟨"ncr", .fn .ncrP, TE_FUNCTION2 ||| TE_FLAG_PURE, 0⟩,
  ⟨"npr", .fn .nprP, TE_FUNCTION2 ||| TE_FLAG_PURE, 0⟩,
  ⟨"pi", .fn .piP, TE_FUNCTION0 ||| TE_FLAG_PURE, 0⟩,
  ⟨"pow", .fn .powP, TE_FUNCTION2 ||| TE_FLAG_PURE, 0⟩,
  ⟨"sin", .fn .sinP, TE_FUNCTION1 ||| TE_FLAG_PURE, 0⟩,
  ⟨"sinh", .fn .sinhP, TE_FUNCTION1 ||| TE_FLAG_PURE, 0⟩,
  ⟨"sqrt", .fn .sqrtP, TE_FUNCTION1 ||| TE_FLAG_PURE, 0⟩,
  ⟨"tan", .fn .tanP, TE_FUNCTION1 ||| TE_FLAG_PURE, 0⟩,
  ⟨"tanh", .fn .tanhP, TE_FUNCTION1 ||| TE_FLAG_PURE, 0⟩]

/-- The NUL character terminating C strings. -/
def nulChar : Char := Char.ofNat 0

/-- Reading character i of a C string whose characters are cs: positions
at or past the end read the NUL terminator. -/
def cstrGet (cs : List Char) (i : Nat) : Char := cs.getD i nulChar

/-- libc strncmp on the first n characters, stopping at a NUL in either
argument, with the sign conventions the callers rely on. -/
def strncmp : List Char → List Char → Nat → Int
  | _, _, 0 => 0
  | a, b, n + 1 =>
    let ca := cstrGet a 0
    let cb := cstrGet b 0
    if ca ≠ cb then (ca.toNat : Int) - (cb.toNat : Int)
    else if ca = nulChar then 0
    else strncmp a.tail b.tail n

/-- The two-stage comparison inside find_builtin's loop: c is strncmp
over len characters and, when that ties, '\0' - functions[i].name[len]. -/
def builtin_cmp (name : List Char) (fe : TeVariable) (len : Nat) : Int :=
  let c0 := strncmp name fe.name.data len
  if c0 = 0 then 0 - (cstrGet fe.name.data len).toNat else c0

/-- The binary-search loop of find_builtin (lines 252-272).  i is
imin + (imax-imin)/2.  The fuel of 32 exceeds any possible number of
iterations over the 24-entry table. -/
def find_builtin_loop : Nat → Int → Int → List Char → Nat → Option TeVariable
  | 0, _, _, _, _ => none
  | fl + 1, imin, imax, name, len =>
    if imax ≥ imin then
      match functions[(imin + (imax - imin) / 2).toNat]? with
      | none => none
      | some fe =>
        if builtin_cmp name fe len = 0 then some fe
        else if builtin_cmp name fe len > 0 then
          find_builtin_loop fl (imin + (imax - imin) / 2 + 1) imax name len
        else find_builtin_loop fl imin (imin + (imax - imin) / 2 - 1) name len
    else none

/-- find_builtin (lines 252-272): imax starts at
sizeof(functions)/sizeof(te_variable) - 2, the index of the last real
entry. -/
def find_builtin (name : List Char) (len : Nat) : Option TeVariable :=
  find_builtin_loop 32 0 (functions.length - 1 : Nat) name len

/-- The scan loop of find_lookup (lines 290-295): first entry whose name
agrees with the candidate on len characters and has length exactly len. -/
def find_lookup_loop : List TeVariable → List Char → Nat → Option TeVariable
  | [], _, _ => none
  | v :: rest, name, len =>
    if strncmp name v.name.data len = 0 ∧ cstrGet v.name.data len = nulChar then some v
    else find_lookup_loop rest name len

/-- find_lookup (lines 281-296): linear scan over the lookup_len
caller-registered bindings, in registration order. -/
def find_lookup (lookup : List TeVariable) (name : List Char) (len : Nat) : Option TeVariable :=
  find_lookup_loop lookup name len

/-! ## The expression tree (te_expr)

A te_expr is a tagged record with a type word, a value/bound/function
union, and a trailing parameter array of ARITY(type) child pointers plus,
for closures, one extra slot holding the context pointer.  The union is
modelled as three separate fields of which only the kind-relevant one is
ever meaningful; the parameter array is a list of slots, each holding a
child pointer, a context pointer, or NULL (the state new_expr's memset
leaves slots in). -/

mutual
inductive TeExpr where
  | mk : Nat → TEDouble → Nat → Fptr → List Param → TeExpr
inductive Param where
  | pexpr : TeExpr → Param
  | pctx : Nat → Param
  | pnull : Param
end

/-- The type word of a node. -/
def TeExpr.type : TeExpr → Nat
  | .mk t _ _ _ _ => t

/-- The value union member of a node (meaningful iff constant). -/
def TeExpr.value : TeExpr → TEDouble
  | .mk _ v _ _ _ => v

/-- The bound union member of a node (meaningful iff variable). -/
def TeExpr.bound : TeExpr → Nat
  | .mk _ _ b _ _ => b

/-- The function union member of a node (meaningful iff callable). -/
def TeExpr.function : TeExpr → Fptr
  | .mk _ _ _ f _ => f

/-- The parameter array of a node. -/
def TeExpr.params : TeExpr → List Param
  | .mk _ _ _ _ ps => ps

/-- Reading parameter slot i as a void* context pointer, as te_eval's
closure dispatch does; reading a child pointer or NULL through this cast
never happens on parser-built trees and is modelled as the null context. -/
def ctxOfSlot : Option Param → Nat
  | some (.pctx c) => c
  | _ => 0

/-! ## The evaluator te_eval (tinyexpr.c lines 747-785) -/

mutual

/-- te_eval: dispatch on TYPE_MASK of the node type, then on ARITY.
The C null-pointer guard (te_eval(NULL) is NaN) lives in te_eval_opt
below; child slots are evaluated through evalParam, which maps a NULL or
context slot (never dereferenced as a child on parser-built trees) to
NaN. -/
def te_eval (env : Env) : TeExpr → TEDouble
  | .mk ty v b f ps =>
    let m := TYPE_MASK ty
    if m = TE_CONSTANT then v
    else if m = TE_VARIABLE then env.heap b
    else if TE_FUNCTION0 ≤ m ∧ m ≤ TE_FUNCTION7 then
      match ARITY ty, evalChildren env ps (ARITY ty) with
      | 0, _ => apply0 env f
      | 1, [a0] => apply1 env f a0
      | 2, [a0, a1] => apply2 env f a0 a1
      | _, args => applyN env f args
    else if TE_CLOSURE0 ≤ m ∧ m ≤ TE_CLOSURE7 then
      applyClosure env f (ctxOfSlot ps[ARITY ty]?) (evalChildren env ps (ARITY ty))
    else .nan

/-- Left-to-right evaluation of the first n parameter slots
(M(0) .. M(n-1) in the C source). -/
def evalChildren (env : Env) : List Param → Nat → List TEDouble
  | _, 0 => []
  | [], _ + 1 => []
  | p :: ps, n + 1 => evalParam env p :: evalChildren env ps n

/-- Evaluating one parameter slot as a child pointer.  A NULL slot is the
C call te_eval(NULL) = NaN; a context slot dereferenced as a child would
be undefined behavior in C, never occurs on parser-built trees, and is
modelled as NaN too. -/
def evalParam (env : Env) : Param → TEDouble
  | .pexpr e => te_eval env e
  | _ => .nan

end

/-- The public te_eval, whose first line returns NaN on a NULL tree. -/
def te_eval_opt (env : Env) : Option TeExpr → TEDouble
  | none => .nan
  | some n => te_eval env n

/-! ## The optimizer (tinyexpr.c lines 794-831) -/

/-- The known flag of optimize: do the first n parameter slots all hold
constant nodes?  A missing or non-child slot among the first n (undefined
behavior in C, impossible on parser-built trees) blocks folding. -/
def paramsKnown : List Param → Nat → Bool
  | _, 0 => true
  | [], _ + 1 => false
  | p :: ps, n + 1 =>
    (match p with
     | .pexpr e => e.type == TE_CONSTANT
     | _ => false) && paramsKnown ps n

mutual

/-- optimize: constants and variables are left alone; a pure node has its
first ARITY parameter slots optimized recursively and, if all of them are
then constant nodes, is rewritten in place to a constant node carrying
te_eval of itself, its children being freed (the emptied parameter
array); a non-pure node is returned unchanged, its subtrees not visited. -/
def optimize (env : Env) : TeExpr → TeExpr
  | .mk ty v b f ps =>
    if ty = TE_CONSTANT then .mk ty v b f ps
    else if ty = TE_VARIABLE then .mk ty v b f ps
    else if IS_PURE ty then
      let ps' := optimizeChildren env ps (ARITY ty)
      if paramsKnown ps' (ARITY ty) then
        .mk TE_CONSTANT (te_eval env (.mk ty v b f ps')) b f []
      else .mk ty v b f ps'
    else .mk ty v b f ps

/-- The for loop of optimize: optimize the first n slots. -/
def optimizeChildren (env : Env) : List Param → Nat → List Param
  | ps, 0 => ps
  | [], _ + 1 => []
  | p :: ps, n + 1 => optimizeParam env p :: optimizeChildren env ps n

/-- Optimizing one parameter slot. -/
def optimizeParam (env : Env) : Param → Param
  | .pexpr e => .pexpr (optimize env e)
  | p => p

end

/-! ## The lexer (tinyexpr.c lines 311-386) -/

/-- The parser/lexer state (struct state): the input (start is offset 0,
next is the current offset), the fields of the current token (type plus
the value/bound/function union and the closure context), and the caller's
binding list (lookup; lookup_len is its length). -/
structure State where
  input : List Char
  next : Nat
  type : Nat
  value : TEDouble
  bound : Nat
  function : Fptr
  context : Nat
  lookup : List TeVariable

/-- Reading a te_variable address as a double pointer (the s->bound
assignment).  A function pointer read this way would be a C type
confusion by the caller; it is modelled as reference 0. -/
def addrVarRef : Addr → Nat
  | .var r => r
  | .fn _ => 0

/-- Reading a te_variable address as a function pointer (the s->function
assignment).  A double pointer read this way would be a C type confusion
by the caller; it is modelled as an arbitrary user pointer. -/
def addrFptr : Addr → Fptr
  | .fn f => f
  | .var _ => .user 0

/-- The identifier scan: while (isalpha || isdigit || '_') s->next++.
Structural fuel (input.length + 1 at call sites is ample). -/
def ident_end : Nat → List Char → Nat → Nat
  | 0, _, i => i
  | f + 1, input, i =>
    match input[i]? with
    | some c => if c.isAlpha ∨ c.isDigit ∨ c = '_' then ident_end f input (i + 1) else i
    | none => i

/-- A run of decimal digits starting at i: accumulated value and end
position. -/
def scan_digits : Nat → List Char → Nat → Nat → Nat × Nat
  | 0, _, i, acc => (acc, i)
  | f + 1, input, i, acc =>
    match input[i]? with
    | some c =>
      if '0' ≤ c ∧ c ≤ '9' then scan_digits f input (i + 1) (acc * 10 + (c.toNat - 48))
      else (acc, i)
    | none => (acc, i)

/-- libc strtod (an external collaborator), modelled for the decimal
grammar digits [. digits] [(e|E) [+|-] digits]: returns the parsed value
and the end position.  With no digits in the mantissa no conversion is
performed (value 0, nothing consumed); an exponent marker not followed by
a digit is not consumed, as in libc. -/
def strtod (input : List Char) (i : Nat) : Frac × Nat :=
  let fl := input.length + 1
  let (ip, j) := scan_digits fl input i 0
  let (fp, k) :=
    if input[j]? = some '.' then scan_digits fl input (j + 1) 0 else (0, j)
  let fc := if input[j]? = some '.' then k - (j + 1) else 0
  if j - i = 0 ∧ fc = 0 then (⟨0, 1⟩, i)
  else
    let mnum : Nat := ip * 10 ^ fc + fp
    let mden : Nat := 10 ^ fc
    if input[k]? = some 'e' ∨ input[k]? = some 'E' then
      let negE := input[k + 1]? = some '-'
      let p := if input[k + 1]? = some '-' ∨ input[k + 1]? = some '+' then k + 2 else k + 1
      let (ev, q) := scan_digits fl input p 0
      if q > p then
        if negE then (⟨mnum, mden * 10 ^ ev⟩, q)
        else (⟨mnum * 10 ^ ev, mden⟩, q)
      else (⟨mnum, mden⟩, k)
    else (⟨mnum, mden⟩, k)

/-- The identifier arm of next_token: resolve the name (caller bindings
first, then builtins; see lines 336-340) and fill the token from the
binding found, by the kind dispatch of lines 347-365.  A binding kind
matching no case of that switch leaves the token type untouched (the
do-while then scans on, because it is still TOK_NULL). -/
def lookup_ident (s : State) (e : Nat) : State :=
  let len := e - s.next
  let name := s.input.drop s.next
  let var :=
    match find_lookup s.lookup name len with
    | some v => some v
    | none => find_builtin name len
  match var with
  | none => { s with next := e, type := TOK_ERROR }
  | some v =>
    let m := TYPE_MASK v.type
    if m = TE_VARIABLE then
      { s with next := e, type := TOK_VARIABLE, bound := addrVarRef v.address }
    else if TE_CLOSURE0 ≤ m ∧ m ≤ TE_CLOSURE7 then
      { s with next := e, context := v.context, type := v.type,
               function := addrFptr v.address }
    else if TE_FUNCTION0 ≤ m ∧ m ≤ TE_FUNCTION7 then
      { s with next := e, type := v.type, function := addrFptr v.address }
    else { s with next := e }

/-- The do-while body of next_token, with structural fuel; every
iteration that does not produce a token (whitespace, or an identifier
whose binding kind matches no case of the dispatch switch, the token
type staying TOK_NULL) advances next, so remaining-input fuel suffices
and the zero-fuel row is unreachable from next_token. -/
def next_token_loop : Nat → State → State
  | 0, s => s
  | f + 1, s =>
    match s.input[s.next]? with
    | none => { s with type := TOK_END }
    | some c =>
      if ('0' ≤ c ∧ c ≤ '9') ∨ c = '.' then
        let (q, j) := strtod s.input s.next
        { s with value := .fin q, next := j, type := TOK_NUMBER }
      else if c.isAlpha then
        let s1 := lookup_ident s (ident_end (s.input.length + 1) s.input s.next)
        if s1.type = TOK_NULL then next_token_loop f s1 else s1
      else
        let s1 := { s with next := s.next + 1 }
        match c with
        | '+' => { s1 with type := TOK_BINOP, function := .add }
        | '-' => { s1 with type := TOK_BINOP, function := .sub }
        | '*' => { s1 with type := TOK_BINOP, function := .mul }
        | '/' => { s1 with type := TOK_BINOP, function := .divide }
        | '^' => { s1 with type := TOK_BINOP, function := .powP }
        | '%' => { s1 with type := TOK_BINOP, function := .fmodP }
        | '(' => { s1 with type := TOK_OPEN }
        | ')' => { s1 with type := TOK_CLOSE }
        | ',' => { s1 with type := TOK_SEP }
        | ' ' | '\t' | '\n' | '\r' => next_token_loop f s1
        | _ => { s1 with type := TOK_ERROR }

/-- next_token (lines 311-386): reset the token type to TOK_NULL, then
scan until a token is produced. -/
def next_token (s : State) : State :=
  next_token_loop (s.input.length + 1 - s.next) { s with type := TOK_NULL }

/-! ## The parser (tinyexpr.c lines 398-736)

One mutually recursive block; the first argument of every routine is
structural fuel, decremented on every nested call, standing in for the C
call stack (and, when exhausted, for the allocation-failure NULL paths:
absence is exactly what te_compile's root == NULL branch receives).
te_compile passes fuel ample for the grammar on the given input. -/

/-- new_expr(type, 0): all parameter slots (arity many, plus one for a
closure) are NULL from the memset; value and bound are zeroed. -/
def new_expr0 (ty : Nat) : TeExpr :=
  .mk ty (.fin ⟨0, 1⟩) 0 default
    (List.replicate (ARITY ty + (if IS_CLOSURE ty then 1 else 0)) .pnull)

/-- Writing parameter slot i of a node. -/
def setParam (e : TeExpr) (i : Nat) (p : Param) : TeExpr :=
  match e with
  | .mk t v b f ps => .mk t v b f (ps.set i p)

mutual

/-- base (lines 398-524): switch on TYPE_MASK of the current token. -/
def base : Nat → State → Option (TeExpr × State)
  | 0, _ => none
  | fl + 1, s =>
    let m := TYPE_MASK s.type
    if m = TOK_NUMBER then
      some (.mk TE_CONSTANT s.value 0 default [], next_token s)
    else if m = TOK_VARIABLE then
      some (.mk TE_VARIABLE (.fin ⟨0, 1⟩) s.bound default [], next_token s)
    else if m = TE_FUNCTION0 ∨ m = TE_CLOSURE0 then
      let ps := if IS_CLOSURE s.type then [Param.pctx s.context] else []
      let ret := TeExpr.mk s.type (.fin ⟨0, 1⟩) 0 s.function ps
      let s1 := next_token s
      if s1.type = TOK_OPEN then
        let s2 := next_token s1
        if s2.type ≠ TOK_CLOSE then some (ret, { s2 with type := TOK_ERROR })
        else some (ret, next_token s2)
      else some (ret, s1)
    else if m = TE_FUNCTION1 ∨ m = TE_CLOSURE1 then
      let ps := if IS_CLOSURE s.type then [Param.pnull, Param.pctx s.context]
                else [Param.pnull]
      let ret := TeExpr.mk s.type (.fin ⟨0, 1⟩) 0 s.function ps
      let s1 := next_token s
      match power fl s1 with
      | none => none
      | some (p, s2) => some (setParam ret 0 (.pexpr p), s2)
    else if (TE_FUNCTION2 ≤ m ∧ m ≤ TE_FUNCTION7) ∨ (TE_CLOSURE2 ≤ m ∧ m ≤ TE_CLOSURE7) then
      let arity := ARITY s.type
      let ps := List.replicate (arity + (if IS_CLOSURE s.type then 1 else 0)) Param.pnull
      let ret0 := TeExpr.mk s.type (.fin ⟨0, 1⟩) 0 s.function ps
      let ret := if IS_CLOSURE s.type then setParam ret0 arity (.pctx s.context) else ret0
      let s1 := next_token s
      if s1.type ≠ TOK_OPEN then some (ret, { s1 with type := TOK_ERROR })
      else
        match base_args fl ret arity 0 s1 with
        | none => none
        | some (ret2, i, s2) =>
          if s2.type ≠ TOK_CLOSE ∨ i ≠ arity - 1 then
            some (ret2, { s2 with type := TOK_ERROR })
          else some (ret2, next_token s2)
    else if m = TOK_OPEN then
      let s1 := next_token s
      match list fl s1 with
      | none => none
      | some (ret, s2) =>
        if s2.type ≠ TOK_CLOSE then some (ret, { s2 with type := TOK_ERROR })
        else some (ret, next_token s2)
    else
      some (.mk 0 .nan 0 default [], { s with type := TOK_ERROR })

/-- The argument loop of base for arity ≥ 2: for(i = 0; i < arity; i++)
{ next_token; parameters[i] = expr; if type != SEP break }.  Returns the
node, the loop counter at exit, and the state. -/
def base_args : Nat → TeExpr → Nat → Nat → State → Option (TeExpr × Nat × State)
  | 0, _, _, _, _ => none
  | fl + 1, ret, arity, i, s =>
    if i < arity then
      let s1 := next_token s
      match expr fl s1 with
      | none => none
      | some (e, s2) =>
        let ret1 := setParam ret i (.pexpr e)
        if s2.type = TOK_SEP then base_args fl ret1 arity (i + 1) s2
        else some (ret1, i, s2)
    else some (ret, i, s)

/-- The sign-consuming loop of power (lines 536-539): while the token is
an infix + or -, flip or keep the accumulated sign and advance. -/
def power_signs : Nat → Int → State → Int × State
  | 0, sign, s => (sign, s)
  | fl + 1, sign, s =>
    if s.type = TOK_BINOP ∧ (s.function = .add ∨ s.function = .sub) then
      power_signs fl (if s.function = .sub then -sign else sign) (next_token s)
    else (sign, s)

/-- power (lines 531-558): consume leading signs; on net positive sign
the result is base itself, on net negative it is wrapped in one pure
negate node. -/
def power : Nat → State → Option (TeExpr × State)
  | 0, _ => none
  | fl + 1, s =>
    let (sign, s1) := power_signs fl 1 s
    if sign = 1 then base fl s1
    else
      match base fl s1 with
      | none => none
      | some (b, s2) =>
        some (.mk (TE_FUNCTION1 ||| TE_FLAG_PURE) (.fin ⟨0, 1⟩) 0 .negate [.pexpr b], s2)

/-- factor (lines 621-644, the default left-associative build without
TE_POW_FROM_RIGHT): a left fold of power joined by the pow pointer. -/
def factor : Nat → State → Option (TeExpr × State)
  | 0, _ => none
  | fl + 1, s =>
    match power fl s with
    | none => none
    | some (ret, s1) => factor_loop fl ret s1

/-- The while loop of factor. -/
def factor_loop : Nat → TeExpr → State → Option (TeExpr × State)
  | 0, _, _ => none
  | fl + 1, ret, s =>
    if s.type = TOK_BINOP ∧ s.function = .powP then
      let t := s.function
      let s1 := next_token s
      match power fl s1 with
      | none => none
      | some (p, s2) =>
        factor_loop fl (.mk (TE_FUNCTION2 ||| TE_FLAG_PURE) (.fin ⟨0, 1⟩) 0 t
          [.pexpr ret, .pexpr p]) s2
    else some (ret, s)

/-- term (lines 653-678): a left fold of factor joined by * / %. -/
def term : Nat → State → Option (TeExpr × State)
  | 0, _ => none
  | fl + 1, s =>
    match factor fl s with
    | none => none
    | some (ret, s1) => term_loop fl ret s1

/-- The while loop of term. -/
def term_loop : Nat → TeExpr → State → Option (TeExpr × State)
  | 0, _, _ => none
  | fl + 1, ret, s =>
    if s.type = TOK_BINOP ∧ (s.function = .mul ∨ s.function = .divide ∨ s.function = .fmodP) then
      let t := s.function
      let s1 := next_token s
      match factor fl s1 with
      | none => none
      | some (f, s2) =>
        term_loop fl (.mk (TE_FUNCTION2 ||| TE_FLAG_PURE) (.fin ⟨0, 1⟩) 0 t
          [.pexpr ret, .pexpr f]) s2
    else some (ret, s)

/-- expr (lines 685-708): a left fold of term joined by + -. -/
def expr : Nat → State → Option (TeExpr × State)
  | 0, _ => none
  | fl + 1, s =>
    match term fl s with
    | none => none
    | some (ret, s1) => expr_loop fl ret s1

/-- The while loop of expr. -/
def expr_loop : Nat → TeExpr → State → Option (TeExpr × State)
  | 0, _, _ => none
  | fl + 1, ret, s =>
    if s.type = TOK_BINOP ∧ (s.function = .add ∨ s.function = .sub) then
      let t := s.function
      let s1 := next_token s
      match term fl s1 with
      | none => none
      | some (te, s2) =>
        expr_loop fl (.mk (TE_FUNCTION2 ||| TE_FLAG_PURE) (.fin ⟨0, 1⟩) 0 t
          [.pexpr ret, .pexpr te]) s2
    else some (ret, s)

/-- list (lines 715-736): a left fold of expr joined by the comma
function. -/
def list : Nat → State → Option (TeExpr × State)
  | 0, _ => none
  | fl + 1, s =>
    match expr fl s with
    | none => none
    | some (ret, s1) => list_loop fl ret s1

/-- The while loop of list. -/
def list_loop : Nat → TeExpr → State → Option (TeExpr × State)
  | 0, _, _ => none
  | fl + 1, ret, s =>
    if s.type = TOK_SEP then
      let s1 := next_token s
      match expr fl s1 with
      | none => none
      | some (e, s2) =>
        list_loop fl (.mk (TE_FUNCTION2 ||| TE_FLAG_PURE) (.fin ⟨0, 1⟩) 0 .comma
          [.pexpr ret, .pexpr e]) s2
    else some (ret, s)

end

/-! ## The entry points te_compile and te_interp (lines 841-897) -/

/-- The fuel te_compile hands the parser: every parser step either
consumes input or descends a grammar ladder of bounded depth, so a linear
budget with ample slack covers any input. -/
def parse_fuel (input : List Char) : Nat := 16 * input.length + 64

/-- What te_compile returns: the tree (NULL modelled as none) and the
*error out-parameter. -/
structure CompileResult where
  tree : Option TeExpr
  error : Int

/-- The state te_compile builds: start = next = expression, lookup =
variables (the union members and context are unset in C until the first
token is read; they are zero here). -/
def init_state (input : List Char) (lookup : List TeVariable) : State :=
  { input := input, next := 0, type := TOK_NULL, value := .fin ⟨0, 1⟩,
    bound := 0, function := default, context := 0, lookup := lookup }

/-- te_compile (lines 841-872): read the first token, parse a list; a
NULL root reports error -1; not reaching TOK_END frees the root and
reports the offset s.next - s.start, with 0 remapped to 1; otherwise the
root is optimized and error 0 is reported. -/
def te_compile (input : List Char) (lookup : List TeVariable) (env : Env) : CompileResult :=
  let s := next_token (init_state input lookup)
  match list (parse_fuel input) s with
  | none => ⟨none, -1⟩
  | some (root, s1) =>
    if s1.type ≠ TOK_END then
      ⟨none, if (s1.next : Int) = 0 then 1 else (s1.next : Int)⟩
    else
      ⟨some (optimize env root), 0⟩

/-- te_interp (lines 880-897): compile with no caller bindings, evaluate,
free; NaN on compile failure.  Returns the value and the error
out-parameter. -/
def te_interp (input : List Char) (env : Env) : TEDouble × Int :=
  let r := te_compile input [] env
  match r.tree with
  | none => (.nan, r.error)
  | some n => (te_eval env n, r.error)

/-! ## Tree predicates and state invariants used by the theorems -/

mutual

/-- No node of the tree has the TE_VARIABLE type mask (this also rules
out the parser's type-0 error placeholder nodes, which share that mask). -/
def treeNoVar : TeExpr → Bool
  | .mk ty _ _ _ ps => (TYPE_MASK ty != TE_VARIABLE) && paramsNoVar ps

/-- treeNoVar over a parameter list. -/
def paramsNoVar : List Param → Bool
  | [] => true
  | p :: ps => paramNoVar p && paramsNoVar ps

/-- treeNoVar over one parameter slot. -/
def paramNoVar : Param → Bool
  | .pexpr e => treeNoVar e
  | _ => true

end

mutual

/-- Every node of the tree is a constant, a variable-mask node, or
carries TE_FLAG_PURE. -/
def treePure : TeExpr → Bool
  | .mk ty _ _ _ ps =>
    (ty == TE_CONSTANT || TYPE_MASK ty == TE_VARIABLE || IS_PURE ty) && paramsPure ps

/-- treePure over a parameter list. -/
def paramsPure : List Param → Bool
  | [] => true
  | p :: ps => paramPure p && paramsPure ps

/-- treePure over one parameter slot. -/
def paramPure : Param → Bool
  | .pexpr e => treePure e
  | _ => true

end

/-- Does this parameter slot hold a context pointer? -/
def isCtxSlot : Option Param → Bool
  | some (.pctx _) => true
  | _ => false

mutual

/-- Well-formedness of a parser-built tree: a function node has exactly
arity child slots, all holding well-formed subtrees; a closure node has
arity child slots plus a context-pointer slot at index arity; any other
node has no parameter slots. -/
def goodTree : TeExpr → Bool
  | .mk ty _ _ _ ps =>
    if IS_FUNCTION ty then
      ps.length == ARITY ty && paramsGood ps (ARITY ty)
    else if IS_CLOSURE ty then
      ps.length == ARITY ty + 1 && paramsGood ps (ARITY ty) && isCtxSlot ps[ARITY ty]?
    else
      ps.isEmpty

/-- The first n slots hold well-formed subtrees. -/
def paramsGood : List Param → Nat → Bool
  | _, 0 => true
  | [], _ + 1 => false
  | p :: ps, n + 1 =>
    (match p with
     | .pexpr e => goodTree e
     | _ => false) && paramsGood ps n

end

/-- All caller bindings of function or closure kind carry TE_FLAG_PURE. -/
def pureLookup (lu : List TeVariable) : Bool :=
  lu.all fun v =>
    !(decide (8 ≤ TYPE_MASK v.type) && decide (TYPE_MASK v.type ≤ 23)) || IS_PURE v.type

/-- A state whose current token, when it is a function or closure token,
came from a pure binding. -/
def TokOK (s : State) : Prop :=
  (8 ≤ TYPE_MASK s.type ∧ TYPE_MASK s.type ≤ 23) → IS_PURE s.type

/-- The lexer and parser never touch the input or the binding list. -/
def StateInv (s s' : State) : Prop :=
  s'.input = s.input ∧ s'.lookup = s.lookup

/-- Partial well-formedness of a node under construction by base's
argument loop: the slot count matches the node's kind, the first
min k arity slots already hold well-formed subtrees, and a closure's
context slot is in place. -/
def partialGood (t : TeExpr) (k : Nat) : Bool :=
  match t with
  | .mk ty _ _ _ ps =>
    (ps.length == ARITY ty + (if IS_CLOSURE ty then 1 else 0)) &&
    paramsGood ps (min k (ARITY ty)) &&
    (!(IS_CLOSURE ty) || isCtxSlot ps[ARITY ty]?)

/-- What every tree-producing parser routine guarantees about a
successful return: the input and binding list are untouched; the state's
token stays pure-sourced; and unless the state was poisoned with
TOK_ERROR, the returned tree is well-formed, and pure when the bindings
are. -/
def Conc (s : State) (t : TeExpr) (s' : State) : Prop :=
  s'.input = s.input ∧ s'.lookup = s.lookup ∧
  (pureLookup s.lookup = true → TokOK s → TokOK s') ∧
  (s'.type ≠ TOK_ERROR → goodTree t = true) ∧
  (s'.type ≠ TOK_ERROR → TokOK s → pureLookup s.lookup = true → treePure t = true)

/-- What base's argument loop guarantees: state facts as in Conc, the
exit counter between i and arity, and the node filled through slot i'
(pure when the bindings are), unless the state was poisoned. -/
def ArgsConc (s : State) (ret : TeExpr) (i : Nat) (ret' : TeExpr) (i' : Nat) (s' : State) : Prop :=
  s'.input = s.input ∧ s'.lookup = s.lookup ∧
  (pureLookup s.lookup = true → TokOK s → TokOK s') ∧
  i ≤ i' ∧ ret'.type = ret.type ∧
  (s'.type ≠ TOK_ERROR → partialGood ret i = true → partialGood ret' (i' + 1) = true) ∧
  (s'.type ≠ TOK_ERROR → TokOK s → pureLookup s.lookup = true →
    treePure ret = true → treePure ret' = true)

/-- What the binary-operator loops (factor_loop, term_loop, expr_loop,
list_loop) guarantee, given the stated facts about the accumulated left
tree. -/
def LoopConc (ret : TeExpr) (s : State) (t : TeExpr) (s' : State) : Prop :=
  s'.input = s.input ∧ s'.lookup = s.lookup ∧
  (pureLookup s.lookup = true → TokOK s → TokOK s') ∧
  (s'.type ≠ TOK_ERROR → (s.type ≠ TOK_ERROR → goodTree ret = true) → goodTree t = true) ∧
  (s'.type ≠ TOK_ERROR → TokOK s → pureLookup s.lookup = true →
    (s.type ≠ TOK_ERROR → treePure ret = true) → treePure t = true)

mutual

/-- All nodes of a tree, in preorder. -/
def nodesOf : TeExpr → List TeExpr
  | .mk ty v b f ps => .mk ty v b f ps :: nodesOfParams ps

/-- nodesOf over a parameter list. -/
def nodesOfParams : List Param → List TeExpr
  | [] => []
  | p :: ps => nodesOfParam p ++ nodesOfParams ps

/-- nodesOf over one parameter slot. -/
def nodesOfParam : Param → List TeExpr
  | .pexpr e => nodesOf e
  | _ => []

end

/-! ## Theorems -/

/-! ### Bit-level facts about the type word -/

theorem TYPE_MASK_le (ty : Nat) : TYPE_MASK ty ≤ 31 := Nat.and_le_right

theorem IS_FUNCTION_mask (ty : Nat) : IS_FUNCTION ty = IS_FUNCTION (TYPE_MASK ty) := by
  unfold IS_FUNCTION TYPE_MASK
  rw [Nat.land_assoc]
  have h : (31 &&& TE_FUNCTION0) = TE_FUNCTION0 := by decide
  rw [h]

theorem IS_CLOSURE_mask (ty : Nat) : IS_CLOSURE ty = IS_CLOSURE (TYPE_MASK ty) := by
  unfold IS_CLOSURE TYPE_MASK
  rw [Nat.land_assoc]
  have h : (31 &&& TE_CLOSURE0) = TE_CLOSURE0 := by decide
  rw [h]

theorem ARITY_mask (ty : Nat) : ARITY ty = ARITY (TYPE_MASK ty) := by
  unfold ARITY TYPE_MASK
  rw [Nat.land_assoc, Nat.land_assoc]
  have h1 : (31 &&& (TE_FUNCTION0 ||| TE_CLOSURE0)) = TE_FUNCTION0 ||| TE_CLOSURE0 := by decide
  have h2 : (31 &&& 7) = 7 := by decide
  rw [h1, h2]

/-- A well-formed function node's mask is in the TE_FUNCTION0..7 range. -/
theorem mask_fun_range {ty : Nat} (hf : IS_FUNCTION ty = true) (hc : IS_CLOSURE ty = false) :
    8 ≤ TYPE_MASK ty ∧ TYPE_MASK ty ≤ 15 := by
  rw [IS_FUNCTION_mask] at hf
  rw [IS_CLOSURE_mask] at hc
  have h31 : TYPE_MASK ty ≤ 31 := TYPE_MASK_le ty
  have key : ∀ m : Nat, m ≤ 31 → IS_FUNCTION m = true → IS_CLOSURE m = false →
      8 ≤ m ∧ m ≤ 15 := by decide
  exact key _ h31 hf hc

/-- A well-formed closure node's mask is in the TE_CLOSURE0..7 range. -/
theorem mask_clo_range {ty : Nat} (hf : IS_FUNCTION ty = false) (hc : IS_CLOSURE ty = true) :
    16 ≤ TYPE_MASK ty ∧ TYPE_MASK ty ≤ 23 := by
  rw [IS_FUNCTION_mask] at hf
  rw [IS_CLOSURE_mask] at hc
  have h31 : TYPE_MASK ty ≤ 31 := TYPE_MASK_le ty
  have key : ∀ m : Nat, m ≤ 31 → IS_FUNCTION m = false → IS_CLOSURE m = true →
      16 ≤ m ∧ m ≤ 23 := by decide
  exact key _ h31 hf hc

/-- Neither callable bit set: the mask is outside both dispatch ranges. -/
theorem mask_other_range {ty : Nat} (hf : IS_FUNCTION ty = false) (hc : IS_CLOSURE ty = false) :
    ¬(8 ≤ TYPE_MASK ty ∧ TYPE_MASK ty ≤ 15) ∧ ¬(16 ≤ TYPE_MASK ty ∧ TYPE_MASK ty ≤ 23) := by
  rw [IS_FUNCTION_mask] at hf
  rw [IS_CLOSURE_mask] at hc
  have h31 : TYPE_MASK ty ≤ 31 := TYPE_MASK_le ty
  have key : ∀ m : Nat, m ≤ 31 → IS_FUNCTION m = false → IS_CLOSURE m = false →
      ¬(8 ≤ m ∧ m ≤ 15) ∧ ¬(16 ≤ m ∧ m ≤ 23) := by decide
  exact key _ h31 hf hc

/-- Both callable bits set (impossible on parser trees): the mask is
outside both dispatch ranges. -/
theorem mask_both_range {ty : Nat} (hf : IS_FUNCTION ty = true) (hc : IS_CLOSURE ty = true) :
    ¬(8 ≤ TYPE_MASK ty ∧ TYPE_MASK ty ≤ 15) ∧ ¬(16 ≤ TYPE_MASK ty ∧ TYPE_MASK ty ≤ 23) := by
  rw [IS_FUNCTION_mask] at hf
  rw [IS_CLOSURE_mask] at hc
  have h31 : TYPE_MASK ty ≤ 31 := TYPE_MASK_le ty
  have key : ∀ m : Nat, m ≤ 31 → IS_FUNCTION m = true → IS_CLOSURE m = true →
      ¬(8 ≤ m ∧ m ≤ 15) ∧ ¬(16 ≤ m ∧ m ≤ 23) := by decide
  exact key _ h31 hf hc

theorem ARITY_le (ty : Nat) : ARITY ty ≤ 7 := by
  unfold ARITY
  split
  · exact Nat.and_le_right
  · exact Nat.zero_le 7

/-! ### Extraction lemmas for the tree predicates -/

theorem sizeOf_child {ps : List Param} {i : Nat} {e : TeExpr}
    (h : ps[i]? = some (.pexpr e)) : sizeOf e < sizeOf ps := by
  have hm : Param.pexpr e ∈ ps := List.getElem?_mem h
  have h1 : sizeOf (Param.pexpr e) < sizeOf ps := List.sizeOf_lt_of_mem hm
  have h2 : sizeOf e < sizeOf (Param.pexpr e) := by
    simp only [Param.pexpr.sizeOf_spec]
    omega
  omega

theorem sizeOf_params (ty : Nat) (v : TEDouble) (b : Nat) (f : Fptr) (ps : List Param) :
    sizeOf ps < sizeOf (TeExpr.mk ty v b f ps) := by
  simp only [TeExpr.mk.sizeOf_spec]
  omega

theorem paramsGood_get : ∀ (ps : List Param) (n i : Nat), paramsGood ps n = true → i < n →
    ∃ e, ps[i]? = some (.pexpr e) ∧ goodTree e = true := by
  intro ps
  induction ps with
  | nil =>
    intro n i hg hi
    cases n with
    | zero => omega
    | succ n => simp [paramsGood] at hg
  | cons p ps ih =>
    intro n i hg hi
    cases n with
    | zero => omega
    | succ n =>
      cases p with
      | pexpr e =>
        simp only [paramsGood, Bool.and_eq_true] at hg
        cases i with
        | zero => exact ⟨e, by simp, hg.1⟩
        | succ i =>
          obtain ⟨e2, h1, h2⟩ := ih n i hg.2 (by omega)
          exact ⟨e2, by simpa using h1, h2⟩
      | pctx c => simp [paramsGood] at hg
      | pnull => simp [paramsGood] at hg

theorem paramsPure_get : ∀ (ps : List Param) (i : Nat) (e : TeExpr),
    paramsPure ps = true → ps[i]? = some (.pexpr e) → treePure e = true := by
  intro ps
  induction ps with
  | nil => intro i e _ h; simp at h
  | cons p ps ih =>
    intro i e hp h
    simp only [paramsPure, Bool.and_eq_true] at hp
    cases i with
    | zero =>
      simp only [List.getElem?_cons_zero, Option.some_inj] at h
      subst h
      exact hp.1
    | succ i => exact ih i e hp.2 (by simpa using h)

theorem paramsNoVar_get : ∀ (ps : List Param) (i : Nat) (e : TeExpr),
    paramsNoVar ps = true → ps[i]? = some (.pexpr e) → treeNoVar e = true := by
  intro ps
  induction ps with
  | nil => intro i e _ h; simp at h
  | cons p ps ih =>
    intro i e hp h
    simp only [paramsNoVar, Bool.and_eq_true] at hp
    cases i with
    | zero =>
      simp only [List.getElem?_cons_zero, Option.some_inj] at h
      subst h
      exact hp.1
    | succ i => exact ih i e hp.2 (by simpa using h)

/-! ### Constant-folding lemmas (claim C1) -/

theorem te_eval_constNode (env : Env) (v : TEDouble) (b : Nat) (f : Fptr) :
    te_eval env (.mk TE_CONSTANT v b f []) = v := rfl

theorem optimizeChildren_getElem_ge (env : Env) : ∀ (ps : List Param) (n i : Nat), n ≤ i →
    (optimizeChildren env ps n)[i]? = ps[i]? := by
  intro ps
  induction ps with
  | nil => intro n i _; cases n <;> rfl
  | cons p ps ih =>
    intro n i hni
    cases n with
    | zero => rfl
    | succ n =>
      cases i with
      | zero => omega
      | succ i =>
        simp only [optimizeChildren, List.getElem?_cons_succ]
        exact ih n i (by omega)

theorem optChildren_fold (env : Env) : ∀ (ps : List Param) (n : Nat),
    (∀ i e, i < n → ps[i]? = some (.pexpr e) →
      optimize env e = .mk TE_CONSTANT (te_eval env e) e.bound e.function []) →
    paramsGood ps n = true →
    paramsKnown (optimizeChildren env ps n) n = true ∧
    evalChildren env (optimizeChildren env ps n) n = evalChildren env ps n := by
  intro ps
  induction ps with
  | nil =>
    intro n hih hg
    cases n with
    | zero => exact ⟨rfl, rfl⟩
    | succ n => simp [paramsGood] at hg
  | cons p ps ih =>
    intro n hih hg
    cases n with
    | zero => exact ⟨rfl, rfl⟩
    | succ n =>
      cases p with
      | pexpr e =>
        simp only [paramsGood, Bool.and_eq_true] at hg
        have h0 := hih 0 e (by omega) (by simp)
        have ihtail := ih n
          (fun i e2 hi he2 => hih (i + 1) e2 (by omega) (by simpa using he2)) hg.2
        constructor
        · simp only [optimizeChildren, optimizeParam, paramsKnown, Bool.and_eq_true]
          rw [h0]
          exact ⟨by simp [TeExpr.type], ihtail.1⟩
        · simp only [optimizeChildren, optimizeParam, evalChildren, evalParam]
          rw [h0, te_eval_constNode, ihtail.2]
      | pctx c => simp [paramsGood] at hg
      | pnull => simp [paramsGood] at hg

/-- te_eval only looks at the first arity child slots and the context
slot at index arity; two parameter lists agreeing there evaluate alike. -/
theorem te_eval_params_congr (env : Env) (ty : Nat) (v : TEDouble) (b : Nat) (f : Fptr)
    (ps ps' : List Param)
    (hev : evalChildren env ps' (ARITY ty) = evalChildren env ps (ARITY ty))
    (hctx : ps'[ARITY ty]? = ps[ARITY ty]?) :
    te_eval env (.mk ty v b f ps') = te_eval env (.mk ty v b f ps) := by
  simp only [te_eval]
  rw [hev, hctx]

/-- Constant folding on a well-formed, variable-free, pure tree produces
one constant node carrying the tree's evaluation. -/
theorem optimize_foldable (env : Env) : ∀ (N : Nat) (t : TeExpr), sizeOf t ≤ N →
    goodTree t = true → treePure t = true → treeNoVar t = true →
    optimize env t = .mk TE_CONSTANT (te_eval env t) t.bound t.function [] := by
  intro N
  induction N with
  | zero =>
    intro t hsz
    obtain ⟨ty, v, b, f, ps⟩ := t
    simp only [TeExpr.mk.sizeOf_spec] at hsz
    omega
  | succ N ih =>
    intro t hsz hg hp hnv
    obtain ⟨ty, v, b, f, ps⟩ := t
    simp only [treePure, Bool.and_eq_true, Bool.or_eq_true, beq_iff_eq] at hp
    simp only [treeNoVar, Bool.and_eq_true, bne_iff_ne] at hnv
    rcases hp.1 with (hc | hvar) | hpure
    · subst hc
      have hps : ps = [] := by
        simp only [goodTree] at hg
        rw [if_neg (by decide), if_neg (by decide)] at hg
        simpa using hg
      subst hps
      show optimize env (.mk TE_CONSTANT v b f []) = _
      rw [te_eval_constNode]
      rfl
    · exact absurd hvar hnv.1
    · have htyc : ty ≠ TE_CONSTANT := by
        intro h
        rw [h] at hpure
        exact absurd hpure (by decide)
      have htyv : ty ≠ TE_VARIABLE := by
        intro h
        rw [h] at hpure
        exact absurd hpure (by decide)
      have hchild : ∀ i e, i < ARITY ty → ps[i]? = some (.pexpr e) →
          optimize env e = .mk TE_CONSTANT (te_eval env e) e.bound e.function [] := by
        intro i e hi he
        have hsze : sizeOf e ≤ N := by
          have h1 := sizeOf_child he
          have h2 := sizeOf_params ty v b f ps
          omega
        have hgood : goodTree e = true := by
          by_cases hfb : IS_FUNCTION ty = true
          · simp only [goodTree, if_pos hfb, Bool.and_eq_true] at hg
            obtain ⟨e2, he2, hge2⟩ := paramsGood_get ps (ARITY ty) i hg.2 hi
            rw [he] at he2
            cases he2
            exact hge2
          · by_cases hcb : IS_CLOSURE ty = true
            · simp only [goodTree, if_neg hfb, if_pos hcb, Bool.and_eq_true] at hg
              obtain ⟨e2, he2, hge2⟩ := paramsGood_get ps (ARITY ty) i hg.1.2 hi
              rw [he] at he2
              cases he2
              exact hge2
            · exfalso
              simp only [goodTree, if_neg hfb, if_neg hcb] at hg
              have : ps = [] := by simpa using hg
              rw [this] at he
              simp at he
        exact ih e hsze hgood (paramsPure_get ps i e hp.2 he) (paramsNoVar_get ps i e hnv.2 he)
      have hred : optimize env (.mk ty v b f ps) =
          (if paramsKnown (optimizeChildren env ps (ARITY ty)) (ARITY ty) then
            TeExpr.mk TE_CONSTANT
              (te_eval env (.mk ty v b f (optimizeChildren env ps (ARITY ty)))) b f []
          else .mk ty v b f (optimizeChildren env ps (ARITY ty))) := by
        simp only [optimize]
        rw [if_neg htyc, if_neg htyv, if_pos hpure]
      by_cases hfb : IS_FUNCTION ty = true
      · simp only [goodTree, if_pos hfb, Bool.and_eq_true] at hg
        have hfold := optChildren_fold env ps (ARITY ty) hchild hg.2
        rw [hred, if_pos hfold.1]
        show _ = TeExpr.mk TE_CONSTANT (te_eval env (.mk ty v b f ps)) b f []
        rw [te_eval_params_congr env ty v b f ps _ hfold.2
          (optimizeChildren_getElem_ge env ps (ARITY ty) (ARITY ty) (le_refl _))]
      · by_cases hcb : IS_CLOSURE ty = true
        · simp only [goodTree, if_neg hfb, if_pos hcb, Bool.and_eq_true] at hg
          have hfold := optChildren_fold env ps (ARITY ty) hchild hg.1.2
          rw [hred, if_pos hfold.1]
          show _ = TeExpr.mk TE_CONSTANT (te_eval env (.mk ty v b f ps)) b f []
          rw [te_eval_params_congr env ty v b f ps _ hfold.2
            (optimizeChildren_getElem_ge env ps (ARITY ty) (ARITY ty) (le_refl _))]
        · simp only [goodTree, if_neg hfb, if_neg hcb] at hg
          have hps : ps = [] := by simpa using hg
          subst hps
          have haz : ARITY ty = 0 := by
            unfold ARITY
            rw [if_neg]
            simp only [IS_FUNCTION, bne_iff_ne, ne_eq, not_not] at hfb
            simp only [IS_CLOSURE, bne_iff_ne, ne_eq, not_not] at hcb
            intro hcon
            have hor : ty &&& (TE_FUNCTION0 ||| TE_CLOSURE0) =
                (ty &&& TE_FUNCTION0) ||| (ty &&& TE_CLOSURE0) := Nat.and_or_distrib_left ..
            rw [hor] at hcon
            simp only [hfb, hcb] at hcon
            exact absurd hcon (by decide)
          rw [hred, haz]
          rfl

/-! ### C-string lemmas -/

theorem char_toNat_inj {a b : Char} (h : a.toNat = b.toNat) : a = b :=
  Char.ext (UInt32.ext h)

theorem nulChar_toNat : nulChar.toNat = 0 := by decide

theorem cstrGet_tail (cs : List Char) (i : Nat) : cstrGet cs.tail i = cstrGet cs (i + 1) := by
  cases cs <;> simp [cstrGet]

theorem cstrGet_cons_succ (c : Char) (cs : List Char) (i : Nat) :
    cstrGet (c :: cs) (i + 1) = cstrGet cs i := by
  simp [cstrGet]

/-- The chars strncmp inspects in its first argument are only the first n. -/
theorem strncmp_take (n : Nat) : ∀ (a b : List Char),
    strncmp (a.take n) b n = strncmp a b n := by
  induction n with
  | zero => intro a b; rfl
  | succ n ih =>
    intro a b
    have h0 : cstrGet (a.take (n + 1)) 0 = cstrGet a 0 := by
      cases a <;> simp [cstrGet]
    have ht : (a.take (n + 1)).tail = a.tail.take n := by
      cases a <;> simp
    simp only [strncmp, h0, ht, ih]

/-- If strncmp over n characters returns 0, the table entry's name has a
NUL at position n, the entry's characters contain no NUL, and the first n
candidate characters are NUL-free, then the entry's name is exactly the
candidate's first n characters. -/
theorem strncmp_eq_zero_take : ∀ (n : Nat) (a b : List Char),
    strncmp a b n = 0 → cstrGet b n = nulChar → nulChar ∉ b →
    (∀ j, j < n → cstrGet a j ≠ nulChar) → b = a.take n := by
  intro n
  induction n with
  | zero =>
    intro a b _ hb hbf _
    cases b with
    | nil => simp
    | cons c cs =>
      exfalso
      exact hbf (by simp [cstrGet] at hb; simp [hb])
  | succ n ih =>
    intro a b h0 hb hbf ha
    have hanul : cstrGet a 0 ≠ nulChar := ha 0 (Nat.succ_pos n)
    have heads : cstrGet a 0 = cstrGet b 0 := by
      by_contra hne
      simp only [strncmp, if_pos hne] at h0
      have : (cstrGet a 0).toNat = (cstrGet b 0).toNat := by omega
      exact hne (char_toNat_inj this)
    have hbnul : cstrGet b 0 ≠ nulChar := heads ▸ hanul
    cases a with
    | nil => exact absurd rfl hanul
    | cons ca as =>
      cases b with
      | nil => exact absurd rfl hbnul
      | cons cb bs =>
        have hca : cstrGet (ca :: as) 0 = ca := rfl
        have hcb : cstrGet (cb :: bs) 0 = cb := rfl
        have hcacb : ca = cb := by rw [← hca, ← hcb, heads]
        have htail : strncmp as bs n = 0 := by
          simp only [strncmp] at h0
          rw [if_neg (by rw [hca, hcb]; simp [hcacb]), if_neg (by rw [hca]; exact hanul)] at h0
          exact h0
        have hrec := ih as bs htail
          (by rw [← cstrGet_cons_succ cb bs n]; exact hb)
          (fun hmem => hbf (List.mem_cons_of_mem cb hmem))
          (fun j hj => by
            have hj2 := ha (j + 1) (Nat.succ_lt_succ hj)
            rwa [cstrGet_cons_succ] at hj2)
        simp [List.take, hcacb, hrec]

/-- The builtin table's names contain no NUL character. -/
theorem functions_nul_free : ∀ e ∈ functions, nulChar ∉ e.name.data := by decide

/-- The two-stage comparison ties exactly when strncmp ties and the
entry's name has a NUL right at position len. -/
theorem builtin_cmp_eq_zero {name : List Char} {fe : TeVariable} {len : Nat} :
    builtin_cmp name fe len = 0 ↔
      strncmp name fe.name.data len = 0 ∧ cstrGet fe.name.data len = nulChar := by
  unfold builtin_cmp
  by_cases hc0 : strncmp name fe.name.data len = 0
  · rw [if_pos hc0]
    constructor
    · intro h
      refine ⟨hc0, char_toNat_inj ?_⟩
      rw [nulChar_toNat]
      omega
    · intro ⟨_, h⟩
      rw [h, nulChar_toNat]
      rfl
  · rw [if_neg hc0]
    exact ⟨fun h => absurd h hc0, fun ⟨h, _⟩ => absurd h hc0⟩

/-- Soundness of the binary-search loop: whatever entry it returns passed
the two-stage comparison and is a table entry. -/
theorem find_builtin_loop_sound : ∀ (fl : Nat) (imin imax : Int) (name : List Char) (len : Nat) (e : TeVariable),
    find_builtin_loop fl imin imax name len = some e →
    e ∈ functions ∧ strncmp name e.name.data len = 0 ∧ cstrGet e.name.data len = nulChar := by
  intro fl
  induction fl with
  | zero => intro _ _ _ _ _ h; exact absurd h (by simp [find_builtin_loop])
  | succ fl ih =>
    intro imin imax name len e h
    unfold find_builtin_loop at h
    by_cases hge : imax ≥ imin
    · rw [if_pos hge] at h
      cases hidx : functions[(imin + (imax - imin) / 2).toNat]? with
      | none =>
        simp only [hidx] at h
        exact Option.noConfusion h
      | some fe =>
        simp only [hidx] at h
        by_cases hc : builtin_cmp name fe len = 0
        · rw [if_pos hc] at h
          cases h
          obtain ⟨h1, h2⟩ := builtin_cmp_eq_zero.mp hc
          exact ⟨List.getElem?_mem hidx, h1, h2⟩
        · rw [if_neg hc] at h
          by_cases hgt : builtin_cmp name fe len > 0
          · rw [if_pos hgt] at h; exact ih _ _ _ _ _ h
          · rw [if_neg hgt] at h; exact ih _ _ _ _ _ h
    · rw [if_neg hge] at h; cases h

/-- The binary-search loop only reads the first len candidate characters. -/
theorem find_builtin_loop_take : ∀ (fl : Nat) (imin imax : Int) (name : List Char) (len : Nat),
    find_builtin_loop fl imin imax (name.take len) len = find_builtin_loop fl imin imax name len := by
  intro fl
  induction fl with
  | zero => intro _ _ _ _; rfl
  | succ fl ih =>
    intro imin imax name len
    unfold find_builtin_loop
    by_cases hge : imax ≥ imin
    · rw [if_pos hge, if_pos hge]
      cases hidx : functions[(imin + (imax - imin) / 2).toNat]? with
      | none => rfl
      | some fe =>
        have hcmp : builtin_cmp (name.take len) fe len = builtin_cmp name fe len := by
          unfold builtin_cmp
          rw [strncmp_take]
        simp only [hcmp, ih]
    · rw [if_neg hge, if_neg hge]

/-- Every table entry is found by find_builtin under its own name. -/
theorem builtin_complete : ∀ e ∈ functions, find_builtin e.name.data e.name.length = some e := by
  decide

/-- C6: find_builtin is a binary search comparing the first len candidate
characters and requiring the entry name to have length exactly len, so on
a NUL-free candidate it returns precisely the entry whose name equals the
candidate's first len characters: any returned entry's name is that exact
string (so the proper prefix sin can never come back as sinh), and
conversely every table entry is found when the candidate's first len
characters spell its name. -/
theorem claim_C6 (name : List Char) (len : Nat) (hlen : len ≤ name.length)
    (hfree : ∀ j, j < len → cstrGet name j ≠ nulChar) :
    (∀ e, find_builtin name len = some e → e.name.data = name.take len) ∧
    (∀ e, e ∈ functions → e.name.data = name.take len → find_builtin name len = some e) := by
  constructor
  · intro e h
    obtain ⟨hmem, hcmp, hnul⟩ := find_builtin_loop_sound _ _ _ _ _ _ h
    exact strncmp_eq_zero_take len name e.name.data hcmp hnul (functions_nul_free e hmem) hfree
  · intro e hmem hname
    have hlen2 : e.name.length = len := by
      have h := congrArg List.length hname
      have hL : e.name.length = e.name.data.length := rfl
      simp only [List.length_take] at h
      omega
    have hcomp := builtin_complete e hmem
    unfold find_builtin at hcomp ⊢
    rw [← find_builtin_loop_take, ← hname, ← hlen2]
    exact hcomp



/-- C6's witness at a concrete identifier: sin (length 3) is found and is
exactly the sin entry, whose name is the candidate's first 3 characters. -/
theorem claim_C6_witness :
    find_builtin "sin".data 3 = some ⟨"sin", .fn .sinP, TE_FUNCTION1 ||| TE_FLAG_PURE, 0⟩ ∧
    ("sin" : String).data = ("sin".data).take 3 := by
  have h := claim_C6 "sin".data 3 (by decide) (by decide)
  exact ⟨h.2 ⟨"sin", .fn .sinP, TE_FUNCTION1 ||| TE_FLAG_PURE, 0⟩ (by decide) (by decide),
    by decide⟩

/-- Soundness of the find_lookup scan: a returned binding is in the list
and passed the comparison (strncmp 0 over len characters and a NUL at
name position len). -/
theorem find_lookup_loop_sound : ∀ (lookup : List TeVariable) (name : List Char) (len : Nat) (v : TeVariable),
    find_lookup_loop lookup name len = some v →
    v ∈ lookup ∧ strncmp name v.name.data len = 0 ∧ cstrGet v.name.data len = nulChar := by
  intro lookup
  induction lookup with
  | nil => intro _ _ _ h; exact absurd h (by simp [find_lookup_loop])
  | cons w rest ih =>
    intro name len v h
    unfold find_lookup_loop at h
    by_cases hc : strncmp name w.name.data len = 0 ∧ cstrGet w.name.data len = nulChar
    · rw [if_pos hc] at h
      cases h
      exact ⟨List.mem_cons_self _ _, hc⟩
    · rw [if_neg hc] at h
      obtain ⟨hm, hrest⟩ := ih name len v h
      exact ⟨List.mem_cons_of_mem _ hm, hrest⟩

/-- C10: find_lookup requires exact name length, not just an agreeing
prefix: any binding it returns (whose registered name, being a C string,
contains no NUL) has name exactly the candidate's first len characters;
in particular the identifier sin never matches a registered binding
sinh, and sinh never matches a registered binding sin. -/
theorem claim_C10 (lookup : List TeVariable) (name : List Char) (len : Nat)
    (hfree : ∀ j, j < len → cstrGet name j ≠ nulChar) :
    (∀ v, find_lookup lookup name len = some v → nulChar ∉ v.name.data →
      v.name.data = name.take len) ∧
    find_lookup [⟨"sinh", .var 0, TE_VARIABLE, 0⟩] "sin".data 3 = none ∧
    find_lookup [⟨"sin", .var 0, TE_VARIABLE, 0⟩] "sinh".data 4 = none := by
  refine ⟨?_, by decide, by decide⟩
  intro v h hvfree
  obtain ⟨_, hcmp, hnul⟩ := find_lookup_loop_sound lookup name len v h
  exact strncmp_eq_zero_take len name v.name.data hcmp hnul hvfree hfree

/-- C10's witness at concrete inputs: the identifier sin does match a
registered binding named sin exactly, and fails against sinh. -/
theorem claim_C10_witness :
    ("sin" : String).data = ("sin".data).take 3 ∧
    find_lookup [⟨"sinh", .var 0, TE_VARIABLE, 0⟩] "sin".data 3 = none := by
  have h := claim_C10 [⟨"sin", .var 5, TE_VARIABLE, 0⟩] "sin".data 3 (by decide)
  exact ⟨h.1 ⟨"sin", .var 5, TE_VARIABLE, 0⟩ (by decide) (by decide), h.2.1⟩

/-- C5: identifier resolution order.  find_lookup is the first-match
linear scan over the caller's bindings in registration order (it equals
List.find? of the source's matching predicate); with sin registered as a
variable at reference 3, compiling sin yields the caller's variable node
(bound 3) and evaluating it reads the caller's double, not the builtin
sine; and with no caller bindings the same identifier falls through to
the builtin table, parsing as the pure 1-argument sine function node. -/
theorem claim_C5 :
    (∀ (lookup : List TeVariable) (name : List Char) (len : Nat),
      find_lookup lookup name len =
        lookup.find? (fun v =>
          strncmp name v.name.data len == 0 && cstrGet v.name.data len == nulChar)) ∧
    (∀ env : Env, te_compile "sin".data [⟨"sin", .var 3, TE_VARIABLE, 0⟩] env =
      ⟨some (.mk TE_VARIABLE (.fin ⟨0, 1⟩) 3 default []), 0⟩) ∧
    (∀ env : Env, te_eval env (.mk TE_VARIABLE (.fin ⟨0, 1⟩) 3 default []) = env.heap 3) ∧
    (∃ s1, list (parse_fuel "sin(0)".data) (next_token (init_state "sin(0)".data [])) =
      some (.mk (TE_FUNCTION1 ||| TE_FLAG_PURE) (.fin ⟨0, 1⟩) 0 .sinP
        [.pexpr (.mk TE_CONSTANT (.fin ⟨0, 1⟩) 0 default [])], s1)) := by
  refine ⟨?_, fun env => rfl, fun env => rfl, ⟨_, rfl⟩⟩
  intro lookup name len
  induction lookup with
  | nil => rfl
  | cons v rest ih =>
    simp only [find_lookup, find_lookup_loop] at ih ⊢
    by_cases h1 : strncmp name v.name.data len = 0 ∧ cstrGet v.name.data len = nulChar
    · rw [if_pos h1, List.find?_cons_of_pos _ (by simp [h1.1, h1.2])]
    · rw [if_neg h1, List.find?_cons_of_neg _ (by
        simp only [Bool.and_eq_true, beq_iff_eq, not_and]
        intro ha hb
        exact absurd ⟨ha, hb⟩ h1), ih]

/-! ### Saturation lemmas for fac, ncr, npr (claim C7) -/

/-- The fac loop keeps a positive accumulator. -/
theorem fac_loop_pos : ∀ (f ua i r : Nat), 1 ≤ r → 1 ≤ i → ∀ out,
    fac_loop f ua i r = some out → 1 ≤ out := by
  intro f
  induction f with
  | zero =>
    intro ua i r hr _ out h
    cases h
    exact hr
  | succ f ih =>
    intro ua i r hr hi out h
    unfold fac_loop at h
    by_cases h1 : i > ua
    · rw [if_pos h1] at h; cases h; exact hr
    · rw [if_neg h1] at h
      by_cases h2 : i > ULONG_MAX / r
      · rw [if_pos h2] at h; cases h
      · rw [if_neg h2] at h
        exact ih _ _ _ (Nat.mul_le_mul hr hi) (by omega) out h

/-- The fac loop's accumulator never exceeds ULONG_MAX when it returns. -/
theorem fac_loop_le : ∀ (f ua i r : Nat), r ≤ ULONG_MAX → ∀ out,
    fac_loop f ua i r = some out → out ≤ ULONG_MAX := by
  intro f
  induction f with
  | zero =>
    intro ua i r hr out h
    cases h
    exact hr
  | succ f ih =>
    intro ua i r hr out h
    unfold fac_loop at h
    by_cases h1 : i > ua
    · rw [if_pos h1] at h; cases h; exact hr
    · rw [if_neg h1] at h
      by_cases h2 : i > ULONG_MAX / r
      · rw [if_pos h2] at h; cases h
      · rw [if_neg h2] at h
        refine ih ua (i + 1) (r * i) ?_ out h
        rcases Nat.eq_zero_or_pos r with hr0 | hpos
        · rw [hr0, Nat.zero_mul]
          exact Nat.zero_le _
        · have hle : i * r ≤ ULONG_MAX :=
            (Nat.le_div_iff_mul_le hpos).mp (Nat.le_of_not_lt h2)
          rwa [Nat.mul_comm]

/-- If the factorial of ua overflows an unsigned long, the fac loop hits
its guard and bails out (with adequate fuel and the loop invariant
result = (i-1)!). -/
theorem fac_loop_overflow : ∀ (f ua i r : Nat), 1 ≤ i → i ≤ ua + 1 →
    r = Nat.factorial (i - 1) → r ≤ ULONG_MAX →
    Nat.factorial ua > ULONG_MAX → ua + 2 - i ≤ f →
    fac_loop f ua i r = none := by
  intro f
  induction f with
  | zero => intro ua i r h1 h2 _ _ _ h6; omega
  | succ f ih =>
    intro ua i r h1 h2 hr hrU hova hf
    unfold fac_loop
    have hiua : ¬ i > ua := by
      intro hgt
      have hieq : i = ua + 1 := by omega
      subst hieq
      simp only [Nat.add_sub_cancel] at hr
      omega
    rw [if_neg hiua]
    have hrpos : 0 < r := hr ▸ Nat.factorial_pos _
    by_cases hg : i > ULONG_MAX / r
    · rw [if_pos hg]
    · rw [if_neg hg]
      have hle : i * r ≤ ULONG_MAX :=
        (Nat.le_div_iff_mul_le hrpos).mp (Nat.le_of_not_lt hg)
      have hle2 : r * i ≤ ULONG_MAX := by rwa [Nat.mul_comm]
      refine ih ua (i + 1) (r * i) (by omega) (by omega) ?_ hle2 hova (by omega)
      rw [hr]
      have hi1 : i - 1 + 1 = i := by omega
      calc Nat.factorial (i - 1) * i = i * Nat.factorial (i - 1) := Nat.mul_comm _ _
        _ = Nat.factorial i := by rw [← hi1, Nat.factorial_succ, hi1]
        _ = Nat.factorial (i + 1 - 1) := by rw [Nat.add_sub_cancel]

/-- Characterisation of the halving count the double conversion uses. -/
theorem dblScaleAux_spec : ∀ (f n : Nat), n < 2 ^ 53 * 2 ^ f →
    (dblScaleAux f n = 0 ∧ n < 2 ^ 53) ∨
    (1 ≤ dblScaleAux f n ∧ 2 ^ 53 ≤ n / 2 ^ (dblScaleAux f n - 1) ∧
      n / 2 ^ (dblScaleAux f n) < 2 ^ 53) := by
  intro f
  induction f with
  | zero =>
    intro n hn
    left
    exact ⟨rfl, by simpa using hn⟩
  | succ f ih =>
    intro n hn
    unfold dblScaleAux
    by_cases h0 : n < 2 ^ 53
    · rw [if_pos h0]; exact Or.inl ⟨rfl, h0⟩
    · rw [if_neg h0]
      have hhalf : n / 2 < 2 ^ 53 * 2 ^ f := by
        rw [Nat.div_lt_iff_lt_mul (by norm_num)]
        calc n < 2 ^ 53 * 2 ^ (f + 1) := hn
          _ = 2 ^ 53 * 2 ^ f * 2 := by ring
      have hdiv : ∀ j : Nat, n / 2 / 2 ^ j = n / 2 ^ (j + 1) := by
        intro j
        rw [Nat.div_div_eq_div_mul]
        congr 1
        rw [Nat.pow_succ]
        ring
      rcases ih (n / 2) hhalf with ⟨hk, hlt⟩ | ⟨hk1, hge, hlt⟩
      · right
        rw [hk]
        have e1 : n / 2 ^ (0 + 1 - 1) = n := by norm_num
        have e2 : n / 2 / 2 ^ 0 = n / 2 ^ (0 + 1) := hdiv 0
        refine ⟨Nat.le_refl 1, ?_, ?_⟩
        · rw [e1]
          exact Nat.le_of_not_lt h0
        · rw [← e2]
          simpa using hlt
      · right
        set k := dblScaleAux f (n / 2) with hkdef
        refine ⟨by omega, ?_, ?_⟩
        · have hk1' : k - 1 + 1 = k := by omega
          have e3 : k + 1 - 1 = k := by omega
          rw [e3, ← hk1', ← hdiv (k - 1)]
          exact hge
        · rw [← hdiv k]
          exact hlt

/-- The double conversion of a positive unsigned long is a positive
integer value. -/
theorem doubleOfNat_pos (n : Nat) (h1 : 1 ≤ n) (h2 : n ≤ ULONG_MAX) :
    0 < (doubleOfNat n).num ∧ (doubleOfNat n).den = 1 := by
  have hbound : n < 2 ^ 53 * 2 ^ 128 := by
    calc n ≤ ULONG_MAX := h2
      _ < 2 ^ 53 * 2 ^ 128 := by norm_num [ULONG_MAX]
  rcases dblScaleAux_spec 128 n hbound with ⟨hk, _⟩ | ⟨hk1, hge, _⟩
  · have heq : doubleOfNat n = ⟨(n : Int), 1⟩ := by
      unfold doubleOfNat
      rw [hk]
      rfl
    rw [heq]
    refine ⟨?_, rfl⟩
    show (0 : Int) < (n : Int)
    exact_mod_cast h1
  · simp only [doubleOfNat]
    rw [if_neg (by omega)]
    refine ⟨?_, rfl⟩
    have hq1 : 1 ≤ n / 2 ^ dblScaleAux 128 n := by
      have hk1' : dblScaleAux 128 n - 1 + 1 = dblScaleAux 128 n := by omega
      have e1 : n / 2 ^ (dblScaleAux 128 n - 1) / 2 = n / 2 ^ dblScaleAux 128 n := by
        rw [Nat.div_div_eq_div_mul, ← Nat.pow_succ]
        have hs : (dblScaleAux 128 n - 1).succ = dblScaleAux 128 n := by omega
        rw [hs]
      calc 1 ≤ 2 ^ 53 / 2 := by norm_num
        _ ≤ n / 2 ^ (dblScaleAux 128 n - 1) / 2 := Nat.div_le_div_right hge
        _ = n / 2 ^ dblScaleAux 128 n := e1
    have hq' : 0 < (if n % 2 ^ dblScaleAux 128 n > 2 ^ (dblScaleAux 128 n - 1) ∨
        (n % 2 ^ dblScaleAux 128 n = 2 ^ (dblScaleAux 128 n - 1) ∧
          n / 2 ^ dblScaleAux 128 n % 2 = 1)
        then n / 2 ^ dblScaleAux 128 n + 1 else n / 2 ^ dblScaleAux 128 n) *
          2 ^ dblScaleAux 128 n := by
      apply Nat.mul_pos
      · split <;> omega
      · exact Nat.pos_pow_of_pos _ (by norm_num)
    dsimp only
    exact_mod_cast hq'

/-- The double comparison on finite values is the fraction order. -/
theorem lt_fin_fin (a b : Frac) :
    TEDouble.lt (.fin a) (.fin b) = TEDouble.fracLt a b := rfl

/-- The fraction order unfolded. -/
theorem fracLt_iff {a b : Frac} :
    TEDouble.fracLt a b = true ↔ a.num * (b.den : Int) < b.num * (a.den : Int) := by
  simp [TEDouble.fracLt]

/-- The incremental binomial identity behind ncr's loop step. -/
theorem choose_step (m k : Nat) :
    Nat.choose m k * (m + 1) = Nat.choose (m + 1) (k + 1) * (k + 1) := by
  rw [Nat.mul_comm]
  exact Nat.succ_mul_choose_eq m k

/-- If the ncr loop returns a value, every pre-division product it formed
(the C intermediate result * (un - ur + i)) stayed within ULONG_MAX. -/
theorem ncr_loop_bounded : ∀ (f un ur i r : Nat), ur ≤ un → 1 ≤ i →
    r = Nat.choose (un - ur + i - 1) (i - 1) → ∀ out,
    ncr_loop f un ur i r = some out →
    ur + 2 - i ≤ f →
    ∀ j, i ≤ j → j ≤ ur →
      Nat.choose (un - ur + j - 1) (j - 1) * (un - ur + j) ≤ ULONG_MAX := by
  intro f
  induction f with
  | zero => intro un ur i r _ hi _ out _ hf j hij hjur; omega
  | succ f ih =>
    intro un ur i r hun hi hr out h hf j hij hjur
    unfold ncr_loop at h
    have hiur : ¬ i > ur := by omega
    rw [if_neg hiur] at h
    by_cases hg : r > ULONG_MAX / (un - ur + i)
    · rw [if_pos hg] at h; cases h
    · rw [if_neg hg] at h
      have hmpos : 0 < un - ur + i := by omega
      have hbound_i : r * (un - ur + i) ≤ ULONG_MAX :=
        (Nat.le_div_iff_mul_le hmpos).mp (Nat.le_of_not_lt hg)
      rcases Nat.eq_or_lt_of_le hij with heq | hlt
      · subst heq
        rw [← hr]
        exact hbound_i
      · have hstep : r * (un - ur + i) / i = Nat.choose (un - ur + i) i := by
          rw [hr]
          have hm : un - ur + i - 1 + 1 = un - ur + i := by omega
          have hk : i - 1 + 1 = i := by omega
          have hc := choose_step (un - ur + i - 1) (i - 1)
          rw [hm, hk] at hc
          rw [hc]
          exact Nat.mul_div_cancel _ (by omega)
        refine ih un ur (i + 1) (r * (un - ur + i) / i) hun (by omega) ?_ out h
          (by omega) j (by omega) hjur
        rw [hstep]
        congr 1

/-- Truncation toward zero is monotone on nonnegative doubles. -/
theorem fracTruncNat_mono (p q : Frac) (hp : 0 < p.den) (hq : 0 < q.den)
    (hq0 : ¬ TEDouble.fracLt q ⟨0, 1⟩ = true) (hpq : ¬ TEDouble.fracLt p q = true) :
    TEDouble.fracTruncNat q ≤ TEDouble.fracTruncNat p := by
  have hq0' : 0 ≤ q.num := by
    simp only [fracLt_iff] at hq0
    push_neg at hq0
    simpa using hq0
  have hpq' : q.num * (p.den : Int) ≤ p.num * (q.den : Int) := by
    simp only [fracLt_iff] at hpq
    push_neg at hpq
    exact hpq
  have hp0' : 0 ≤ p.num := by
    by_contra hneg
    push_neg at hneg
    have h1 : p.num * (q.den : Int) < 0 :=
      mul_neg_of_neg_of_pos hneg (by exact_mod_cast hq)
    have h2 : (0 : Int) ≤ q.num * (p.den : Int) := mul_nonneg hq0' (by positivity)
    omega
  unfold TEDouble.fracTruncNat
  rw [Int.tdiv_eq_ediv hq0' (by positivity), Int.tdiv_eq_ediv hp0' (by positivity)]
  apply Int.toNat_le_toNat
  rw [Int.le_ediv_iff_mul_le (by exact_mod_cast hp)]
  have h3 : q.num / (q.den : Int) * (q.den : Int) ≤ q.num :=
    Int.ediv_mul_le q.num (by positivity)
  have h4 : q.num / (q.den : Int) * (q.den : Int) * (p.den : Int) ≤ q.num * (p.den : Int) :=
    mul_le_mul_of_nonneg_right h3 (by positivity)
  have h5 : q.num / (q.den : Int) * (p.den : Int) * (q.den : Int) ≤ p.num * (q.den : Int) := by
    calc q.num / (q.den : Int) * (p.den : Int) * (q.den : Int)
        = q.num / (q.den : Int) * (q.den : Int) * (p.den : Int) := by ring
      _ ≤ q.num * (p.den : Int) := h4
      _ ≤ p.num * (q.den : Int) := hpq'
  exact le_of_mul_le_mul_right h5 (by exact_mod_cast hq)

/-- C7: saturation of the combinatoric builtins.  fac returns NaN on any
negative argument (including -inf) and +inf on any argument above
UINT_MAX or whose truncation has a factorial above ULONG_MAX (the loop's
intermediate-overflow guard).  ncr returns NaN when either argument is
negative or n < r, +inf when either argument exceeds UINT_MAX, and +inf
whenever any pre-division product its loop forms exceeds ULONG_MAX.  npr
= ncr * fac inherits NaN on domain violations and +inf on range
violations; the concrete instances npr(25,21), fac(21) and ncr(70,35)
exhibit intermediate-overflow saturation. -/
theorem claim_C7 :
    (∀ q : Frac, TEDouble.fracLt q ⟨0, 1⟩ → fac (.fin q) = .nan) ∧
    fac .ninf = .nan ∧
    (∀ q : Frac, ¬ TEDouble.fracLt q ⟨0, 1⟩ → TEDouble.fracLt ⟨UINT_MAX, 1⟩ q →
      fac (.fin q) = .pinf) ∧
    fac .pinf = .pinf ∧
    (∀ q : Frac, ¬ TEDouble.fracLt q ⟨0, 1⟩ → ¬ TEDouble.fracLt ⟨UINT_MAX, 1⟩ q →
      ULONG_MAX < Nat.factorial (TEDouble.fracTruncNat q) → fac (.fin q) = .pinf) ∧
    (∀ p q : Frac,
      (TEDouble.fracLt p ⟨0, 1⟩ ∨ TEDouble.fracLt q ⟨0, 1⟩ ∨ TEDouble.fracLt p q) →
      ncr (.fin p) (.fin q) = .nan) ∧
    (∀ p q : Frac, ¬ TEDouble.fracLt p ⟨0, 1⟩ → ¬ TEDouble.fracLt q ⟨0, 1⟩ →
      ¬ TEDouble.fracLt p q →
      (TEDouble.fracLt ⟨UINT_MAX, 1⟩ p ∨ TEDouble.fracLt ⟨UINT_MAX, 1⟩ q) →
      ncr (.fin p) (.fin q) = .pinf) ∧
    (∀ p q : Frac, 0 < p.den → 0 < q.den →
      ¬ TEDouble.fracLt p ⟨0, 1⟩ → ¬ TEDouble.fracLt q ⟨0, 1⟩ → ¬ TEDouble.fracLt p q →
      ¬ TEDouble.fracLt ⟨UINT_MAX, 1⟩ p → ¬ TEDouble.fracLt ⟨UINT_MAX, 1⟩ q →
      (∃ j, 1 ≤ j ∧ j ≤ ncr_ur p q ∧
        ULONG_MAX < Nat.choose (ncr_un p - ncr_ur p q + j - 1) (j - 1) *
          (ncr_un p - ncr_ur p q + j)) →
      ncr (.fin p) (.fin q) = .pinf) ∧
    (∀ p q : Frac,
      (TEDouble.fracLt p ⟨0, 1⟩ ∨ TEDouble.fracLt q ⟨0, 1⟩ ∨ TEDouble.fracLt p q) →
      npr (.fin p) (.fin q) = .nan) ∧
    (∀ p q : Frac, ¬ TEDouble.fracLt p ⟨0, 1⟩ → ¬ TEDouble.fracLt q ⟨0, 1⟩ →
      ¬ TEDouble.fracLt p q → TEDouble.fracLt ⟨UINT_MAX, 1⟩ q →
      npr (.fin p) (.fin q) = .pinf) ∧
    (∀ p q : Frac, ¬ TEDouble.fracLt p ⟨0, 1⟩ → ¬ TEDouble.fracLt q ⟨0, 1⟩ →
      ¬ TEDouble.fracLt p q → TEDouble.fracLt ⟨UINT_MAX, 1⟩ p →
      ¬ TEDouble.fracLt ⟨UINT_MAX, 1⟩ q →
      npr (.fin p) (.fin q) = .pinf) ∧
    npr (.fin ⟨25, 1⟩) (.fin ⟨21, 1⟩) = .pinf ∧
    fac (.fin ⟨21, 1⟩) = .pinf ∧
    ncr (.fin ⟨70, 1⟩) (.fin ⟨35, 1⟩) = .pinf := by
  have hfac_nan : ∀ q : Frac, TEDouble.fracLt q ⟨0, 1⟩ → fac (.fin q) = .nan := by
    intro q h
    unfold fac
    rw [if_neg (by simp), if_pos (by rw [lt_fin_fin]; exact h)]
  have hfac_big : ∀ q : Frac, ¬ TEDouble.fracLt q ⟨0, 1⟩ → TEDouble.fracLt ⟨UINT_MAX, 1⟩ q →
      fac (.fin q) = .pinf := by
    intro q h0 hU
    unfold fac
    rw [if_neg (by simp), if_neg (by rw [lt_fin_fin]; exact h0),
      if_pos (by rw [lt_fin_fin]; exact hU)]
  have hfac_red : ∀ q : Frac, ¬ TEDouble.fracLt q ⟨0, 1⟩ → ¬ TEDouble.fracLt ⟨UINT_MAX, 1⟩ q →
      fac (.fin q) =
        (match fac_loop (TEDouble.fracTruncNat q + 1) (TEDouble.fracTruncNat q) 1 1 with
          | none => TEDouble.pinf
          | some result => TEDouble.fin (doubleOfNat result)) := by
    intro q h0 hU
    unfold fac
    rw [if_neg (by simp), if_neg (by rw [lt_fin_fin]; exact h0),
      if_neg (by rw [lt_fin_fin]; exact hU)]
    rfl
  have hfac_mid : ∀ q : Frac, ¬ TEDouble.fracLt q ⟨0, 1⟩ → ¬ TEDouble.fracLt ⟨UINT_MAX, 1⟩ q →
      ULONG_MAX < Nat.factorial (TEDouble.fracTruncNat q) → fac (.fin q) = .pinf := by
    intro q h0 hU hova
    rw [hfac_red q h0 hU]
    have hnone : fac_loop (TEDouble.fracTruncNat q + 1) (TEDouble.fracTruncNat q) 1 1 = none :=
      fac_loop_overflow _ _ 1 1 (le_refl 1) (by omega) (by simp)
        (by norm_num [ULONG_MAX]) hova (by omega)
    rw [hnone]
  have hfac_fin : ∀ q : Frac, ¬ TEDouble.fracLt q ⟨0, 1⟩ → ¬ TEDouble.fracLt ⟨UINT_MAX, 1⟩ q →
      fac (.fin q) = .pinf ∨ ∃ d : Frac, fac (.fin q) = .fin d ∧ 0 < d.num := by
    intro q h0 hU
    rw [hfac_red q h0 hU]
    cases hloop : fac_loop (TEDouble.fracTruncNat q + 1) (TEDouble.fracTruncNat q) 1 1 with
    | none => exact Or.inl rfl
    | some out =>
      right
      refine ⟨doubleOfNat out, rfl, ?_⟩
      have h1 : 1 ≤ out := fac_loop_pos _ _ _ _ (le_refl 1) (le_refl 1) out hloop
      have h2 : out ≤ ULONG_MAX := fac_loop_le _ _ _ _ (by norm_num [ULONG_MAX]) out hloop
      exact (doubleOfNat_pos out h1 h2).1
  have hncr_nan : ∀ p q : Frac,
      (TEDouble.fracLt p ⟨0, 1⟩ ∨ TEDouble.fracLt q ⟨0, 1⟩ ∨ TEDouble.fracLt p q) →
      ncr (.fin p) (.fin q) = .nan := by
    intro p q h
    unfold ncr
    rw [if_neg (by simp), if_pos (by
      rw [lt_fin_fin p ⟨0, 1⟩, lt_fin_fin q ⟨0, 1⟩, lt_fin_fin p q]
      exact h)]
  have hncr_big : ∀ p q : Frac, ¬ TEDouble.fracLt p ⟨0, 1⟩ → ¬ TEDouble.fracLt q ⟨0, 1⟩ →
      ¬ TEDouble.fracLt p q →
      (TEDouble.fracLt ⟨UINT_MAX, 1⟩ p ∨ TEDouble.fracLt ⟨UINT_MAX, 1⟩ q) →
      ncr (.fin p) (.fin q) = .pinf := by
    intro p q h0p h0q hpq hU
    unfold ncr
    rw [if_neg (by simp), if_neg (by
        rw [lt_fin_fin p ⟨0, 1⟩, lt_fin_fin q ⟨0, 1⟩, lt_fin_fin p q]
        rintro (h | h | h)
        exacts [h0p h, h0q h, hpq h]),
      if_pos (by
        rw [lt_fin_fin ⟨UINT_MAX, 1⟩ p, lt_fin_fin ⟨UINT_MAX, 1⟩ q]
        exact hU)]
  have hncr_red : ∀ p q : Frac, ¬ TEDouble.fracLt p ⟨0, 1⟩ → ¬ TEDouble.fracLt q ⟨0, 1⟩ →
      ¬ TEDouble.fracLt p q →
      ¬ TEDouble.fracLt ⟨UINT_MAX, 1⟩ p → ¬ TEDouble.fracLt ⟨UINT_MAX, 1⟩ q →
      ncr (.fin p) (.fin q) =
        (match ncr_loop (ncr_ur p q + 1) (ncr_un p) (ncr_ur p q) 1 1 with
          | none => TEDouble.pinf
          | some result => TEDouble.fin (doubleOfNat result)) := by
    intro p q h0p h0q hpq hUp hUq
    unfold ncr
    rw [if_neg (by simp), if_neg (by
        rw [lt_fin_fin p ⟨0, 1⟩, lt_fin_fin q ⟨0, 1⟩, lt_fin_fin p q]
        rintro (h | h | h)
        exacts [h0p h, h0q h, hpq h]),
      if_neg (by
        rw [lt_fin_fin ⟨UINT_MAX, 1⟩ p, lt_fin_fin ⟨UINT_MAX, 1⟩ q]
        rintro (h | h)
        exacts [hUp h, hUq h])]
    rfl
  have hncr_mid : ∀ p q : Frac, 0 < p.den → 0 < q.den →
      ¬ TEDouble.fracLt p ⟨0, 1⟩ → ¬ TEDouble.fracLt q ⟨0, 1⟩ → ¬ TEDouble.fracLt p q →
      ¬ TEDouble.fracLt ⟨UINT_MAX, 1⟩ p → ¬ TEDouble.fracLt ⟨UINT_MAX, 1⟩ q →
      (∃ j, 1 ≤ j ∧ j ≤ ncr_ur p q ∧
        ULONG_MAX < Nat.choose (ncr_un p - ncr_ur p q + j - 1) (j - 1) *
          (ncr_un p - ncr_ur p q + j)) →
      ncr (.fin p) (.fin q) = .pinf := by
    intro p q hpden hqden h0p h0q hpq hUp hUq hex
    obtain ⟨j, hj1, hjur, hjover⟩ := hex
    rw [hncr_red p q h0p h0q hpq hUp hUq]
    cases hloop : ncr_loop (ncr_ur p q + 1) (ncr_un p) (ncr_ur p q) 1 1 with
    | none => rfl
    | some out =>
      exfalso
      have hun : ncr_ur p q ≤ ncr_un p := by
        unfold ncr_ur ncr_un
        split
        · omega
        · exact fracTruncNat_mono p q hpden hqden h0q hpq
      have hb := ncr_loop_bounded (ncr_ur p q + 1) (ncr_un p) (ncr_ur p q) 1 1 hun
        (le_refl 1) (by simp) out hloop (by omega) j hj1 hjur
      omega
  have hmul_nan : ∀ x : TEDouble, TEDouble.mul .nan x = .nan := by
    intro x
    cases x <;> rfl
  have hnpr_nan : ∀ p q : Frac,
      (TEDouble.fracLt p ⟨0, 1⟩ ∨ TEDouble.fracLt q ⟨0, 1⟩ ∨ TEDouble.fracLt p q) →
      npr (.fin p) (.fin q) = .nan := by
    intro p q h
    unfold npr
    rw [hncr_nan p q h]
    exact hmul_nan _
  have hnpr_bigr : ∀ p q : Frac, ¬ TEDouble.fracLt p ⟨0, 1⟩ → ¬ TEDouble.fracLt q ⟨0, 1⟩ →
      ¬ TEDouble.fracLt p q → TEDouble.fracLt ⟨UINT_MAX, 1⟩ q →
      npr (.fin p) (.fin q) = .pinf := by
    intro p q h0p h0q hpq hUq
    unfold npr
    rw [hncr_big p q h0p h0q hpq (Or.inr hUq), hfac_big q h0q hUq]
    rfl
  have hnpr_bigl : ∀ p q : Frac, ¬ TEDouble.fracLt p ⟨0, 1⟩ → ¬ TEDouble.fracLt q ⟨0, 1⟩ →
      ¬ TEDouble.fracLt p q → TEDouble.fracLt ⟨UINT_MAX, 1⟩ p →
      ¬ TEDouble.fracLt ⟨UINT_MAX, 1⟩ q →
      npr (.fin p) (.fin q) = .pinf := by
    intro p q h0p h0q hpq hUp hUq
    unfold npr
    rw [hncr_big p q h0p h0q hpq (Or.inl hUp)]
    rcases hfac_fin q h0q hUq with hf | ⟨d, hf, hd⟩
    · rw [hf]
      rfl
    · rw [hf]
      simp [TEDouble.mul, TEDouble.sgn, hd]
  exact ⟨hfac_nan, by decide, hfac_big, by decide, hfac_mid, hncr_nan, hncr_big, hncr_mid,
    hnpr_nan, hnpr_bigr, hnpr_bigl, by decide, by decide, by decide⟩

/-- C7's witness at concrete inputs: fac(-1) is NaN, fac(4294967296) and
fac(21) are +inf, ncr(2,5) is NaN, ncr(5000000000, 2) is +inf, the
intermediate-overflow case ncr(70,35) is +inf, npr(-1,1) is NaN and
npr(5000000000, 2) is +inf. -/
theorem claim_C7_witness :
    fac (.fin ⟨-1, 1⟩) = .nan ∧
    fac (.fin ⟨4294967296, 1⟩) = .pinf ∧
    fac (.fin ⟨21, 1⟩) = .pinf ∧
    ncr (.fin ⟨2, 1⟩) (.fin ⟨5, 1⟩) = .nan ∧
    ncr (.fin ⟨5000000000, 1⟩) (.fin ⟨2, 1⟩) = .pinf ∧
    ncr (.fin ⟨70, 1⟩) (.fin ⟨35, 1⟩) = .pinf ∧
    npr (.fin ⟨-1, 1⟩) (.fin ⟨1, 1⟩) = .nan ∧
    npr (.fin ⟨5000000000, 1⟩) (.fin ⟨2, 1⟩) = .pinf := by
  obtain ⟨h1, _, h3, _, h5, h6, h7, h8, h9, h10, h11, _, _, _⟩ := claim_C7
  refine ⟨h1 ⟨-1, 1⟩ (by decide), h3 ⟨4294967296, 1⟩ (by decide) (by decide), ?_,
    h6 ⟨2, 1⟩ ⟨5, 1⟩ (by decide),
    h7 ⟨5000000000, 1⟩ ⟨2, 1⟩ (by decide) (by decide) (by decide) (by decide),
    h8 ⟨70, 1⟩ ⟨35, 1⟩ (by decide) (by decide) (by decide) (by decide) (by decide)
      (by decide) (by decide) ⟨35, by decide, by decide, by decide⟩,
    h9 ⟨-1, 1⟩ ⟨1, 1⟩ (by decide),
    h11 ⟨5000000000, 1⟩ ⟨2, 1⟩ (by decide) (by decide) (by decide) (by decide) (by decide)⟩
  exact h5 ⟨21, 1⟩ (by decide) (by decide) (by decide)

/-- C3: in the default (left-associative) exponentiation build, factor is
a left fold of power values joined by the pow pointer and the unary sign
binds tighter than the caret: the variable-free inputs 2^3^2 and -2^2
compile and evaluate to 64 and 4, and their parse trees are
pow(pow(2,3),2) and pow(negate(2),2) respectively. -/
theorem claim_C3 :
    te_interp "2^3^2".data env0 = (.fin ⟨64, 1⟩, 0) ∧
    te_interp "-2^2".data env0 = (.fin ⟨4, 1⟩, 0) ∧
    (∃ s1, list (parse_fuel "2^3^2".data) (next_token (init_state "2^3^2".data [])) =
      some (.mk (TE_FUNCTION2 ||| TE_FLAG_PURE) (.fin ⟨0, 1⟩) 0 .powP
        [.pexpr (.mk (TE_FUNCTION2 ||| TE_FLAG_PURE) (.fin ⟨0, 1⟩) 0 .powP
          [.pexpr (.mk TE_CONSTANT (.fin ⟨2, 1⟩) 0 default []),
           .pexpr (.mk TE_CONSTANT (.fin ⟨3, 1⟩) 0 default [])]),
         .pexpr (.mk TE_CONSTANT (.fin ⟨2, 1⟩) 0 default [])], s1)) ∧
    (∃ s2, list (parse_fuel "-2^2".data) (next_token (init_state "-2^2".data [])) =
      some (.mk (TE_FUNCTION2 ||| TE_FLAG_PURE) (.fin ⟨0, 1⟩) 0 .powP
        [.pexpr (.mk (TE_FUNCTION1 ||| TE_FLAG_PURE) (.fin ⟨0, 1⟩) 0 .negate
          [.pexpr (.mk TE_CONSTANT (.fin ⟨2, 1⟩) 0 default [])]),
         .pexpr (.mk TE_CONSTANT (.fin ⟨2, 1⟩) 0 default [])], s2)) :=
  ⟨by decide, by decide, ⟨_, rfl⟩, ⟨_, rfl⟩⟩

/-- C8 (corrected claim): compiling foo(1), whose identifier resolves to
no caller binding and no builtin, fails for every environment, and the
reported error position is 3 — the offset just past the unknown
identifier, which the lexer has already consumed when it flags the error
— not 1. -/
theorem claim_C8 (env : Env) : te_compile "foo(1)".data [] env = ⟨none, 3⟩ := rfl

/-- C8, counterexample to the claim as stated: on the concrete input
foo(1) the compile does fail (the tree is absent), but the reported error
position is not 1. -/
theorem claim_C8_counterexample :
    (te_compile "foo(1)".data [] env0).tree.isNone = true ∧
    (te_compile "foo(1)".data [] env0).error ≠ 1 := by decide

/-- C2: te_compile's error reporting trichotomy.  When the parser yields
no root (the allocation-failure paths of the source; fuel exhaustion in
this model) the tree is absent and the error out-parameter is -1.  When a
root comes back but the END token was not reached, the tree is absent and
the error is the character offset s.next - s.start at which parsing got
stuck, remapped to 1 when it is 0, hence always ≥ 1.  When END was
reached, the error is 0 and the returned tree is the optimized root. -/
theorem claim_C2 (input : List Char) (lookup : List TeVariable) (env : Env) :
    (list (parse_fuel input) (next_token (init_state input lookup)) = none ∧
      te_compile input lookup env = ⟨none, -1⟩) ∨
    (∃ root s1, list (parse_fuel input) (next_token (init_state input lookup)) = some (root, s1) ∧
      s1.type ≠ TOK_END ∧
      te_compile input lookup env =
        ⟨none, if (s1.next : Int) = 0 then 1 else (s1.next : Int)⟩ ∧
      1 ≤ (te_compile input lookup env).error) ∨
    (∃ root s1, list (parse_fuel input) (next_token (init_state input lookup)) = some (root, s1) ∧
      s1.type = TOK_END ∧
      te_compile input lookup env = ⟨some (optimize env root), 0⟩) := by
  cases hp : list (parse_fuel input) (next_token (init_state input lookup)) with
  | none => exact Or.inl ⟨rfl, by simp only [te_compile, hp]⟩
  | some rs =>
    obtain ⟨root, s1⟩ := rs
    by_cases he : s1.type = TOK_END
    · exact Or.inr (Or.inr ⟨root, s1, rfl, he, by simp only [te_compile, hp]; simp [he]⟩)
    · refine Or.inr (Or.inl ⟨root, s1, rfl, he, ?_, ?_⟩)
      · simp only [te_compile, hp]
        simp [he]
      · simp only [te_compile, hp]
        simp only [he, if_neg, ne_eq, not_false_iff, if_true]
        split <;> omega

/-! ### Lexer invariants: next_token preserves the input and bindings and
only ever produces function or closure token types that came from a pure
source (the builtin table, or a pure caller binding) -/

/-- Every builtin table entry carries TE_FLAG_PURE. -/
theorem functions_pure : ∀ e ∈ functions, IS_PURE e.type = true := by decide

/-- A member of a pure binding list whose type mask is in the
function/closure range carries TE_FLAG_PURE. -/
theorem pureLookup_mem {lu : List TeVariable} {v : TeVariable}
    (h : pureLookup lu = true) (hm : v ∈ lu)
    (hr : 8 ≤ TYPE_MASK v.type ∧ TYPE_MASK v.type ≤ 23) : IS_PURE v.type = true := by
  unfold pureLookup at h
  rw [List.all_eq_true] at h
  have h2 := h v hm
  by_cases hp : IS_PURE v.type = true
  · exact hp
  · have hp' : IS_PURE v.type = false := Bool.eq_false_iff.mpr hp
    simp [hp', hr.1, hr.2] at h2

/-- A state whose token is a literal code outside the function/closure
mask range is trivially pure-sourced. -/
theorem TokOK_token (s : State) (t : Nat) (hs : s.type = t)
    (h : ¬(8 ≤ TYPE_MASK t ∧ TYPE_MASK t ≤ 23)) : TokOK s := by
  intro hr
  rw [hs] at hr
  exact absurd hr h

/-- The identifier arm of the lexer: input and bindings preserved, and
the produced token type is pure-sourced. -/
theorem lookup_ident_inv (s : State) (e : Nat) :
    (lookup_ident s e).input = s.input ∧ (lookup_ident s e).lookup = s.lookup ∧
    (pureLookup s.lookup = true → TokOK s → TokOK (lookup_ident s e)) := by
  unfold lookup_ident
  cases hfl : find_lookup s.lookup (s.input.drop s.next) (e - s.next) with
  | some v =>
    have hmem : v ∈ s.lookup := (find_lookup_loop_sound _ _ _ _ hfl).1
    simp only [hfl]
    by_cases h1 : TYPE_MASK v.type = TE_VARIABLE
    · rw [if_pos h1]
      exact ⟨rfl, rfl, fun _ _ => TokOK_token _ TOK_VARIABLE rfl (by decide)⟩
    · rw [if_neg h1]
      by_cases h2 : TE_CLOSURE0 ≤ TYPE_MASK v.type ∧ TYPE_MASK v.type ≤ TE_CLOSURE7
      · rw [if_pos h2]
        refine ⟨rfl, rfl, fun hpu _ _ => ?_⟩
        exact pureLookup_mem hpu hmem ⟨by have := h2.1; unfold TE_CLOSURE0 at this; omega,
          h2.2⟩
      · rw [if_neg h2]
        by_cases h3 : TE_FUNCTION0 ≤ TYPE_MASK v.type ∧ TYPE_MASK v.type ≤ TE_FUNCTION7
        · rw [if_pos h3]
          refine ⟨rfl, rfl, fun hpu _ _ => ?_⟩
          exact pureLookup_mem hpu hmem ⟨h3.1,
            by have := h3.2; unfold TE_FUNCTION7 at this; omega⟩
        · rw [if_neg h3]
          exact ⟨rfl, rfl, fun _ hok => hok⟩
  | none =>
    simp only [hfl]
    cases hfb : find_builtin (s.input.drop s.next) (e - s.next) with
    | none =>
      refine ⟨?_, ?_, ?_⟩ <;> simp only [hfb]
      exact fun _ _ => TokOK_token _ TOK_ERROR rfl (by decide)
    | some v =>
      have hmem : v ∈ functions := (find_builtin_loop_sound _ _ _ _ _ _ hfb).1
      have hpure : IS_PURE v.type = true := functions_pure v hmem
      simp only [hfb]
      by_cases h1 : TYPE_MASK v.type = TE_VARIABLE
      · rw [if_pos h1]
        exact ⟨rfl, rfl, fun _ _ => TokOK_token _ TOK_VARIABLE rfl (by decide)⟩
      · rw [if_neg h1]
        by_cases h2 : TE_CLOSURE0 ≤ TYPE_MASK v.type ∧ TYPE_MASK v.type ≤ TE_CLOSURE7
        · rw [if_pos h2]
          exact ⟨rfl, rfl, fun _ _ _ => hpure⟩
        · rw [if_neg h2]
          by_cases h3 : TE_FUNCTION0 ≤ TYPE_MASK v.type ∧ TYPE_MASK v.type ≤ TE_FUNCTION7
          · rw [if_pos h3]
            exact ⟨rfl, rfl, fun _ _ _ => hpure⟩
          · rw [if_neg h3]
            exact ⟨rfl, rfl, fun _ hok => hok⟩

/-- The lexer loop: input and bindings preserved, token pure-sourced. -/
theorem nt_loop_inv : ∀ (f : Nat) (s : State),
    (next_token_loop f s).input = s.input ∧ (next_token_loop f s).lookup = s.lookup ∧
    (pureLookup s.lookup = true → TokOK s → TokOK (next_token_loop f s)) := by
  intro f
  induction f with
  | zero => exact fun s => ⟨rfl, rfl, fun _ h => h⟩
  | succ f ih =>
    intro s
    unfold next_token_loop
    cases hc : s.input[s.next]? with
    | none => exact ⟨rfl, rfl, fun _ _ => TokOK_token _ TOK_END rfl (by decide)⟩
    | some c =>
      simp only
      by_cases hnum : ('0' ≤ c ∧ c ≤ '9') ∨ c = '.'
      · rw [if_pos hnum]
        cases hst : strtod s.input s.next with
        | mk q j =>
          exact ⟨rfl, rfl, fun _ _ => TokOK_token _ TOK_NUMBER rfl (by decide)⟩
      · rw [if_neg hnum]
        by_cases halpha : c.isAlpha = true
        · rw [if_pos halpha]
          obtain ⟨hi1, hl1, ht1⟩ :=
            lookup_ident_inv s (ident_end (s.input.length + 1) s.input s.next)
          by_cases hnull :
              (lookup_ident s (ident_end (s.input.length + 1) s.input s.next)).type = TOK_NULL
          · rw [if_pos hnull]
            obtain ⟨hi2, hl2, ht2⟩ :=
              ih (lookup_ident s (ident_end (s.input.length + 1) s.input s.next))
            exact ⟨hi2.trans hi1, hl2.trans hl1,
              fun hpu hok => ht2 (by rw [hl1]; exact hpu) (ht1 hpu hok)⟩
          · rw [if_neg hnull]
            exact ⟨hi1, hl1, ht1⟩
        · rw [if_neg halpha]
          obtain ⟨ha, hb, hc2⟩ := ih { s with next := s.next + 1 }
          split
          · exact ⟨rfl, rfl, fun _ _ => TokOK_token _ TOK_BINOP rfl (by decide)⟩
          · exact ⟨rfl, rfl, fun _ _ => TokOK_token _ TOK_BINOP rfl (by decide)⟩
          · exact ⟨rfl, rfl, fun _ _ => TokOK_token _ TOK_BINOP rfl (by decide)⟩
          · exact ⟨rfl, rfl, fun _ _ => TokOK_token _ TOK_BINOP rfl (by decide)⟩
          · exact ⟨rfl, rfl, fun _ _ => TokOK_token _ TOK_BINOP rfl (by decide)⟩
          · exact ⟨rfl, rfl, fun _ _ => TokOK_token _ TOK_BINOP rfl (by decide)⟩
          · exact ⟨rfl, rfl, fun _ _ => TokOK_token _ TOK_OPEN rfl (by decide)⟩
          · exact ⟨rfl, rfl, fun _ _ => TokOK_token _ TOK_CLOSE rfl (by decide)⟩
          · exact ⟨rfl, rfl, fun _ _ => TokOK_token _ TOK_SEP rfl (by decide)⟩
          · exact ⟨ha, hb, fun hpu hok => hc2 hpu hok⟩
          · exact ⟨ha, hb, fun hpu hok => hc2 hpu hok⟩
          · exact ⟨ha, hb, fun hpu hok => hc2 hpu hok⟩
          · exact ⟨ha, hb, fun hpu hok => hc2 hpu hok⟩
          · exact ⟨rfl, rfl, fun _ _ => TokOK_token _ TOK_ERROR rfl (by decide)⟩

/-- next_token: the input and the binding list are preserved, and after a
scan over pure bindings the token, if of function or closure type,
carries TE_FLAG_PURE. -/
theorem next_token_inv (s : State) :
    (next_token s).input = s.input ∧ (next_token s).lookup = s.lookup ∧
    (pureLookup s.lookup = true → TokOK (next_token s)) := by
  unfold next_token
  obtain ⟨h1, h2, h3⟩ := nt_loop_inv (s.input.length + 1 - s.next) { s with type := TOK_NULL }
  exact ⟨h1, h2, fun hpu => h3 hpu (TokOK_token _ TOK_NULL rfl (by decide))⟩

/-! ### Structural lemmas about partially built nodes (base's
constructors and argument loop) -/

/-- A mask in the function range forces the function bit and rules out
the closure bit. -/
theorem bits_of_mask_fun {ty : Nat} (h8 : 8 ≤ TYPE_MASK ty) (h15 : TYPE_MASK ty ≤ 15) :
    IS_FUNCTION ty = true ∧ IS_CLOSURE ty = false := by
  rw [IS_FUNCTION_mask, IS_CLOSURE_mask]
  have key : ∀ m : Nat, m ≤ 15 → 8 ≤ m → IS_FUNCTION m = true ∧ IS_CLOSURE m = false := by
    decide
  exact key _ h15 h8

/-- A mask in the closure range forces the closure bit and rules out the
function bit. -/
theorem bits_of_mask_clo {ty : Nat} (h16 : 16 ≤ TYPE_MASK ty) (h23 : TYPE_MASK ty ≤ 23) :
    IS_FUNCTION ty = false ∧ IS_CLOSURE ty = true := by
  rw [IS_FUNCTION_mask, IS_CLOSURE_mask]
  have key : ∀ m : Nat, m ≤ 23 → 16 ≤ m → IS_FUNCTION m = false ∧ IS_CLOSURE m = true := by
    decide
  exact key _ h23 h16

/-- ARITY is the low three bits of the mask whenever a kind bit is set. -/
theorem ARITY_of_mask {ty m : Nat} (hm : TYPE_MASK ty = m) : ARITY ty = ARITY m := by
  rw [ARITY_mask, hm]

/-- NULL parameter slots are pure. -/
theorem paramsPure_replicate : ∀ n : Nat, paramsPure (List.replicate n .pnull) = true := by
  intro n
  induction n with
  | zero => rfl
  | succ n ih => simpa [List.replicate_succ, paramsPure, paramPure] using ih

/-- Setting a pure slot keeps a parameter list pure. -/
theorem paramsPure_set : ∀ (ps : List Param) (i : Nat) (p : Param),
    paramsPure ps = true → paramPure p = true → paramsPure (ps.set i p) = true := by
  intro ps
  induction ps with
  | nil => intro i p h _; exact h
  | cons q ps ih =>
    intro i p h hp
    simp only [paramsPure, Bool.and_eq_true] at h
    cases i with
    | zero => simp only [List.set_cons_zero, paramsPure, Bool.and_eq_true]; exact ⟨hp, h.2⟩
    | succ i =>
      simp only [List.set_cons_succ, paramsPure, Bool.and_eq_true]
      exact ⟨h.1, ih i p h.2 hp⟩

/-- The empty fill mark asks nothing. -/
theorem paramsGood_zero : ∀ ps : List Param, paramsGood ps 0 = true := by
  intro ps
  cases ps <;> rfl

/-- Setting slot i to a well-formed subtree extends goodness of the first
i slots to the first i+1. -/
theorem paramsGood_set : ∀ (ps : List Param) (i : Nat) (e : TeExpr),
    paramsGood ps i = true → goodTree e = true → i < ps.length →
    paramsGood (ps.set i (.pexpr e)) (i + 1) = true := by
  intro ps
  induction ps with
  | nil => intro i e _ _ h; simp at h
  | cons q ps ih =>
    intro i e hg he hi
    cases i with
    | zero =>
      have hset : (q :: ps).set 0 (.pexpr e) = .pexpr e :: ps := rfl
      rw [hset]
      show (goodTree e && paramsGood ps 0) = true
      rw [he, paramsGood_zero]
      rfl
    | succ i =>
      have hset : (q :: ps).set (i + 1) (.pexpr e) = q :: ps.set i (.pexpr e) := rfl
      rw [hset]
      cases q with
      | pexpr e0 =>
        simp only [paramsGood, Bool.and_eq_true] at hg
        simp only [paramsGood, Bool.and_eq_true]
        exact ⟨hg.1, ih i e hg.2 he (by simpa using hi)⟩
      | pctx c => simp [paramsGood] at hg
      | pnull => simp [paramsGood] at hg

/-- A freshly built function node (no closure bit) with empty NULL slots
is partially well-formed at 0. -/
theorem partialGood_newF (ty : Nat) (v : TEDouble) (b : Nat) (f : Fptr)
    (hc : IS_CLOSURE ty = false) :
    partialGood (.mk ty v b f (List.replicate (ARITY ty) .pnull)) 0 = true := by
  simp [partialGood, hc, Nat.zero_min, paramsGood]

/-- A freshly built closure node, NULL slots plus the context written at
index arity, is partially well-formed at 0. -/
theorem partialGood_newC (ty : Nat) (v : TEDouble) (b : Nat) (f : Fptr) (c : Nat)
    (hc : IS_CLOSURE ty = true) :
    partialGood (setParam (.mk ty v b f (List.replicate (ARITY ty + 1) .pnull))
      (ARITY ty) (.pctx c)) 0 = true := by
  simp only [setParam, partialGood, hc, if_true, Bool.and_eq_true, beq_iff_eq]
  refine ⟨⟨by simp, ?_⟩, ?_⟩
  · rw [Nat.zero_min]
    exact paramsGood_zero _
  · rw [List.getElem?_set_self (by simp)]
    simp [isCtxSlot]

/-- Writing a well-formed subtree into child slot i of a partially built
node advances the fill mark to i+1. -/
theorem partialGood_set {ty : Nat} {v : TEDouble} {b : Nat} {f : Fptr} {ps : List Param}
    {i : Nat} {e : TeExpr}
    (hg : partialGood (.mk ty v b f ps) i = true) (hi : i < ARITY ty)
    (he : goodTree e = true) :
    partialGood (.mk ty v b f (ps.set i (.pexpr e))) (i + 1) = true := by
  simp only [partialGood, Bool.and_eq_true, beq_iff_eq] at hg ⊢
  obtain ⟨⟨hlen, hgood⟩, hctx⟩ := hg
  have hmin1 : min i (ARITY ty) = i := Nat.min_eq_left (Nat.le_of_lt hi)
  have hmin2 : min (i + 1) (ARITY ty) = i + 1 := Nat.min_eq_left hi
  refine ⟨⟨by rw [List.length_set]; exact hlen, ?_⟩, ?_⟩
  · rw [hmin2]
    rw [hmin1] at hgood
    refine paramsGood_set ps i e hgood he ?_
    have h7 : ARITY ty ≤ ARITY ty + (if IS_CLOSURE ty then 1 else 0) := Nat.le_add_right _ _
    omega
  · cases hcl : IS_CLOSURE ty with
    | false => simp
    | true =>
      rw [List.getElem?_set_ne (by omega : i ≠ ARITY ty)]
      simpa [hcl] using hctx

/-- Keeping the fill mark at or past arity is free. -/
theorem partialGood_mono {t : TeExpr} {j k : Nat}
    (hg : partialGood t j = true) (hjk : ARITY t.type ≤ j) (hk : ARITY t.type ≤ k) :
    partialGood t k = true := by
  obtain ⟨ty, v, b, f, ps⟩ := t
  simp only [TeExpr.type] at hjk hk
  simp only [partialGood] at hg ⊢
  rw [Nat.min_eq_right hjk] at hg
  rw [Nat.min_eq_right hk]
  exact hg

/-- A partially built node filled through arity is well-formed, for
either node kind. -/
theorem partialGood_full {t : TeExpr} {k : Nat}
    (hg : partialGood t k = true) (hk : ARITY t.type ≤ k)
    (hfc : (IS_FUNCTION t.type = true ∧ IS_CLOSURE t.type = false) ∨
           (IS_FUNCTION t.type = false ∧ IS_CLOSURE t.type = true)) :
    goodTree t = true := by
  obtain ⟨ty, v, b, f, ps⟩ := t
  simp only [TeExpr.type] at hk hfc
  simp only [partialGood, Bool.and_eq_true, beq_iff_eq] at hg
  obtain ⟨⟨hlen, hgood⟩, hctx⟩ := hg
  rw [Nat.min_eq_right hk] at hgood
  rcases hfc with ⟨hf, hc⟩ | ⟨hf, hc⟩
  · have hlen2 : ps.length = ARITY ty := by rw [hc] at hlen; simpa using hlen
    simp [goodTree, hf, hc, hlen2, hgood]
  · have hlen2 : ps.length = ARITY ty + 1 := by rw [hc] at hlen; simpa using hlen
    have hctx2 : isCtxSlot ps[ARITY ty]? = true := by rw [hc] at hctx; simpa using hctx
    have hlt : ARITY ty < ps.length := by omega
    have hctx3 : isCtxSlot (some ps[ARITY ty]) = true := by
      rw [← List.getElem?_eq_getElem hlt]
      exact hctx2
    simp [goodTree, hf, hc, hlen2, hgood, hctx2, hctx3]

/-- Writing any slot preserves a node's type word. -/
theorem setParam_type (e : TeExpr) (i : Nat) (p : Param) :
    (setParam e i p).type = e.type := by
  obtain ⟨ty, v, b, f, ps⟩ := e
  rfl

/-- Writing a pure slot preserves a node's purity. -/
theorem treePure_setParam {e : TeExpr} {i : Nat} {p : Param}
    (h : treePure e = true) (hp : paramPure p = true) :
    treePure (setParam e i p) = true := by
  obtain ⟨ty, v, b, f, ps⟩ := e
  simp only [setParam, treePure, Bool.and_eq_true] at h ⊢
  exact ⟨h.1, paramsPure_set ps i p h.2 hp⟩

/-- partialGood_set stated through setParam. -/
theorem partialGood_setParam {ret : TeExpr} {i : Nat} {e : TeExpr}
    (hg : partialGood ret i = true) (hi : i < ARITY ret.type) (he : goodTree e = true) :
    partialGood (setParam ret i (.pexpr e)) (i + 1) = true := by
  obtain ⟨ty, v, b, f, ps⟩ := ret
  exact partialGood_set hg hi he

/-- Well-formedness of the pure unary wrapper node power builds. -/
theorem goodTree_wrap1 (v : TEDouble) (b : Nat) (f : Fptr) (e : TeExpr) :
    goodTree (.mk (TE_FUNCTION1 ||| TE_FLAG_PURE) v b f [.pexpr e]) = goodTree e := by
  have h1 : IS_FUNCTION (TE_FUNCTION1 ||| TE_FLAG_PURE) = true := by decide
  have h2 : ARITY (TE_FUNCTION1 ||| TE_FLAG_PURE) = 1 := by decide
  simp [goodTree, paramsGood, h1, h2]

/-- Purity of the pure unary wrapper node power builds. -/
theorem treePure_wrap1 (v : TEDouble) (b : Nat) (f : Fptr) (e : TeExpr) :
    treePure (.mk (TE_FUNCTION1 ||| TE_FLAG_PURE) v b f [.pexpr e]) = treePure e := by
  have h1 : IS_PURE (TE_FUNCTION1 ||| TE_FLAG_PURE) = true := by decide
  simp [treePure, paramsPure, paramPure, h1]

/-- Well-formedness of the pure binary nodes the operator loops build. -/
theorem goodTree_wrap2 (v : TEDouble) (b : Nat) (f : Fptr) (e1 e2 : TeExpr) :
    goodTree (.mk (TE_FUNCTION2 ||| TE_FLAG_PURE) v b f [.pexpr e1, .pexpr e2]) =
      (goodTree e1 && goodTree e2) := by
  have h1 : IS_FUNCTION (TE_FUNCTION2 ||| TE_FLAG_PURE) = true := by decide
  have h2 : ARITY (TE_FUNCTION2 ||| TE_FLAG_PURE) = 2 := by decide
  simp [goodTree, paramsGood, h1, h2, Bool.and_assoc]

/-- Purity of the pure binary nodes the operator loops build. -/
theorem treePure_wrap2 (v : TEDouble) (b : Nat) (f : Fptr) (e1 e2 : TeExpr) :
    treePure (.mk (TE_FUNCTION2 ||| TE_FLAG_PURE) v b f [.pexpr e1, .pexpr e2]) =
      (treePure e1 && treePure e2) := by
  have h1 : IS_PURE (TE_FUNCTION2 ||| TE_FLAG_PURE) = true := by decide
  simp [treePure, paramsPure, paramPure, h1]

/-- A node whose type word carries the pure flag is pure when its slots
are. -/
theorem treePure_head {ty : Nat} (hp : IS_PURE ty = true) (v : TEDouble) (b : Nat)
    (f : Fptr) {ps : List Param} (hps : paramsPure ps = true) :
    treePure (.mk ty v b f ps) = true := by
  simp [treePure, hp, hps]


/-! ### The parser invariant -/

/-- Every routine of the mutually recursive descent block preserves the
input and the binding list, keeps the current token pure-sourced, and,
unless it poisoned the state with TOK_ERROR, returns a well-formed tree
that is pure whenever the caller's bindings are. -/
theorem parser_inv : ∀ fl : Nat,
    (∀ s t s', base fl s = some (t, s') → Conc s t s') ∧
    (∀ s ret arity i ret2 i2 s', base_args fl ret arity i s = some (ret2, i2, s') →
      arity = ARITY ret.type → ArgsConc s ret i ret2 i2 s') ∧
    (∀ sign s, (power_signs fl sign s).2.input = s.input ∧
      (power_signs fl sign s).2.lookup = s.lookup ∧
      (pureLookup s.lookup = true → TokOK s → TokOK (power_signs fl sign s).2)) ∧
    (∀ s t s', power fl s = some (t, s') → Conc s t s') ∧
    (∀ s t s', factor fl s = some (t, s') → Conc s t s') ∧
    (∀ ret s t s', factor_loop fl ret s = some (t, s') → LoopConc ret s t s') ∧
    (∀ s t s', term fl s = some (t, s') → Conc s t s') ∧
    (∀ ret s t s', term_loop fl ret s = some (t, s') → LoopConc ret s t s') ∧
    (∀ s t s', expr fl s = some (t, s') → Conc s t s') ∧
    (∀ ret s t s', expr_loop fl ret s = some (t, s') → LoopConc ret s t s') ∧
    (∀ s t s', list fl s = some (t, s') → Conc s t s') ∧
    (∀ ret s t s', list_loop fl ret s = some (t, s') → LoopConc ret s t s') := by
  intro fl
  induction fl with
  | zero =>
    refine ⟨?_, ?_, ?_, ?_, ?_, ?_, ?_, ?_, ?_, ?_, ?_, ?_⟩
    · intro s t s' h; exact absurd h (by simp [base])
    · intro s ret arity i ret2 i2 s' h _; exact absurd h (by simp [base_args])
    · intro sign s; exact ⟨rfl, rfl, fun _ h => h⟩
    · intro s t s' h; exact absurd h (by simp [power])
    · intro s t s' h; exact absurd h (by simp [factor])
    · intro ret s t s' h; exact absurd h (by simp [factor_loop])
    · intro s t s' h; exact absurd h (by simp [term])
    · intro ret s t s' h; exact absurd h (by simp [term_loop])
    · intro s t s' h; exact absurd h (by simp [expr])
    · intro ret s t s' h; exact absurd h (by simp [expr_loop])
    · intro s t s' h; exact absurd h (by simp [list])
    · intro ret s t s' h; exact absurd h (by simp [list_loop])
  | succ fl ih =>
    obtain ⟨ihb, iha, ihs, ihp, ihf, ihfl, iht, ihtl, ihe, ihel, ihl, ihll⟩ := ih
    refine ⟨?_, ?_, ?_, ?_, ?_, ?_, ?_, ?_, ?_, ?_, ?_, ?_⟩
    · -- base
      intro s t s' h
      unfold base at h
      simp only [] at h
      by_cases h1 : TYPE_MASK s.type = TOK_NUMBER
      · rw [if_pos h1] at h
        simp only [Option.some.injEq, Prod.mk.injEq] at h
        obtain ⟨ht, hs⟩ := h
        subst ht hs
        obtain ⟨hni, hnl, hnt⟩ := next_token_inv s
        exact ⟨hni, hnl, fun hpu _ => hnt hpu, fun _ => rfl, fun _ _ _ => rfl⟩
      rw [if_neg h1] at h
      by_cases h1v : TYPE_MASK s.type = TOK_VARIABLE
      · rw [if_pos h1v] at h
        simp only [Option.some.injEq, Prod.mk.injEq] at h
        obtain ⟨ht, hs⟩ := h
        subst ht hs
        obtain ⟨hni, hnl, hnt⟩ := next_token_inv s
        exact ⟨hni, hnl, fun hpu _ => hnt hpu, fun _ => rfl, fun _ _ _ => rfl⟩
      rw [if_neg h1v] at h
      by_cases h2 : TYPE_MASK s.type = TE_FUNCTION0 ∨ TYPE_MASK s.type = TE_CLOSURE0
      · rw [if_pos h2] at h
        obtain ⟨hni, hnl, hnt⟩ := next_token_inv s
        obtain ⟨hn2i, hn2l, hn2t⟩ := next_token_inv (next_token s)
        obtain ⟨hn3i, hn3l, hn3t⟩ := next_token_inv (next_token (next_token s))
        have hrange : 8 ≤ TYPE_MASK s.type ∧ TYPE_MASK s.type ≤ 23 := by
          rcases h2 with hm | hm <;> rw [hm] <;> exact ⟨by decide, by decide⟩
        have hgood : goodTree (TeExpr.mk s.type (.fin ⟨0, 1⟩) 0 s.function
            (if IS_CLOSURE s.type then [Param.pctx s.context] else [])) = true := by
          rcases h2 with hm | hm
          · obtain ⟨hf, hc⟩ := bits_of_mask_fun (by rw [hm]; decide) (by rw [hm]; decide)
            have harr : ARITY s.type = 0 := by rw [ARITY_of_mask hm]; decide
            simp [goodTree, hf, hc, harr, paramsGood_zero]
          · obtain ⟨hf, hc⟩ := bits_of_mask_clo (by rw [hm]; decide) (by rw [hm]; decide)
            have harr : ARITY s.type = 0 := by rw [ARITY_of_mask hm]; decide
            simp [goodTree, hf, hc, harr, paramsGood_zero, isCtxSlot]
        have hpure : TokOK s → treePure (TeExpr.mk s.type (.fin ⟨0, 1⟩) 0 s.function
            (if IS_CLOSURE s.type then [Param.pctx s.context] else [])) = true := by
          intro hok
          refine treePure_head (hok hrange) _ _ _ ?_
          by_cases hc : IS_CLOSURE s.type = true
          · simp [hc, paramsPure, paramPure]
          · simp [Bool.eq_false_iff.mpr hc, paramsPure]
        by_cases ho : (next_token s).type = TOK_OPEN
        · rw [if_pos ho] at h
          by_cases hcl2 : (next_token (next_token s)).type ≠ TOK_CLOSE
          · rw [if_pos hcl2] at h
            simp only [Option.some.injEq, Prod.mk.injEq] at h
            obtain ⟨ht, hs⟩ := h
            subst ht hs
            exact ⟨hn2i.trans hni, hn2l.trans hnl,
              fun _ _ => TokOK_token _ TOK_ERROR rfl (by decide),
              fun hne => absurd rfl hne, fun hne _ _ => absurd rfl hne⟩
          · rw [if_neg hcl2] at h
            simp only [Option.some.injEq, Prod.mk.injEq] at h
            obtain ⟨ht, hs⟩ := h
            subst ht hs
            exact ⟨hn3i.trans (hn2i.trans hni), hn3l.trans (hn2l.trans hnl),
              fun hpu _ => hn3t (by rw [hn2l, hnl]; exact hpu),
              fun _ => hgood, fun _ hok _ => hpure hok⟩
        · rw [if_neg ho] at h
          simp only [Option.some.injEq, Prod.mk.injEq] at h
          obtain ⟨ht, hs⟩ := h
          subst ht hs
          exact ⟨hni, hnl, fun hpu _ => hnt hpu, fun _ => hgood, fun _ hok _ => hpure hok⟩
      rw [if_neg h2] at h
      by_cases h3 : TYPE_MASK s.type = TE_FUNCTION1 ∨ TYPE_MASK s.type = TE_CLOSURE1
      · rw [if_pos h3] at h
        obtain ⟨hni, hnl, hnt⟩ := next_token_inv s
        have hrange : 8 ≤ TYPE_MASK s.type ∧ TYPE_MASK s.type ≤ 23 := by
          rcases h3 with hm | hm <;> rw [hm] <;> exact ⟨by decide, by decide⟩
        cases hp : power fl (next_token s) with
        | none => rw [hp] at h; exact absurd h (by simp)
        | some ps2 =>
          obtain ⟨p, s2⟩ := ps2
          simp only [hp, Option.some.injEq, Prod.mk.injEq] at h
          obtain ⟨ht, hs⟩ := h
          subst ht hs
          obtain ⟨hci, hcl, hct, hcg, hcp⟩ := ihp (next_token s) p s2 hp
          refine ⟨hci.trans hni, hcl.trans hnl,
            fun hpu hok => hct (by rw [hnl]; exact hpu) (hnt hpu), ?_, ?_⟩
          · intro hne
            rcases h3 with hm | hm
            · obtain ⟨hf, hc⟩ := bits_of_mask_fun (by rw [hm]; decide) (by rw [hm]; decide)
              have harr : ARITY s.type = 1 := by rw [ARITY_of_mask hm]; decide
              simp [hc, setParam, goodTree, paramsGood, hf, harr, paramsGood_zero, hcg hne]
            · obtain ⟨hf, hc⟩ := bits_of_mask_clo (by rw [hm]; decide) (by rw [hm]; decide)
              have harr : ARITY s.type = 1 := by rw [ARITY_of_mask hm]; decide
              simp [hc, setParam, goodTree, paramsGood, hf, harr, paramsGood_zero,
                isCtxSlot, hcg hne]
          · intro hne hok hpu
            have hhead : IS_PURE s.type = true := hok hrange
            have hpp : treePure p = true := hcp hne (hnt hpu) (by rw [hnl]; exact hpu)
            by_cases hc : IS_CLOSURE s.type = true
            · simp [hc, setParam, treePure, hhead, paramsPure, paramPure, hpp]
            · simp [Bool.eq_false_iff.mpr hc, setParam, treePure, hhead, paramsPure,
                paramPure, hpp]
      rw [if_neg h3] at h
      by_cases h4 : (TE_FUNCTION2 ≤ TYPE_MASK s.type ∧ TYPE_MASK s.type ≤ TE_FUNCTION7) ∨
          (TE_CLOSURE2 ≤ TYPE_MASK s.type ∧ TYPE_MASK s.type ≤ TE_CLOSURE7)
      · rw [if_pos h4] at h
        obtain ⟨hni, hnl, hnt⟩ := next_token_inv s
        have h4m : (10 ≤ TYPE_MASK s.type ∧ TYPE_MASK s.type ≤ 15) ∨
            (18 ≤ TYPE_MASK s.type ∧ TYPE_MASK s.type ≤ 23) := by
          simpa [TE_FUNCTION2, TE_FUNCTION7, TE_CLOSURE2, TE_CLOSURE7] using h4
        have hrange : 8 ≤ TYPE_MASK s.type ∧ TYPE_MASK s.type ≤ 23 := by
          rcases h4m with ⟨ha2, hb2⟩ | ⟨ha2, hb2⟩ <;> exact ⟨by omega, by omega⟩
        have harity2 : 2 ≤ ARITY s.type := by
          rw [ARITY_mask]
          have key : ∀ m : Nat, m ≤ 31 → (10 ≤ m ∧ m ≤ 15) ∨ (18 ≤ m ∧ m ≤ 23) →
              2 ≤ ARITY m := by decide
          exact key _ (TYPE_MASK_le _) h4m
        have hbits : (IS_FUNCTION s.type = true ∧ IS_CLOSURE s.type = false) ∨
            (IS_FUNCTION s.type = false ∧ IS_CLOSURE s.type = true) := by
          rcases h4m with ⟨ha2, hb2⟩ | ⟨ha2, hb2⟩
          · exact Or.inl (bits_of_mask_fun (by omega) (by omega))
          · exact Or.inr (bits_of_mask_clo (by omega) (by omega))
        rcases hbits with ⟨hf, hc⟩ | ⟨hf, hc⟩
        · -- function kind
          simp only [hc, Bool.false_eq_true, if_false, Nat.add_zero] at h
          have hpg := partialGood_newF s.type (.fin ⟨0, 1⟩) 0 s.function hc
          by_cases hop : (next_token s).type ≠ TOK_OPEN
          · rw [if_pos hop] at h
            simp only [Option.some.injEq, Prod.mk.injEq] at h
            obtain ⟨ht, hs⟩ := h
            subst ht hs
            exact ⟨hni, hnl, fun _ _ => TokOK_token _ TOK_ERROR rfl (by decide),
              fun hne => absurd rfl hne, fun hne _ _ => absurd rfl hne⟩
          · rw [if_neg hop] at h
            cases hba : base_args fl
                (.mk s.type (.fin ⟨0, 1⟩) 0 s.function (List.replicate (ARITY s.type) .pnull))
                (ARITY s.type) 0 (next_token s) with
            | none => rw [hba] at h; exact absurd h (by simp)
            | some out =>
              obtain ⟨ret2, i2, s2⟩ := out
              simp only [hba] at h
              obtain ⟨hai, hal, hat, hii, hrty, hag, hap⟩ :=
                iha (next_token s) _ (ARITY s.type) 0 ret2 i2 s2 hba rfl
              by_cases hfin : s2.type ≠ TOK_CLOSE ∨ i2 ≠ ARITY s.type - 1
              · rw [if_pos hfin] at h
                simp only [Option.some.injEq, Prod.mk.injEq] at h
                obtain ⟨ht, hs⟩ := h
                subst ht hs
                exact ⟨hai.trans hni, hal.trans hnl,
                  fun _ _ => TokOK_token _ TOK_ERROR rfl (by decide),
                  fun hne => absurd rfl hne, fun hne _ _ => absurd rfl hne⟩
              · rw [if_neg hfin] at h
                push_neg at hfin
                obtain ⟨hclose, hi2⟩ := hfin
                simp only [Option.some.injEq, Prod.mk.injEq] at h
                obtain ⟨ht, hs⟩ := h
                subst ht hs
                obtain ⟨hn2i, hn2l, hn2t⟩ := next_token_inv s2
                have hs2ne : s2.type ≠ TOK_ERROR := by rw [hclose]; decide
                have hpg2 : partialGood ret2 (i2 + 1) = true := hag hs2ne hpg
                have hfull : goodTree ret2 = true := by
                  refine partialGood_full hpg2 ?_ ?_
                  · rw [hrty]
                    show ARITY s.type ≤ i2 + 1
                    omega
                  · rw [hrty]
                    exact Or.inl ⟨hf, hc⟩
                refine ⟨hn2i.trans (hai.trans hni), hn2l.trans (hal.trans hnl), ?_,
                  fun _ => hfull, ?_⟩
                · intro hpu hok
                  exact hn2t (by rw [hal, hnl]; exact hpu)
                · intro hne hok hpu
                  refine hap hs2ne (hnt hpu) (by rw [hnl]; exact hpu) ?_
                  exact treePure_head (hok hrange) _ _ _ (paramsPure_replicate _)
        · -- closure kind
          simp only [hc, if_true] at h
          have hpg := partialGood_newC s.type (.fin ⟨0, 1⟩) 0 s.function s.context hc
          by_cases hop : (next_token s).type ≠ TOK_OPEN
          · rw [if_pos hop] at h
            simp only [Option.some.injEq, Prod.mk.injEq] at h
            obtain ⟨ht, hs⟩ := h
            subst ht hs
            exact ⟨hni, hnl, fun _ _ => TokOK_token _ TOK_ERROR rfl (by decide),
              fun hne => absurd rfl hne, fun hne _ _ => absurd rfl hne⟩
          · rw [if_neg hop] at h
            cases hba : base_args fl
                (setParam (.mk s.type (.fin ⟨0, 1⟩) 0 s.function
                  (List.replicate (ARITY s.type + 1) .pnull)) (ARITY s.type) (.pctx s.context))
                (ARITY s.type) 0 (next_token s) with
            | none => rw [hba] at h; exact absurd h (by simp)
            | some out =>
              obtain ⟨ret2, i2, s2⟩ := out
              simp only [hba] at h
              obtain ⟨hai, hal, hat, hii, hrty, hag, hap⟩ :=
                iha (next_token s) _ (ARITY s.type) 0 ret2 i2 s2 hba
                  (by rw [setParam_type]; rfl)
              by_cases hfin : s2.type ≠ TOK_CLOSE ∨ i2 ≠ ARITY s.type - 1
              · rw [if_pos hfin] at h
                simp only [Option.some.injEq, Prod.mk.injEq] at h
                obtain ⟨ht, hs⟩ := h
                subst ht hs
                exact ⟨hai.trans hni, hal.trans hnl,
                  fun _ _ => TokOK_token _ TOK_ERROR rfl (by decide),
                  fun hne => absurd rfl hne, fun hne _ _ => absurd rfl hne⟩
              · rw [if_neg hfin] at h
                push_neg at hfin
                obtain ⟨hclose, hi2⟩ := hfin
                simp only [Option.some.injEq, Prod.mk.injEq] at h
                obtain ⟨ht, hs⟩ := h
                subst ht hs
                obtain ⟨hn2i, hn2l, hn2t⟩ := next_token_inv s2
                have hs2ne : s2.type ≠ TOK_ERROR := by rw [hclose]; decide
                have hpg2 : partialGood ret2 (i2 + 1) = true := hag hs2ne hpg
                have hretty : (setParam (TeExpr.mk s.type (.fin ⟨0, 1⟩) 0 s.function
                    (List.replicate (ARITY s.type + 1) .pnull)) (ARITY s.type)
                    (.pctx s.context)).type = s.type := by rw [setParam_type]; rfl
                have hfull : goodTree ret2 = true := by
                  refine partialGood_full hpg2 ?_ ?_
                  · rw [hrty, hretty]
                    omega
                  · rw [hrty, hretty]
                    exact Or.inr ⟨hf, hc⟩
                refine ⟨hn2i.trans (hai.trans hni), hn2l.trans (hal.trans hnl), ?_,
                  fun _ => hfull, ?_⟩
                · intro hpu hok
                  exact hn2t (by rw [hal, hnl]; exact hpu)
                · intro hne hok hpu
                  refine hap hs2ne (hnt hpu) (by rw [hnl]; exact hpu) ?_
                  refine treePure_setParam ?_ rfl
                  exact treePure_head (hok hrange) _ _ _ (paramsPure_replicate _)
      rw [if_neg h4] at h
      by_cases h5 : TYPE_MASK s.type = TOK_OPEN
      · rw [if_pos h5] at h
        obtain ⟨hni, hnl, hnt⟩ := next_token_inv s
        cases hl2 : list fl (next_token s) with
        | none => rw [hl2] at h; exact absurd h (by simp)
        | some rs2 =>
          obtain ⟨ret, s2⟩ := rs2
          simp only [hl2] at h
          obtain ⟨hci, hcl, hct, hcg, hcp⟩ := ihl (next_token s) ret s2 hl2
          obtain ⟨hn2i, hn2l, hn2t⟩ := next_token_inv s2
          by_cases hcl3 : s2.type ≠ TOK_CLOSE
          · rw [if_pos hcl3] at h
            simp only [Option.some.injEq, Prod.mk.injEq] at h
            obtain ⟨ht, hs⟩ := h
            subst ht hs
            exact ⟨hci.trans hni, hcl.trans hnl,
              fun _ _ => TokOK_token _ TOK_ERROR rfl (by decide),
              fun hne => absurd rfl hne, fun hne _ _ => absurd rfl hne⟩
          · rw [if_neg hcl3] at h
            push_neg at hcl3
            simp only [Option.some.injEq, Prod.mk.injEq] at h
            obtain ⟨ht, hs⟩ := h
            subst ht hs
            have hs2ne : s2.type ≠ TOK_ERROR := by rw [hcl3]; decide
            exact ⟨hn2i.trans (hci.trans hni), hn2l.trans (hcl.trans hnl),
              fun hpu _ => hn2t (by rw [hcl, hnl]; exact hpu),
              fun _ => hcg hs2ne,
              fun _ hok hpu => hcp hs2ne (hnt hpu) (by rw [hnl]; exact hpu)⟩
      rw [if_neg h5] at h
      simp only [Option.some.injEq, Prod.mk.injEq] at h
      obtain ⟨ht, hs⟩ := h
      subst ht hs
      exact ⟨rfl, rfl, fun _ _ => TokOK_token _ TOK_ERROR rfl (by decide),
        fun hne => absurd rfl hne, fun hne _ _ => absurd rfl hne⟩
    · -- base_args
      intro s ret arity i ret2 i2 s' h harity
      unfold base_args at h
      by_cases hia : i < arity
      · rw [if_pos hia] at h
        simp only [] at h
        obtain ⟨hni, hnl, hnt⟩ := next_token_inv s
        cases he : expr fl (next_token s) with
        | none => rw [he] at h; exact absurd h (by simp)
        | some es2 =>
          obtain ⟨e, s2⟩ := es2
          simp only [he] at h
          obtain ⟨hci, hcl, hct, hcg, hcp⟩ := ihe (next_token s) e s2 he
          by_cases hsep : s2.type = TOK_SEP
          · rw [if_pos hsep] at h
            obtain ⟨hai, hal, hat, hii, hrty, hag, hap⟩ :=
              iha s2 (setParam ret i (.pexpr e)) arity (i + 1) ret2 i2 s' h
                (by rw [setParam_type]; exact harity)
            have hs2ne : s2.type ≠ TOK_ERROR := by rw [hsep]; decide
            refine ⟨hai.trans (hci.trans hni), hal.trans (hcl.trans hnl), ?_, by omega,
              hrty.trans (setParam_type ret i (.pexpr e)), ?_, ?_⟩
            · intro hpu hok
              refine hat ?_ (hct ?_ (hnt hpu))
              · rw [hal] at *
                rw [hcl, hnl]; exact hpu
              · rw [hnl]; exact hpu
            · intro hne hpg
              refine hag hne ?_
              exact partialGood_setParam hpg (by omega) (hcg hs2ne)
            · intro hne hok hpu hpr
              refine hap hne (hct (by rw [hnl]; exact hpu) (hnt hpu))
                (by rw [hcl, hnl]; exact hpu) ?_
              exact treePure_setParam hpr (hcp hs2ne (hnt hpu) (by rw [hnl]; exact hpu))
          · rw [if_neg hsep] at h
            simp only [Option.some.injEq, Prod.mk.injEq] at h
            obtain ⟨h1, h2, h3⟩ := h
            subst h1 h2 h3
            refine ⟨hci.trans hni, hcl.trans hnl,
              fun hpu _ => hct (by rw [hnl]; exact hpu) (hnt hpu),
              le_refl i, setParam_type ret i (.pexpr e), ?_, ?_⟩
            · intro hne hpg
              exact partialGood_setParam hpg (by omega) (hcg hne)
            · intro hne hok hpu hpr
              exact treePure_setParam hpr (hcp hne (hnt hpu) (by rw [hnl]; exact hpu))
      · rw [if_neg hia] at h
        simp only [Option.some.injEq, Prod.mk.injEq] at h
        obtain ⟨h1, h2, h3⟩ := h
        subst h1 h2 h3
        refine ⟨rfl, rfl, fun _ hok => hok, le_refl i, rfl, ?_, fun _ _ _ hp2 => hp2⟩
        intro hne hpg
        exact partialGood_mono hpg (by omega) (by omega)
    · -- power_signs
      intro sign s
      unfold power_signs
      by_cases hcond : s.type = TOK_BINOP ∧ (s.function = .add ∨ s.function = .sub)
      · rw [if_pos hcond]
        obtain ⟨h1, h2, h3⟩ := ihs (if s.function = .sub then -sign else sign) (next_token s)
        obtain ⟨hni, hnl, hnt⟩ := next_token_inv s
        exact ⟨h1.trans hni, h2.trans hnl,
          fun hpu _ => h3 (by rw [hnl]; exact hpu) (hnt hpu)⟩
      · rw [if_neg hcond]
        exact ⟨rfl, rfl, fun _ h2 => h2⟩
    · -- power
      intro s t s' h
      unfold power at h
      cases hps : power_signs fl 1 s with
      | mk sign s1 =>
        simp only [hps] at h
        have h2 := ihs 1 s
        simp only [hps] at h2
        obtain ⟨hpi, hpl, hpt⟩ := h2
        by_cases hsig : sign = 1
        · rw [if_pos hsig] at h
          obtain ⟨hbi, hbl, hbt, hbg, hbp⟩ := ihb s1 t s' h
          exact ⟨hbi.trans hpi, hbl.trans hpl,
            fun hpu hok => hbt (by rw [hpl]; exact hpu) (hpt hpu hok),
            hbg,
            fun hne hok hpu => hbp hne (hpt hpu hok) (by rw [hpl]; exact hpu)⟩
        · rw [if_neg hsig] at h
          cases hb : base fl s1 with
          | none => rw [hb] at h; exact absurd h (by simp)
          | some bs2 =>
            obtain ⟨b, s2⟩ := bs2
            simp only [hb, Option.some.injEq, Prod.mk.injEq] at h
            obtain ⟨ht, hs⟩ := h
            subst ht hs
            obtain ⟨hbi, hbl, hbt, hbg, hbp⟩ := ihb s1 b s2 hb
            refine ⟨hbi.trans hpi, hbl.trans hpl,
              fun hpu hok => hbt (by rw [hpl]; exact hpu) (hpt hpu hok), ?_, ?_⟩
            · intro hne
              rw [goodTree_wrap1]
              exact hbg hne
            · intro hne hok hpu
              rw [treePure_wrap1]
              exact hbp hne (hpt hpu hok) (by rw [hpl]; exact hpu)
    · -- factor
      intro s t s' h
      unfold factor at h
      cases hp : power fl s with
      | none => rw [hp] at h; exact absurd h (by simp)
      | some rs1 =>
        obtain ⟨ret, s1⟩ := rs1
        simp only [hp] at h
        obtain ⟨hci, hcl, hct, hcg, hcp⟩ := ihp s ret s1 hp
        obtain ⟨hli, hll, hlt, hlg, hlp⟩ := ihfl ret s1 t s' h
        exact ⟨hli.trans hci, hll.trans hcl,
          fun hpu hok => hlt (by rw [hcl]; exact hpu) (hct hpu hok),
          fun hne => hlg hne (fun hs1 => hcg hs1),
          fun hne hok hpu => hlp hne (hct hpu hok) (by rw [hcl]; exact hpu)
            (fun hs1 => hcp hs1 hok hpu)⟩
    · -- factor_loop
      intro ret s t s' h
      unfold factor_loop at h
      by_cases hcond : s.type = TOK_BINOP ∧ s.function = .powP
      · rw [if_pos hcond] at h
        simp only [] at h
        have hsne : s.type ≠ TOK_ERROR := by rw [hcond.1]; decide
        obtain ⟨hni, hnl, hnt⟩ := next_token_inv s
        cases hp : power fl (next_token s) with
        | none => rw [hp] at h; exact absurd h (by simp)
        | some ps2 =>
          obtain ⟨p, s2⟩ := ps2
          simp only [hp] at h
          obtain ⟨hci, hcl, hct, hcg, hcp⟩ := ihp (next_token s) p s2 hp
          obtain ⟨hli, hll, hlt, hlg, hlp⟩ := ihfl _ s2 t s' h
          refine ⟨hli.trans (hci.trans hni), hll.trans (hcl.trans hnl), ?_, ?_, ?_⟩
          · intro hpu hok
            refine hlt ?_ (hct ?_ (hnt hpu))
            · rw [hcl, hnl]; exact hpu
            · rw [hnl]; exact hpu
          · intro hne hgret
            refine hlg hne ?_
            intro hs2
            rw [goodTree_wrap2, hgret hsne, hcg hs2]
            rfl
          · intro hne hok hpu hpret
            refine hlp hne (hct (by rw [hnl]; exact hpu) (hnt hpu))
              (by rw [hcl, hnl]; exact hpu) ?_
            intro hs2
            rw [treePure_wrap2, hpret hsne,
              hcp hs2 (hnt hpu) (by rw [hnl]; exact hpu)]
            rfl
      · rw [if_neg hcond] at h
        simp only [Option.some.injEq, Prod.mk.injEq] at h
        obtain ⟨ht, hs⟩ := h
        subst ht hs
        exact ⟨rfl, rfl, fun _ hok => hok, fun hne hg => hg hne, fun hne _ _ hp2 => hp2 hne⟩
    · -- term
      intro s t s' h
      unfold term at h
      cases hp : factor fl s with
      | none => rw [hp] at h; exact absurd h (by simp)
      | some rs1 =>
        obtain ⟨ret, s1⟩ := rs1
        simp only [hp] at h
        obtain ⟨hci, hcl, hct, hcg, hcp⟩ := ihf s ret s1 hp
        obtain ⟨hli, hll, hlt, hlg, hlp⟩ := ihtl ret s1 t s' h
        exact ⟨hli.trans hci, hll.trans hcl,
          fun hpu hok => hlt (by rw [hcl]; exact hpu) (hct hpu hok),
          fun hne => hlg hne (fun hs1 => hcg hs1),
          fun hne hok hpu => hlp hne (hct hpu hok) (by rw [hcl]; exact hpu)
            (fun hs1 => hcp hs1 hok hpu)⟩
    · -- term_loop
      intro ret s t s' h
      unfold term_loop at h
      by_cases hcond : s.type = TOK_BINOP ∧
          (s.function = .mul ∨ s.function = .divide ∨ s.function = .fmodP)
      · rw [if_pos hcond] at h
        simp only [] at h
        have hsne : s.type ≠ TOK_ERROR := by rw [hcond.1]; decide
        obtain ⟨hni, hnl, hnt⟩ := next_token_inv s
        cases hp : factor fl (next_token s) with
        | none => rw [hp] at h; exact absurd h (by simp)
        | some ps2 =>
          obtain ⟨p, s2⟩ := ps2
          simp only [hp] at h
          obtain ⟨hci, hcl, hct, hcg, hcp⟩ := ihf (next_token s) p s2 hp
          obtain ⟨hli, hll, hlt, hlg, hlp⟩ := ihtl _ s2 t s' h
          refine ⟨hli.trans (hci.trans hni), hll.trans (hcl.trans hnl), ?_, ?_, ?_⟩
          · intro hpu hok
            refine hlt ?_ (hct ?_ (hnt hpu))
            · rw [hcl, hnl]; exact hpu
            · rw [hnl]; exact hpu
          · intro hne hgret
            refine hlg hne ?_
            intro hs2
            rw [goodTree_wrap2, hgret hsne, hcg hs2]
            rfl
          · intro hne hok hpu hpret
            refine hlp hne (hct (by rw [hnl]; exact hpu) (hnt hpu))
              (by rw [hcl, hnl]; exact hpu) ?_
            intro hs2
            rw [treePure_wrap2, hpret hsne,
              hcp hs2 (hnt hpu) (by rw [hnl]; exact hpu)]
            rfl
      · rw [if_neg hcond] at h
        simp only [Option.some.injEq, Prod.mk.injEq] at h
        obtain ⟨ht, hs⟩ := h
        subst ht hs
        exact ⟨rfl, rfl, fun _ hok => hok, fun hne hg => hg hne, fun hne _ _ hp2 => hp2 hne⟩
    · -- expr
      intro s t s' h
      unfold expr at h
      cases hp : term fl s with
      | none => rw [hp] at h; exact absurd h (by simp)
      | some rs1 =>
        obtain ⟨ret, s1⟩ := rs1
        simp only [hp] at h
        obtain ⟨hci, hcl, hct, hcg, hcp⟩ := iht s ret s1 hp
        obtain ⟨hli, hll, hlt, hlg, hlp⟩ := ihel ret s1 t s' h
        exact ⟨hli.trans hci, hll.trans hcl,
          fun hpu hok => hlt (by rw [hcl]; exact hpu) (hct hpu hok),
          fun hne => hlg hne (fun hs1 => hcg hs1),
          fun hne hok hpu => hlp hne (hct hpu hok) (by rw [hcl]; exact hpu)
            (fun hs1 => hcp hs1 hok hpu)⟩
    · -- expr_loop
      intro ret s t s' h
      unfold expr_loop at h
      by_cases hcond : s.type = TOK_BINOP ∧ (s.function = .add ∨ s.function = .sub)
      · rw [if_pos hcond] at h
        simp only [] at h
        have hsne : s.type ≠ TOK_ERROR := by rw [hcond.1]; decide
        obtain ⟨hni, hnl, hnt⟩ := next_token_inv s
        cases hp : term fl (next_token s) with
        | none => rw [hp] at h; exact absurd h (by simp)
        | some ps2 =>
          obtain ⟨p, s2⟩ := ps2
          simp only [hp] at h
          obtain ⟨hci, hcl, hct, hcg, hcp⟩ := iht (next_token s) p s2 hp
          obtain ⟨hli, hll, hlt, hlg, hlp⟩ := ihel _ s2 t s' h
          refine ⟨hli.trans (hci.trans hni), hll.trans (hcl.trans hnl), ?_, ?_, ?_⟩
          · intro hpu hok
            refine hlt ?_ (hct ?_ (hnt hpu))
            · rw [hcl, hnl]; exact hpu
            · rw [hnl]; exact hpu
          · intro hne hgret
            refine hlg hne ?_
            intro hs2
            rw [goodTree_wrap2, hgret hsne, hcg hs2]
            rfl
          · intro hne hok hpu hpret
            refine hlp hne (hct (by rw [hnl]; exact hpu) (hnt hpu))
              (by rw [hcl, hnl]; exact hpu) ?_
            intro hs2
            rw [treePure_wrap2, hpret hsne,
              hcp hs2 (hnt hpu) (by rw [hnl]; exact hpu)]
            rfl
      · rw [if_neg hcond] at h
        simp only [Option.some.injEq, Prod.mk.injEq] at h
        obtain ⟨ht, hs⟩ := h
        subst ht hs
        exact ⟨rfl, rfl, fun _ hok => hok, fun hne hg => hg hne, fun hne _ _ hp2 => hp2 hne⟩
    · -- list
      intro s t s' h
      unfold list at h
      cases hp : expr fl s with
      | none => rw [hp] at h; exact absurd h (by simp)
      | some rs1 =>
        obtain ⟨ret, s1⟩ := rs1
        simp only [hp] at h
        obtain ⟨hci, hcl, hct, hcg, hcp⟩ := ihe s ret s1 hp
        obtain ⟨hli, hll, hlt, hlg, hlp⟩ := ihll ret s1 t s' h
        exact ⟨hli.trans hci, hll.trans hcl,
          fun hpu hok => hlt (by rw [hcl]; exact hpu) (hct hpu hok),
          fun hne => hlg hne (fun hs1 => hcg hs1),
          fun hne hok hpu => hlp hne (hct hpu hok) (by rw [hcl]; exact hpu)
            (fun hs1 => hcp hs1 hok hpu)⟩
    · -- list_loop
      intro ret s t s' h
      unfold list_loop at h
      by_cases hcond : s.type = TOK_SEP
      · rw [if_pos hcond] at h
        simp only [] at h
        have hsne : s.type ≠ TOK_ERROR := by rw [hcond]; decide
        obtain ⟨hni, hnl, hnt⟩ := next_token_inv s
        cases hp : expr fl (next_token s) with
        | none => rw [hp] at h; exact absurd h (by simp)
        | some ps2 =>
          obtain ⟨p, s2⟩ := ps2
          simp only [hp] at h
          obtain ⟨hci, hcl, hct, hcg, hcp⟩ := ihe (next_token s) p s2 hp
          obtain ⟨hli, hll, hlt, hlg, hlp⟩ := ihll _ s2 t s' h
          refine ⟨hli.trans (hci.trans hni), hll.trans (hcl.trans hnl), ?_, ?_, ?_⟩
          · intro hpu hok
            refine hlt ?_ (hct ?_ (hnt hpu))
            · rw [hcl, hnl]; exact hpu
            · rw [hnl]; exact hpu
          · intro hne hgret
            refine hlg hne ?_
            intro hs2
            rw [goodTree_wrap2, hgret hsne, hcg hs2]
            rfl
          · intro hne hok hpu hpret
            refine hlp hne (hct (by rw [hnl]; exact hpu) (hnt hpu))
              (by rw [hcl, hnl]; exact hpu) ?_
            intro hs2
            rw [treePure_wrap2, hpret hsne,
              hcp hs2 (hnt hpu) (by rw [hnl]; exact hpu)]
            rfl
      · rw [if_neg hcond] at h
        simp only [Option.some.injEq, Prod.mk.injEq] at h
        obtain ⟨ht, hs⟩ := h
        subst ht hs
        exact ⟨rfl, rfl, fun _ hok => hok, fun hne hg => hg hne, fun hne _ _ hp2 => hp2 hne⟩

/-! ### Claim C1: constant folding of variable-free accepted inputs -/

/-- C1, counterexample to the claim as stated: with an impure
caller-registered zero-argument function f, the input f is accepted by
te_compile, contains no variable references, yet the returned tree is the
(unoptimized) function node, not a constant node. -/
theorem claim_C1_counterexample :
    (te_compile "f".data [⟨"f", .fn (.user 0), TE_FUNCTION0, 0⟩] env0).error = 0 ∧
    ((te_compile "f".data [⟨"f", .fn (.user 0), TE_FUNCTION0, 0⟩] env0).tree.map
      TeExpr.type) = some TE_FUNCTION0 ∧
    ((te_compile "f".data [⟨"f", .fn (.user 0), TE_FUNCTION0, 0⟩] env0).tree.map
      treeNoVar) = some true ∧
    TE_FUNCTION0 ≠ TE_CONSTANT := by decide

/-- C1 (amended): when every caller-registered function or closure
binding carries TE_FLAG_PURE (true in particular for the empty binding
list and for anything the builtin table supplies), every accepted
variable-free input compiles to a single constant node whose stored value
is exactly what te_eval would have produced on the unoptimized parse
tree. -/
theorem claim_C1 (input : List Char) (lookup : List TeVariable) (env : Env)
    (root : TeExpr) (s1 : State)
    (hp : list (parse_fuel input) (next_token (init_state input lookup)) = some (root, s1))
    (hend : s1.type = TOK_END)
    (hnv : treeNoVar root = true)
    (hpure : pureLookup lookup = true) :
    te_compile input lookup env =
      ⟨some (.mk TE_CONSTANT (te_eval env root) root.bound root.function []), 0⟩ := by
  obtain ⟨hci, hcl, hct, hcg, hcp⟩ :=
    ((parser_inv (parse_fuel input)).2.2.2.2.2.2.2.2.2.2.1) _ root s1 hp
  obtain ⟨hs0i, hs0l, hs0t⟩ := next_token_inv (init_state input lookup)
  have hne : s1.type ≠ TOK_ERROR := by rw [hend]; decide
  have hgood : goodTree root = true := hcg hne
  have hok0 : TokOK (next_token (init_state input lookup)) := hs0t hpure
  have hpure2 : treePure root = true :=
    hcp hne hok0 (by rw [hs0l]; exact hpure)
  have hfold := optimize_foldable env (sizeOf root) root (le_refl _) hgood hpure2 hnv
  unfold te_compile
  simp only [hp]
  rw [if_neg (fun hcon => hcon hend)]
  rw [hfold]

/-- C1's witness: the variable-free input 1+2 (empty binding list, which
is trivially pure) compiles to the single constant node 3; the folded
value, bound and function fields are exactly te_eval and the fields of
the unoptimized root 1+2. -/
theorem claim_C1_witness :
    te_compile "1+2".data [] env0 =
      ⟨some (.mk TE_CONSTANT (.fin ⟨3, 1⟩) 0 .add []), 0⟩ := by
  have h := claim_C1 "1+2".data [] env0 _ _ rfl rfl (by decide) (by decide)
  exact h

/-! ### Claim C9: closure context slot, parser and evaluator agreement -/

/-- A tree listed under a parameter array comes from some pexpr slot. -/
theorem nodesOfParams_mem : ∀ (ps : List Param) (n : TeExpr), n ∈ nodesOfParams ps →
    ∃ (i : Nat) (e : TeExpr), ps[i]? = some (Param.pexpr e) ∧ n ∈ nodesOf e := by
  intro ps
  induction ps with
  | nil => intro n h; simp [nodesOfParams] at h
  | cons p ps ih =>
    intro n h
    simp only [nodesOfParams] at h
    rcases List.mem_append.mp h with h1 | h2
    · cases p with
      | pexpr e => exact ⟨0, e, by simp, by simpa [nodesOfParam] using h1⟩
      | pctx c => simp [nodesOfParam] at h1
      | pnull => simp [nodesOfParam] at h1
    · obtain ⟨i, e, hie, hn2⟩ := ih n h2
      exact ⟨i + 1, e, by simpa using hie, hn2⟩

/-- Every child slot of a well-formed node holds a well-formed subtree. -/
theorem goodTree_slots {ty : Nat} {v : TEDouble} {b : Nat} {f : Fptr} {ps : List Param}
    (hg : goodTree (.mk ty v b f ps) = true) :
    ∀ (i : Nat) (e : TeExpr), ps[i]? = some (Param.pexpr e) → goodTree e = true := by
  intro i e hie
  have hlt : i < ps.length := (List.getElem?_eq_some_iff.mp hie).1
  simp only [goodTree] at hg
  by_cases hf : IS_FUNCTION ty = true
  · rw [if_pos hf] at hg
    simp only [Bool.and_eq_true, beq_iff_eq] at hg
    obtain ⟨hlen, hgood⟩ := hg
    obtain ⟨e2, he2, hge2⟩ := paramsGood_get ps (ARITY ty) i hgood (by omega)
    rw [hie, Option.some_inj] at he2
    injection he2 with he3
    subst he3
    exact hge2
  · rw [if_neg hf] at hg
    by_cases hc : IS_CLOSURE ty = true
    · rw [if_pos hc] at hg
      simp only [Bool.and_eq_true, beq_iff_eq] at hg
      obtain ⟨⟨hlen, hgood⟩, hctx⟩ := hg
      by_cases hia : i < ARITY ty
      · obtain ⟨e2, he2, hge2⟩ := paramsGood_get ps (ARITY ty) i hgood hia
        rw [hie, Option.some_inj] at he2
        injection he2 with he3
        subst he3
        exact hge2
      · have hi2 : i = ARITY ty := by omega
        subst hi2
        rw [hie] at hctx
        simp [isCtxSlot] at hctx
    · rw [if_neg hc] at hg
      have hemp : ps = [] := List.isEmpty_iff.mp hg
      subst hemp
      simp at hie

/-- Every node of a well-formed tree is well-formed. -/
theorem nodesOf_good : ∀ (N : Nat) (t : TeExpr), sizeOf t ≤ N → goodTree t = true →
    ∀ n ∈ nodesOf t, goodTree n = true := by
  intro N
  induction N with
  | zero =>
    intro t hsz
    obtain ⟨ty, v, b, f, ps⟩ := t
    simp only [TeExpr.mk.sizeOf_spec] at hsz
    omega
  | succ N ih =>
    intro t hsz hg n hn
    obtain ⟨ty, v, b, f, ps⟩ := t
    simp only [nodesOf] at hn
    rcases List.mem_cons.mp hn with h1 | h2
    · subst h1; exact hg
    · obtain ⟨i, e, hie, hne⟩ := nodesOfParams_mem ps n h2
      have hge : goodTree e = true := goodTree_slots hg i e hie
      have hsze : sizeOf e ≤ N := by
        have h3 := sizeOf_child hie
        have h4 := sizeOf_params ty v b f ps
        omega
      exact ih e hsze hge n hne

/-- te_eval's closure dispatch: a node whose mask is in TE_CLOSURE0..7
calls the pointer with the context read from parameter slot arity. -/
theorem te_eval_closure {ty : Nat} (h16 : 16 ≤ TYPE_MASK ty) (h23 : TYPE_MASK ty ≤ 23)
    (env : Env) (v : TEDouble) (b : Nat) (f : Fptr) (ps : List Param) :
    te_eval env (.mk ty v b f ps) =
      applyClosure env f (ctxOfSlot ps[ARITY ty]?) (evalChildren env ps (ARITY ty)) := by
  simp only [te_eval]
  rw [if_neg (by simp only [TE_CONSTANT]; omega),
    if_neg (by simp only [TE_VARIABLE]; omega),
    if_neg (by simp only [TE_FUNCTION0, TE_FUNCTION7]; omega),
    if_pos (by simp only [TE_CLOSURE0, TE_CLOSURE7]; exact ⟨h16, h23⟩)]

/-- C9: parser storage and evaluator retrieval of the closure context
agree for every closure arity.  In any tree the parser returns, every
closure node (mask TE_CLOSURE0..7) has exactly arity + 1 parameter
slots; the slot immediately past the last child, index arity (for the
one-argument closure this is parameters[1]), holds the context pointer;
and te_eval passes exactly that pointer to the underlying callable,
together with the arity evaluated children. -/
theorem claim_C9 (input : List Char) (lookup : List TeVariable)
    (root : TeExpr) (s1 : State)
    (hp : list (parse_fuel input) (next_token (init_state input lookup)) = some (root, s1))
    (hne : s1.type ≠ TOK_ERROR) :
    ∀ n ∈ nodesOf root, 16 ≤ TYPE_MASK n.type → TYPE_MASK n.type ≤ 23 →
      n.params.length = ARITY n.type + 1 ∧
      ∃ c, n.params[ARITY n.type]? = some (.pctx c) ∧
        ∀ env2 : Env, te_eval env2 n =
          applyClosure env2 n.function c (evalChildren env2 n.params (ARITY n.type)) := by
  intro n hn h16 h23
  obtain ⟨hci, hcl, hct, hcg, hcp⟩ :=
    ((parser_inv (parse_fuel input)).2.2.2.2.2.2.2.2.2.2.1) _ root s1 hp
  have hgroot : goodTree root = true := hcg hne
  have hgn : goodTree n = true := nodesOf_good (sizeOf root) root (le_refl _) hgroot n hn
  obtain ⟨hf, hc⟩ := bits_of_mask_clo h16 h23
  obtain ⟨ty, v, b, f, ps⟩ := n
  simp only [TeExpr.type] at h16 h23 hf hc ⊢
  simp only [TeExpr.params, TeExpr.function]
  simp only [goodTree] at hgn
  rw [if_neg (by simp [hf]), if_pos hc] at hgn
  simp only [Bool.and_eq_true, beq_iff_eq] at hgn
  obtain ⟨⟨hlen, hgood⟩, hctx⟩ := hgn
  refine ⟨hlen, ?_⟩
  cases hslot : ps[ARITY ty]? with
  | none => rw [hslot] at hctx; simp [isCtxSlot] at hctx
  | some p =>
    cases p with
    | pexpr e => rw [hslot] at hctx; simp [isCtxSlot] at hctx
    | pnull => rw [hslot] at hctx; simp [isCtxSlot] at hctx
    | pctx c =>
      refine ⟨c, rfl, ?_⟩
      intro env2
      rw [te_eval_closure h16 h23, hslot]
      rfl

/-- C9's witness: the input c1(2) with a registered 1-argument closure
(context pointer 7) parses to a closure node whose parameters[1] (the
slot at index arity) is the context slot holding 7, and te_eval calls
the closure through exactly that pointer. -/
theorem claim_C9_witness :
    (TeExpr.mk TE_CLOSURE1 (.fin ⟨0, 1⟩) 0 (.user 5)
      [.pexpr (.mk TE_CONSTANT (.fin ⟨2, 1⟩) 0 default []), .pctx 7]).params.length =
      ARITY TE_CLOSURE1 + 1 ∧
    ∃ c, (TeExpr.mk TE_CLOSURE1 (.fin ⟨0, 1⟩) 0 (.user 5)
      [.pexpr (.mk TE_CONSTANT (.fin ⟨2, 1⟩) 0 default []),
        .pctx 7]).params[ARITY TE_CLOSURE1]? = some (.pctx c) ∧
      ∀ env2 : Env, te_eval env2 (TeExpr.mk TE_CLOSURE1 (.fin ⟨0, 1⟩) 0 (.user 5)
          [.pexpr (.mk TE_CONSTANT (.fin ⟨2, 1⟩) 0 default []), .pctx 7]) =
        applyClosure env2 (TeExpr.mk TE_CLOSURE1 (.fin ⟨0, 1⟩) 0 (.user 5)
          [.pexpr (.mk TE_CONSTANT (.fin ⟨2, 1⟩) 0 default []), .pctx 7]).function c
          (evalChildren env2 (TeExpr.mk TE_CLOSURE1 (.fin ⟨0, 1⟩) 0 (.user 5)
            [.pexpr (.mk TE_CONSTANT (.fin ⟨2, 1⟩) 0 default []), .pctx 7]).params
            (ARITY (TeExpr.mk TE_CLOSURE1 (.fin ⟨0, 1⟩) 0 (.user 5)
              [.pexpr (.mk TE_CONSTANT (.fin ⟨2, 1⟩) 0 default []), .pctx 7]).type)) := by
  have h := claim_C9 "c1(2)".data [⟨"c1", .fn (.user 5), TE_CLOSURE1, 7⟩]
    (TeExpr.mk TE_CLOSURE1 (.fin ⟨0, 1⟩) 0 (.user 5)
      [.pexpr (.mk TE_CONSTANT (.fin ⟨2, 1⟩) 0 default []), .pctx 7]) _ rfl (by decide)
  exact h _ (List.mem_cons_self _ _) (by decide) (by decide)

/-! ### Claim C4: leading sign runs in power -/

/-- The identifier arm when the name resolves to a variable binding. -/
theorem lookup_ident_var (s : State) (e : Nat) (v : TeVariable)
    (hfl : find_lookup s.lookup (s.input.drop s.next) (e - s.next) = some v)
    (hm : TYPE_MASK v.type = TE_VARIABLE) :
    lookup_ident s e =
      { s with next := e, type := TOK_VARIABLE, bound := addrVarRef v.address } := by
  unfold lookup_ident
  simp only [hfl]
  rw [if_pos hm]

/-- Lexing the k-minus input at one of the minus signs. -/
theorem C4_next_minus (k : Nat) (s : State)
    (hin : s.input = List.replicate k '-' ++ ['x']) (hik : s.next < k) :
    next_token s = { s with type := TOK_BINOP, function := Fptr.sub, next := s.next + 1 } := by
  have hlen : s.input.length = k + 1 := by rw [hin]; simp
  have hchar : s.input[s.next]? = some '-' := by
    rw [hin, List.getElem?_append_left (by simpa using hik),
      List.getElem?_replicate_of_lt hik]
  unfold next_token
  have hfuel : s.input.length + 1 - s.next = (k + 1 - s.next) + 1 := by omega
  rw [hfuel]
  unfold next_token_loop
  simp only [hchar]
  rw [if_neg (by decide), if_neg (by decide)]

/-- Lexing the k-minus input at the identifier x. -/
theorem C4_next_var (k : Nat) (s : State)
    (hin : s.input = List.replicate k '-' ++ ['x'])
    (hlk : s.lookup = [⟨"x", .var 0, TE_VARIABLE, 0⟩])
    (hn : s.next = k) :
    next_token s = { s with type := TOK_VARIABLE, bound := 0, next := k + 1 } := by
  have hlen : s.input.length = k + 1 := by rw [hin]; simp
  have hx : s.input[k]? = some 'x' := by
    rw [hin, List.getElem?_append_right (by simp)]
    simp
  have hnone : s.input[k + 1]? = none := by
    rw [hin]
    refine List.getElem?_eq_none ?_
    simp
  have hdrop : s.input.drop k = ['x'] := by
    rw [hin]
    have h2 := List.drop_left (List.replicate k '-') ['x']
    simpa using h2
  have hxn : s.input[s.next]? = some 'x' := by rw [hn]; exact hx
  have hie : ident_end (s.input.length + 1) s.input s.next = k + 1 := by
    rw [hlen, hn]
    show ident_end ((k + 1) + 1) s.input k = k + 1
    unfold ident_end
    simp only [hx]
    rw [if_pos (by decide)]
    unfold ident_end
    simp only [hnone]
  have hfl2 : find_lookup ({ s with type := TOK_NULL } : State).lookup
      (({ s with type := TOK_NULL } : State).input.drop
        ({ s with type := TOK_NULL } : State).next)
      (k + 1 - ({ s with type := TOK_NULL } : State).next) =
      some ⟨"x", .var 0, TE_VARIABLE, 0⟩ := by
    show find_lookup s.lookup (s.input.drop s.next) (k + 1 - s.next) = _
    rw [hlk, hn, hdrop, Nat.add_sub_cancel_left]
    decide
  have hli : lookup_ident { s with type := TOK_NULL } (k + 1) =
      { s with type := TOK_VARIABLE, bound := 0, next := k + 1 } := by
    rw [lookup_ident_var _ _ ⟨"x", .var 0, TE_VARIABLE, 0⟩ hfl2 (by decide)]
    rfl
  unfold next_token
  have hfuel : s.input.length + 1 - s.next = 2 := by omega
  rw [hfuel]
  unfold next_token_loop
  simp only [hxn]
  rw [if_neg (by decide), if_pos (by decide)]
  rw [hie, hli]
  rw [if_neg (fun hcon => absurd hcon (show TOK_VARIABLE ≠ TOK_NULL by decide))]

/-- Lexing the k-minus input past its end. -/
theorem C4_next_end (k : Nat) (s : State)
    (hin : s.input = List.replicate k '-' ++ ['x']) (hn : s.next = k + 1) :
    next_token s = { s with type := TOK_END } := by
  have hlen : s.input.length = k + 1 := by rw [hin]; simp
  have hnone : s.input[s.next]? = none := by
    rw [hin, hn]
    refine List.getElem?_eq_none ?_
    simp
  unfold next_token
  have hfuel : s.input.length + 1 - s.next = 1 := by omega
  rw [hfuel]
  unfold next_token_loop
  simp only [hnone]

/-- The sign loop is inert on a non-sign token. -/
theorem power_signs_stop (fl : Nat) (sign : Int) (s : State)
    (h : ¬(s.type = TOK_BINOP ∧ (s.function = .add ∨ s.function = .sub))) :
    power_signs fl sign s = (sign, s) := by
  cases fl with
  | zero => rfl
  | succ fl => unfold power_signs; rw [if_neg h]

/-- The sign loop on the k-minus input: standing on the minus at offset
p, it consumes the remaining k - p minus tokens, flipping the sign each
time, and stops on the variable token. -/
theorem C4_signs (k : Nat) : ∀ (fl p : Nat) (sign : Int) (s : State),
    s.input = List.replicate k '-' ++ ['x'] →
    s.lookup = [⟨"x", .var 0, TE_VARIABLE, 0⟩] →
    s.next = p + 1 → s.type = TOK_BINOP → s.function = .sub →
    p < k → k - p ≤ fl →
    power_signs fl sign s =
      ((-1) ^ (k - p) * sign,
        { s with type := TOK_VARIABLE, bound := 0, next := k + 1 }) := by
  intro fl
  induction fl with
  | zero =>
    intro p sign s _ _ _ _ _ hpk hfl
    omega
  | succ fl ih =>
    intro p sign s hin hlk hn hty hfn hpk hfl
    unfold power_signs
    rw [if_pos ⟨hty, Or.inr hfn⟩, if_pos hfn]
    by_cases hp1 : p + 1 < k
    · rw [C4_next_minus k s hin (by omega)]
      rw [ih (p + 1) (-sign)
        { s with type := TOK_BINOP, function := Fptr.sub, next := s.next + 1 }
        (by exact hin) (by exact hlk) (by simp [hn]) rfl rfl hp1 (by omega)]
      simp only [Prod.mk.injEq]
      constructor
      · have hs2 : k - p = (k - (p + 1)) + 1 := by omega
        rw [hs2, pow_succ]
        ring
      · rw [hfn]
    · have hpk2 : p + 1 = k := by omega
      rw [C4_next_var k s hin hlk (by omega)]
      rw [power_signs_stop fl (-sign) _
        (fun hcon => absurd hcon.1 (show TOK_VARIABLE ≠ TOK_BINOP by decide))]
      simp only [Prod.mk.injEq]
      constructor
      · rw [show k - p = 1 from by omega, pow_one]
        ring
      · trivial

/-- factor's while loop is inert off the power operator. -/
theorem factor_loop_stop (fl : Nat) (ret : TeExpr) (s : State) (hfl : fl ≠ 0)
    (h : ¬(s.type = TOK_BINOP ∧ s.function = .powP)) :
    factor_loop fl ret s = some (ret, s) := by
  cases fl with
  | zero => exact absurd rfl hfl
  | succ fl => unfold factor_loop; rw [if_neg h]

/-- term's while loop is inert off * / %. -/
theorem term_loop_stop (fl : Nat) (ret : TeExpr) (s : State) (hfl : fl ≠ 0)
    (h : ¬(s.type = TOK_BINOP ∧ (s.function = .mul ∨ s.function = .divide ∨ s.function = .fmodP))) :
    term_loop fl ret s = some (ret, s) := by
  cases fl with
  | zero => exact absurd rfl hfl
  | succ fl => unfold term_loop; rw [if_neg h]

/-- expr's while loop is inert off + -. -/
theorem expr_loop_stop (fl : Nat) (ret : TeExpr) (s : State) (hfl : fl ≠ 0)
    (h : ¬(s.type = TOK_BINOP ∧ (s.function = .add ∨ s.function = .sub))) :
    expr_loop fl ret s = some (ret, s) := by
  cases fl with
  | zero => exact absurd rfl hfl
  | succ fl => unfold expr_loop; rw [if_neg h]

/-- list's while loop is inert off the separator. -/
theorem list_loop_stop (fl : Nat) (ret : TeExpr) (s : State) (hfl : fl ≠ 0)
    (h : ¬s.type = TOK_SEP) :
    list_loop fl ret s = some (ret, s) := by
  cases fl with
  | zero => exact absurd rfl hfl
  | succ fl => unfold list_loop; rw [if_neg h]

/-- Parsing the k-minus input (k ≥ 1): the whole ladder returns the
variable node for an even k and one negate wrapper for an odd k, ending
on the END token. -/
theorem C4_list_run (k : Nat) (hk : 1 ≤ k) : ∀ f, k + 6 ≤ f →
    list f (next_token (init_state (List.replicate k '-' ++ ['x'])
        [⟨"x", .var 0, TE_VARIABLE, 0⟩])) =
      some ((if Even k then TeExpr.mk TE_VARIABLE (.fin ⟨0, 1⟩) 0 default []
             else TeExpr.mk (TE_FUNCTION1 ||| TE_FLAG_PURE) (.fin ⟨0, 1⟩) 0 .negate
               [.pexpr (.mk TE_VARIABLE (.fin ⟨0, 1⟩) 0 default [])]),
        { input := List.replicate k '-' ++ ['x'], next := k + 1, type := TOK_END,
          value := .fin ⟨0, 1⟩, bound := 0, function := Fptr.sub, context := 0,
          lookup := [⟨"x", .var 0, TE_VARIABLE, 0⟩] }) := by
  intro f hf
  obtain ⟨g, rfl⟩ : ∃ g, f = g + 6 := ⟨f - 6, by omega⟩
  have hs0 : next_token (init_state (List.replicate k '-' ++ ['x'])
      [⟨"x", .var 0, TE_VARIABLE, 0⟩]) =
      { input := List.replicate k '-' ++ ['x'], next := 1, type := TOK_BINOP,
        value := .fin ⟨0, 1⟩, bound := 0, function := Fptr.sub, context := 0,
        lookup := [⟨"x", .var 0, TE_VARIABLE, 0⟩] } := by
    rw [C4_next_minus k _ rfl (by simpa using hk)]
    rfl
  rw [hs0]
  unfold list expr term factor power
  rw [C4_signs k (g + 1) 0 1 _ rfl rfl rfl rfl rfl (by omega) (by omega)]
  simp only [Nat.sub_zero, mul_one]
  by_cases he : Even k
  · rw [if_pos (by rw [Even.neg_one_pow he])]
    unfold base
    rw [if_neg (fun hcon => absurd hcon (show TYPE_MASK TOK_VARIABLE ≠ TOK_NUMBER by decide)),
      if_pos (show TYPE_MASK TOK_VARIABLE = TOK_VARIABLE from by decide)]
    rw [C4_next_end k
      { input := List.replicate k '-' ++ ['x'], next := k + 1, type := TOK_VARIABLE,
        value := .fin ⟨0, 1⟩, bound := 0, function := Fptr.sub, context := 0,
        lookup := [⟨"x", .var 0, TE_VARIABLE, 0⟩] } rfl rfl]
    simp only []
    rw [factor_loop_stop (g + 2) _ _ (by omega)
      (fun hcon => absurd hcon.1 (show TOK_END ≠ TOK_BINOP by decide))]
    simp only []
    rw [term_loop_stop (g + 3) _ _ (by omega)
      (fun hcon => absurd hcon.1 (show TOK_END ≠ TOK_BINOP by decide))]
    simp only []
    rw [expr_loop_stop (g + 4) _ _ (by omega)
      (fun hcon => absurd hcon.1 (show TOK_END ≠ TOK_BINOP by decide))]
    simp only []
    rw [list_loop_stop (g + 5) _ _ (by omega) (show TOK_END ≠ TOK_SEP by decide)]
    rw [if_pos he]
  · rw [if_neg (by rw [Odd.neg_one_pow (Nat.not_even_iff_odd.mp he)]; decide)]
    unfold base
    rw [if_neg (fun hcon => absurd hcon (show TYPE_MASK TOK_VARIABLE ≠ TOK_NUMBER by decide)),
      if_pos (show TYPE_MASK TOK_VARIABLE = TOK_VARIABLE from by decide)]
    rw [C4_next_end k
      { input := List.replicate k '-' ++ ['x'], next := k + 1, type := TOK_VARIABLE,
        value := .fin ⟨0, 1⟩, bound := 0, function := Fptr.sub, context := 0,
        lookup := [⟨"x", .var 0, TE_VARIABLE, 0⟩] } rfl rfl]
    simp only []
    rw [factor_loop_stop (g + 2) _ _ (by omega)
      (fun hcon => absurd hcon.1 (show TOK_END ≠ TOK_BINOP by decide))]
    simp only []
    rw [term_loop_stop (g + 3) _ _ (by omega)
      (fun hcon => absurd hcon.1 (show TOK_END ≠ TOK_BINOP by decide))]
    simp only []
    rw [expr_loop_stop (g + 4) _ _ (by omega)
      (fun hcon => absurd hcon.1 (show TOK_END ≠ TOK_BINOP by decide))]
    simp only []
    rw [list_loop_stop (g + 5) _ _ (by omega) (show TOK_END ≠ TOK_SEP by decide)]
    rw [if_neg he]

/-- C4: power consumes any run of leading + and - infix tokens into a net
sign; a positive net sign returns the base subtree itself with no wrapper
node, a negative one wraps the base in exactly one pure unary negation
node.  On the inputs made of k minus signs before a registered variable
x, an even k compiles to the bare variable node (evaluating to x) and an
odd k to a single negation wrapper (evaluating to -x); in particular
 - - x evaluates to x. -/
theorem claim_C4 (k : Nat) (env : Env) :
    (∀ (fl : Nat) (s : State), power (fl + 1) s =
      (if (power_signs fl 1 s).1 = 1 then base fl (power_signs fl 1 s).2
       else (base fl (power_signs fl 1 s).2).map fun bs =>
         (.mk (TE_FUNCTION1 ||| TE_FLAG_PURE) (.fin ⟨0, 1⟩) 0 .negate [.pexpr bs.1],
           bs.2))) ∧
    te_compile (List.replicate k '-' ++ ['x']) [⟨"x", .var 0, TE_VARIABLE, 0⟩] env =
      ⟨some (if Even k then TeExpr.mk TE_VARIABLE (.fin ⟨0, 1⟩) 0 default []
             else TeExpr.mk (TE_FUNCTION1 ||| TE_FLAG_PURE) (.fin ⟨0, 1⟩) 0 .negate
               [.pexpr (.mk TE_VARIABLE (.fin ⟨0, 1⟩) 0 default [])]), 0⟩ ∧
    te_eval env (if Even k then TeExpr.mk TE_VARIABLE (.fin ⟨0, 1⟩) 0 default []
             else TeExpr.mk (TE_FUNCTION1 ||| TE_FLAG_PURE) (.fin ⟨0, 1⟩) 0 .negate
               [.pexpr (.mk TE_VARIABLE (.fin ⟨0, 1⟩) 0 default [])]) =
      (if Even k then env.heap 0 else TEDouble.neg (env.heap 0)) := by
  refine ⟨?_, ?_, ?_⟩
  · intro fl s
    unfold power
    cases hps : power_signs fl 1 s with
    | mk sign s1 =>
      simp only [hps]
      by_cases hsig : sign = 1
      · rw [if_pos hsig, if_pos hsig]
      · rw [if_neg hsig, if_neg hsig]
        cases hb : base fl s1 with
        | none => rfl
        | some bs => rfl
  · cases k with
    | zero =>
      rw [if_pos (by decide : Even 0)]
      rfl
    | succ k2 =>
      unfold te_compile
      simp only []
      rw [C4_list_run (k2 + 1) (by omega) _ (by simp [parse_fuel]; omega)]
      by_cases he : Even (k2 + 1)
      · rw [if_pos he]
        simp only []
        rw [if_neg (fun hcon => hcon rfl)]
        rfl
      · rw [if_neg he]
        simp only []
        rw [if_neg (fun hcon => hcon rfl)]
        rfl
  · by_cases he : Even k
    · rw [if_pos he, if_pos he]
      rfl
    · rw [if_neg he, if_neg he]
      rfl

end TinyExpr
